import Mathlib

/-!
# Verification of the go-quantcup price-time matching engine

A shallow embedding of the Go matching engine (`Engine`, `Reset`, `Limit`,
`Cancel`, `executeTrade`, `ppInsertOrder`) together with proofs of the
properties claimed in the specification.

Modelling conventions:
* Go arrays become total functions `Nat → _`; every array access that Go
  bounds-checks at runtime is guarded here and a failed check returns
  `Err.indexOutOfRange` (the embedding of a Go runtime panic).
* Pointers into the entry arena (`*orderBookEntry`) become `Option Nat`
  arena indices (`none` is `nil`).
* The deal array together with its cursor `curDealID` is modelled as the
  list of deals written so far (`deals`), appended on the right; `curDealID`
  is its length.  Cells past the cursor are never read by the code.
* `uint`/`uint64` counters are modelled as `Nat`; the two counters that the
  code moves in both directions past array ends (`askMin`, `bidMax`) use
  explicit mod-2^64 increment/decrement (`inc64`, `dec64`) because the
  sell-side scan decrements `bidMax` before the loop-exit test and 0 - 1
  wraps in Go.
* The scan loops of `Limit` terminate on fuel; exhausting fuel gives the
  distinguished error `Err.outOfFuel`, which never occurs for adequate fuel.
-/

namespace QC

/-- Modelled from the spec: `minPrice` is referenced by `Reset` but its
defining file is not part of the sources; the spec fixes `MIN_PRICE = 1`. -/
def minPrice : Nat := 1

/-- Modelled from the spec: `maxPrice` is referenced by the `pricePoints`
array type but its defining file is not part of the sources; the spec fixes
`MAX_PRICE = 65535` (the largest `uint16` price). -/
def maxPrice : Nat := 65535

/-- `const maxNumOrders uint = 1010000` -/
def maxNumOrders : Nat := 1010000

/-- `const maxNumDeals uint = maxNumOrders / 2` -/
def maxNumDeals : Nat := maxNumOrders / 2

/-- `type Side int` with `Bid`/`Ask` constants. -/
inductive Side where
  | Bid
  | Ask
  deriving DecidableEq, Repr

/-- `type Order struct` (id, symbol, trader, side, price, size). -/
structure Order where
  id : Nat
  symbol : String
  trader : String
  side : Side
  price : Nat
  size : Nat
  deriving DecidableEq, Repr

/-- `struct orderBookEntry`: one outstanding limit order in the arena. -/
structure OrderBookEntry where
  size : Nat
  next : Option Nat
  trader : String
  id : Nat
  deriving DecidableEq, Repr

/-- The Go zero value of `orderBookEntry`. -/
def OrderBookEntry.zero : OrderBookEntry := ⟨0, none, "", 0⟩

/-- `struct pricePoint`: head/tail of the FIFO list at one price. -/
structure PricePoint where
  listHead : Option Nat
  listTail : Option Nat
  deriving DecidableEq, Repr

/-- The Go zero value of `pricePoint`. -/
def PricePoint.zero : PricePoint := ⟨none, none⟩

/-- `type Deal struct`. -/
structure Deal where
  bidOrderID : Nat
  askOrderID : Nat
  askTrader : String
  bidTrader : String
  symbol : String
  price : Nat
  size : Nat
  deriving DecidableEq, Repr

/-- `type Engine struct`.  The deal array and its cursor are modelled as
the list of deals written so far. -/
structure Engine where
  pricePoints : Nat → PricePoint
  curOrderID : Nat
  askMin : Nat
  bidMax : Nat
  bookEntries : Nat → OrderBookEntry
  deals : List Deal

/-- Errors of the embedding: a Go runtime panic (out-of-range index or nil
pointer dereference) or fuel exhaustion of the scan loops. -/
inductive Err where
  | indexOutOfRange
  | nilPointer
  | outOfFuel
  deriving DecidableEq, Repr

/-- Pointwise array update. -/
def upd {α : Type} (f : Nat → α) (i : Nat) (v : α) : Nat → α :=
  fun j => if j = i then v else f j

/-- Assign the `listHead` field (a store through a `*pricePoint`). -/
def PricePoint.withHead (pp : PricePoint) (h : Option Nat) : PricePoint :=
  { pp with listHead := h }

/-- Assign the `listTail` field (a store through a `*pricePoint`). -/
def PricePoint.withTail (pp : PricePoint) (t : Option Nat) : PricePoint :=
  { pp with listTail := t }

/-- Assign both list pointers (the empty-list branch of `ppInsertOrder`). -/
def PricePoint.withBoth (pp : PricePoint) (h t : Option Nat) : PricePoint :=
  { pp with listHead := h, listTail := t }

/-- Assign the `size` field (a store through a `*orderBookEntry`). -/
def OrderBookEntry.withSize (be : OrderBookEntry) (s : Nat) : OrderBookEntry :=
  { be with size := s }

/-- Assign the `next` field (a store through a `*orderBookEntry`). -/
def OrderBookEntry.withNext (be : OrderBookEntry) (n : Option Nat) : OrderBookEntry :=
  { be with next := n }

/-- Assign the fields written when a new entry is allocated by `Limit`
(`entry.size`, `entry.trader`, `entry.id`; `next` is left as-is). -/
def OrderBookEntry.written (be : OrderBookEntry) (s : Nat) (tr : String) (i : Nat) :
    OrderBookEntry :=
  { be with size := s, trader := tr, id := i }

/-- 64-bit unsigned increment. -/
def inc64 (n : Nat) : Nat := (n + 1) % 2 ^ 64

/-- 64-bit unsigned decrement. -/
def dec64 (n : Nat) : Nat := (n + (2 ^ 64 - 1)) % 2 ^ 64

/-- The Go zero value of `Engine` (`var e Engine`). -/
def initEngine : Engine :=
  { pricePoints := fun _ => PricePoint.zero
    curOrderID := 0
    askMin := 0
    bidMax := 0
    bookEntries := fun _ => OrderBookEntry.zero
    deals := [] }

/-- `func (e *Engine) Reset(...)`.  The two `for _, x := range` loops
iterate over copies of the elements, so their assignments have no effect;
in particular `bookEntries` is NOT cleared.  The price-point table is
cleared by the array assignment `e.pricePoints = *new(...)`, and the
cursors and scan pointers are reinitialised.  (The database calls are
external I/O and not part of the engine state.) -/
def Reset (e : Engine) : Engine :=
  { e with
    pricePoints := fun _ => PricePoint.zero
    curOrderID := 0
    deals := []
    askMin := maxPrice + 1
    bidMax := minPrice - 1 }

/-- `func (e *Engine) executeTrade(...)`: skip size-0 trades, append the
deal at the cursor (bounds-checked against `maxNumDeals`). -/
def executeTrade (e : Engine) (bidOrderID askOrderID : Nat)
    (symbol bidTrader askTrader : String) (price size : Nat) :
    Except Err Engine :=
  if size = 0 then .ok e
  else if e.deals.length < maxNumDeals then
    .ok { e with deals := e.deals ++
      [{ bidOrderID := bidOrderID, askOrderID := askOrderID,
         askTrader := askTrader, bidTrader := bidTrader,
         symbol := symbol, price := price, size := size }] }
  else .error .indexOutOfRange

/-- Store one price point (a write through `&e.pricePoints[p]`). -/
def Engine.setPP (e : Engine) (p : Nat) (pp : PricePoint) : Engine :=
  { e with pricePoints := upd e.pricePoints p pp }

/-- Store one arena entry (a write through a `*orderBookEntry`). -/
def Engine.setBE (e : Engine) (k : Nat) (be : OrderBookEntry) : Engine :=
  { e with bookEntries := upd e.bookEntries k be }

/-- Store the `listHead` of the price point at `lvl`
(`ppEntry.listHead = ...` where `ppEntry = &e.pricePoints[lvl]`). -/
def setHeadAt (e : Engine) (lvl : Nat) (h : Option Nat) : Engine :=
  e.setPP lvl ((e.pricePoints lvl).withHead h)

/-- `e.curOrderID++`. -/
def bump (e : Engine) : Engine := { e with curOrderID := inc64 e.curOrderID }

/-- `e.askMin = n`. -/
def withAskMin (e : Engine) (n : Nat) : Engine := { e with askMin := n }

/-- `e.bidMax = n`. -/
def withBidMax (e : Engine) (n : Nat) : Engine := { e with bidMax := n }

/-- `e.curOrderID = n`. -/
def withCurOrderID (e : Engine) (n : Nat) : Engine := { e with curOrderID := n }

/-- `func ppInsertOrder(ppEntry *pricePoint, entry *orderBookEntry)`:
append `entryIdx` at the tail of the list at price `p`. -/
def ppInsertOrder (e : Engine) (p : Nat) (entryIdx : Nat) : Except Err Engine :=
  match (e.pricePoints p).listHead with
  | some _ =>
    match (e.pricePoints p).listTail with
    | some t =>
      let e1 := e.setBE t ((e.bookEntries t).withNext (some entryIdx))
      .ok (e1.setPP p ((e1.pricePoints p).withTail (some entryIdx)))
    | none => .error .nilPointer
  | none =>
    .ok (e.setPP p ((e.pricePoints p).withBoth (some entryIdx) (some entryIdx)))

/-- Result of the matching scan: either the incoming order was fully
filled inside the loop (`filled`, carrying the returned order id), or the
loop was exited with a remainder that must rest in the book (`rest`). -/
inductive ScanRes where
  | filled (e : Engine) (oid : Nat)
  | rest (e : Engine) (remaining : Nat)

/-- The buy-side scan of `Limit` (lines with `order.side == Bid`): walk the
list at the current level `lvl` (starting at `askMin`), crossing with the
incoming order; on exhausting a level, clear its head, increment `askMin`
and take the address of the next price point BEFORE testing the loop-exit
condition (this is where the scan can run off the end of the array). -/
def bidWalk (o : Order) : Nat → Engine → Nat → Option Nat → Nat → Except Err ScanRes
  | 0, _, _, _, _ => .error .outOfFuel
  | fuel + 1, e, lvl, some k, orderSize =>
    if (e.bookEntries k).size < orderSize then
      match executeTrade e o.id (e.bookEntries k).id o.symbol o.trader
          (e.bookEntries k).trader o.price (e.bookEntries k).size with
      | .error er => .error er
      | .ok e1 => bidWalk o fuel e1 lvl (e.bookEntries k).next (orderSize - (e.bookEntries k).size)
    else
      match executeTrade e o.id (e.bookEntries k).id o.symbol o.trader
          (e.bookEntries k).trader o.price orderSize with
      | .error er => .error er
      | .ok e1 =>
        if orderSize < (e.bookEntries k).size then
          .ok (.filled (bump (setHeadAt (e1.setBE k ((e.bookEntries k).withSize
            ((e.bookEntries k).size - orderSize))) lvl (some k))) (inc64 e1.curOrderID))
        else
          .ok (.filled (bump (setHeadAt e1 lvl (e.bookEntries k).next)) (inc64 e1.curOrderID))
  | fuel + 1, e, lvl, none, orderSize =>
    if inc64 e.askMin ≤ maxPrice then
      if o.price < inc64 e.askMin then
        .ok (.rest (withAskMin (setHeadAt e lvl none) (inc64 e.askMin)) orderSize)
      else
        bidWalk o fuel (withAskMin (setHeadAt e lvl none) (inc64 e.askMin)) (inc64 e.askMin)
          (((withAskMin (setHeadAt e lvl none) (inc64 e.askMin)).pricePoints
            (inc64 e.askMin)).listHead) orderSize
    else .error .indexOutOfRange

/-- The sell-side scan of `Limit` (lines with `order.side == Ask`),
mirroring `bidWalk` with `bidMax` decreasing.  The decrement uses uint
wrap-around, as in Go. -/
def askWalk (o : Order) : Nat → Engine → Nat → Option Nat → Nat → Except Err ScanRes
  | 0, _, _, _, _ => .error .outOfFuel
  | fuel + 1, e, lvl, some k, orderSize =>
    if (e.bookEntries k).size < orderSize then
      match executeTrade e (e.bookEntries k).id o.id o.symbol
          (e.bookEntries k).trader o.trader o.price (e.bookEntries k).size with
      | .error er => .error er
      | .ok e1 => askWalk o fuel e1 lvl (e.bookEntries k).next (orderSize - (e.bookEntries k).size)
    else
      match executeTrade e (e.bookEntries k).id o.id o.symbol
          (e.bookEntries k).trader o.trader o.price orderSize with
      | .error er => .error er
      | .ok e1 =>
        if orderSize < (e.bookEntries k).size then
          .ok (.filled (bump (setHeadAt (e1.setBE k ((e.bookEntries k).withSize
            ((e.bookEntries k).size - orderSize))) lvl (some k))) (inc64 e1.curOrderID))
        else
          .ok (.filled (bump (setHeadAt e1 lvl (e.bookEntries k).next)) (inc64 e1.curOrderID))
  | fuel + 1, e, lvl, none, orderSize =>
    if dec64 e.bidMax ≤ maxPrice then
      if dec64 e.bidMax < o.price then
        .ok (.rest (withBidMax (setHeadAt e lvl none) (dec64 e.bidMax)) orderSize)
      else
        askWalk o fuel (withBidMax (setHeadAt e lvl none) (dec64 e.bidMax)) (dec64 e.bidMax)
          (((withBidMax (setHeadAt e lvl none) (dec64 e.bidMax)).pricePoints
            (dec64 e.bidMax)).listHead) orderSize
    else .error .indexOutOfRange

/-- The tail of `Limit` that rests the (remainder of the) incoming order:
bump `curOrderID`, write the entry fields (`next` is NOT reset — the Go
code leaves whatever was in the arena slot) and append it at the price's
list.  Arena and price-point accesses are bounds-checked. -/
def restOrder (e : Engine) (o : Order) (orderSize : Nat) : Except Err (Engine × Nat) :=
  if inc64 e.curOrderID < maxNumOrders then
    if o.price ≤ maxPrice then
      match ppInsertOrder (withCurOrderID (e.setBE (inc64 e.curOrderID)
          ((e.bookEntries (inc64 e.curOrderID)).written orderSize o.trader o.id))
          (inc64 e.curOrderID)) o.price (inc64 e.curOrderID) with
      | .error er => .error er
      | .ok e2 => .ok (e2, inc64 e.curOrderID)
    else .error .indexOutOfRange
  else .error .indexOutOfRange

/-- The tail of the `Bid` branch of `Limit`: rest the remainder, then
`if e.bidMax < uint(price) { e.bidMax = price }` and return the new id. -/
def bidFinish (e : Engine) (o : Order) (remaining : Nat) : Except Err (Engine × Nat) :=
  match restOrder e o remaining with
  | .error er => .error er
  | .ok pr =>
    .ok (withBidMax pr.1 (if pr.1.bidMax < o.price then o.price else pr.1.bidMax), pr.2)

/-- The tail of the `Ask` branch of `Limit`: rest the remainder, then
`if e.askMin > uint(price) { e.askMin = price }` and return the new id. -/
def askFinish (e : Engine) (o : Order) (remaining : Nat) : Except Err (Engine × Nat) :=
  match restOrder e o remaining with
  | .error er => .error er
  | .ok pr =>
    .ok (withAskMin pr.1 (if o.price < pr.1.askMin then o.price else pr.1.askMin), pr.2)

/-- `func (e *Engine) Limit(order Order) OrderID`. -/
def Limit (fuel : Nat) (e : Engine) (o : Order) : Except Err (Engine × Nat) :=
  if o.side = Side.Bid then
    if e.askMin ≤ o.price then
      if e.askMin ≤ maxPrice then
        match bidWalk o fuel e e.askMin ((e.pricePoints e.askMin).listHead) o.size with
        | .error er => .error er
        | .ok (.filled e1 oid) => .ok (e1, oid)
        | .ok (.rest e1 remaining) => bidFinish e1 o remaining
      else .error .indexOutOfRange
    else bidFinish e o o.size
  else
    if o.price ≤ e.bidMax then
      if e.bidMax ≤ maxPrice then
        match askWalk o fuel e e.bidMax ((e.pricePoints e.bidMax).listHead) o.size with
        | .error er => .error er
        | .ok (.filled e1 oid) => .ok (e1, oid)
        | .ok (.rest e1 remaining) => askFinish e1 o remaining
      else .error .indexOutOfRange
    else askFinish e o o.size

/-- `func (e *Engine) Cancel(orderID OrderID)`: zero the entry's size
(bounds-checked arena access). -/
def Cancel (e : Engine) (orderID : Nat) : Except Err Engine :=
  if orderID < maxNumOrders then
    .ok (e.setBE orderID ((e.bookEntries orderID).withSize 0))
  else .error .indexOutOfRange

/-- One input of the driver's feed: a limit order or a cancellation. -/
inductive Op where
  | limit (o : Order)
  | cancel (oid : Nat)
  deriving DecidableEq, Repr

/-- Process one feed entry, discarding `Limit`'s returned id. -/
def step (fuel : Nat) (e : Engine) : Op → Except Err Engine
  | .limit o =>
    match Limit fuel e o with
    | .ok (e1, _) => .ok e1
    | .error er => .error er
  | .cancel oid => Cancel e oid

/-- Feed a sequence of inputs to the engine, stopping at the first error. -/
def run (fuel : Nat) : Engine → List Op → Except Err Engine
  | e, [] => .ok e
  | e, op :: ops =>
    match step fuel e op with
    | .ok e1 => run fuel e1 ops
    | .error er => .error er

/-- A valid submit in the sense of the spec: positive size, price within
`[minPrice, maxPrice]`.  Cancels are unconstrained. -/
def ValidOp : Op → Prop
  | .limit o => 1 ≤ o.size ∧ minPrice ≤ o.price ∧ o.price ≤ maxPrice
  | .cancel _ => True

instance : DecidablePred ValidOp := fun op => by
  cases op with
  | limit o => exact inferInstanceAs (Decidable (_ ∧ _ ∧ _))
  | cancel oid => exact inferInstanceAs (Decidable True)

def ValidOps (ops : List Op) : Prop := ∀ op ∈ ops, ValidOp op

instance : DecidablePred ValidOps := fun ops =>
  inferInstanceAs (Decidable (∀ op ∈ ops, ValidOp op))

/-- External ids of the submits of a feed, in order. -/
def limitIds : List Op → List Nat
  | [] => []
  | .limit o :: ops => o.id :: limitIds ops
  | .cancel _ :: ops => limitIds ops

/-- Total size submitted under external id `i` by a feed. -/
def submittedFor (i : Nat) : List Op → Nat
  | [] => 0
  | .limit o :: ops => (if o.id = i then o.size else 0) + submittedFor i ops
  | .cancel _ :: ops => submittedFor i ops

/-- Total dealt volume involving external id `i` (as bid or ask side). -/
def dealsFor (i : Nat) (ds : List Deal) : Nat :=
  (ds.map fun d => if d.bidOrderID = i ∨ d.askOrderID = i then d.size else 0).sum

/-- Observer: the deal log of a run result (`none` on error). -/
def dealsOf : Except Err Engine → Option (List Deal)
  | .ok e => some e.deals
  | .error _ => none

/-- Observer: `askMin` of a run result. -/
def askMinOf : Except Err Engine → Option Nat
  | .ok e => some e.askMin
  | .error _ => none

/-- Observer: `bidMax` of a run result. -/
def bidMaxOf : Except Err Engine → Option Nat
  | .ok e => some e.bidMax
  | .error _ => none

/-- Observer: list head at price `p` of a run result. -/
def headOf (r : Except Err Engine) (p : Nat) : Option (Option Nat) :=
  match r with
  | .ok e => some (e.pricePoints p).listHead
  | .error _ => none

/-- Observer: the error of a failed run result. -/
def errOf : Except Err Engine → Option Err
  | .ok _ => none
  | .error er => some er

/-- Observer: arena entry at index `k` of a run result. -/
def entryOf (r : Except Err Engine) (k : Nat) : Option OrderBookEntry :=
  match r with
  | .ok e => some (e.bookEntries k)
  | .error _ => none

/-- Iterated cancellation: `Cancel` applied `n` times to the same id. -/
def cancelTimes (e : Engine) (i : Nat) : Nat → Except Err Engine
  | 0 => .ok e
  | n + 1 =>
    match Cancel e i with
    | .ok e1 => cancelTimes e1 i n
    | .error er => .error er

/-- No arena entry with positive remaining size carries external id `x`. -/
def noLive (x : Nat) (e : Engine) : Prop :=
  ∀ k, (e.bookEntries k).size ≠ 0 → (e.bookEntries k).id ≠ x

/-- A deal does not mention external id `x` on either side. -/
def avoids (x : Nat) (d : Deal) : Prop :=
  d.bidOrderID ≠ x ∧ d.askOrderID ≠ x

instance (x : Nat) (d : Deal) : Decidable (avoids x d) :=
  inferInstanceAs (Decidable (_ ∧ _))

/-- The prices of the submits of a feed. -/
def limitPrices : List Op → List Nat
  | [] => []
  | .limit o :: ops => o.price :: limitPrices ops
  | .cancel _ :: ops => limitPrices ops

/-- Scenario: spec test 1 (`Bid@100 size=5` then `Ask@100 size=5`). -/
def c8ops : List Op :=
  [Op.limit ⟨1, "SYM", "TA", Side.Bid, 100, 5⟩,
   Op.limit ⟨2, "SYM", "TB", Side.Ask, 100, 5⟩]

/-- Scenario: spec test 6 (`Ask@100 size=1`, `Ask@102 size=1`, `Bid@102 size=2`). -/
def c9ops : List Op :=
  [Op.limit ⟨1, "SYM", "TA", Side.Ask, 100, 1⟩,
   Op.limit ⟨2, "SYM", "TB", Side.Ask, 102, 1⟩,
   Op.limit ⟨3, "SYM", "TC", Side.Bid, 102, 2⟩]

/-- Scenario: top-of-range boundary (`Ask@MAX_PRICE size=1` then
`Bid@MAX_PRICE size=2`). -/
def c10ops : List Op :=
  [Op.limit ⟨1, "SYM", "TA", Side.Ask, maxPrice, 1⟩,
   Op.limit ⟨2, "SYM", "TB", Side.Bid, maxPrice, 2⟩]

/-- Scenario: a resting ask at 100 lifted by a bid limited at 102. -/
def c1ops : List Op :=
  [Op.limit ⟨1, "SYM", "TA", Side.Ask, 100, 1⟩,
   Op.limit ⟨2, "SYM", "TB", Side.Bid, 102, 1⟩]

/-- The engine state carried by a scan result. -/
def ScanRes.engine : ScanRes → Engine
  | .filled e _ => e
  | .rest e _ => e

/-- An engine whose arena allocation cursor is one below capacity. -/
def fullEngine : Engine := { Reset initEngine with curOrderID := maxNumOrders - 1 }

/-- An engine whose deal log is full. -/
def fullDealEngine : Engine :=
  { Reset initEngine with deals := List.replicate maxNumDeals ⟨9, 8, "a", "b", "SYM", 7, 1⟩ }

/-- Observer: the error of a `Limit` result. -/
def limitErrOf : Except Err (Engine × Nat) → Option Err
  | .ok _ => none
  | .error er => some er

/-- Observer used to witness the deal-price property on one concrete
`Limit` call: is every deal in the post-state either an old deal or one
priced at the incoming order's limit? -/
def limitPricesOk (fuel : Nat) (e : Engine) (o : Order) : Option Bool :=
  match Limit fuel e o with
  | .error _ => none
  | .ok pr => some (decide (∀ d ∈ pr.1.deals, d ∈ e.deals ∨ d.price = o.price))

/-- A concrete engine holding one resting ask of size 5 at price 100
(arena slot 1), with `askMin` pointing at it. -/
def eC6 : Engine :=
  withAskMin (((Reset initEngine).setBE 1 ⟨5, none, "TA", 1⟩).setPP 100
    ⟨some 1, some 1⟩) 100

/-- A bid that would cross the resting ask of `eC6`. -/
def oC6 : Order := ⟨2, "SYM", "TB", Side.Bid, 100, 5⟩

/-- Observer used to witness cancellation silence: after `Cancel i`, do all
deals of the run of `os` avoid the cancelled entry's external id? -/
def silentAfterCancel (fuel : Nat) (e : Engine) (i : Nat) (os : List Order) : Option Bool :=
  match Cancel e i with
  | .error _ => none
  | .ok e1 =>
    match run fuel e1 (os.map Op.limit) with
    | .error _ => none
    | .ok e2 =>
      some (decide (∀ d ∈ e2.deals, d ∈ e1.deals ∨ avoids (e.bookEntries i).id d))

/-- Observer used to witness the uncrossed-book invariant. -/
def uncrossedOf : Except Err Engine → Option Bool
  | .ok e => some (decide (e.bidMax < e.askMin))
  | .error _ => none

/-- The list of arena indices reachable from a list pointer by following
`next` fields.  A finite derivation exists only for acyclic pointers, and
the list is uniquely determined by the pointer. -/
inductive Chain (f : Nat → OrderBookEntry) : Option Nat → List Nat → Prop
  | nil : Chain f none []
  | cons {k : Nat} {l : List Nat} : Chain f (f k).next l → Chain f (some k) (k :: l)

/-- Pure model of one buy-side scan over a list of node indices: returns
the emitted deals in order, the remaining budget, the updated arena, and
the leftover (unconsumed) node list.  Mirrors the inner loop of `Limit`:
a node smaller than the budget is consumed whole (skipped silently when its
size is 0) and the walk continues; otherwise the budget is consumed at this
node (the node is decremented if strictly larger) and the walk stops. -/
def consumeBid (o : Order) (f : Nat → OrderBookEntry) :
    Nat → List Nat → List Deal × Nat × (Nat → OrderBookEntry) × List Nat
  | osz, [] => ([], osz, f, [])
  | osz, k :: rest =>
    if (f k).size < osz then
      ((if (f k).size = 0 then [] else
          [⟨o.id, (f k).id, (f k).trader, o.trader, o.symbol, o.price, (f k).size⟩]) ++
        (consumeBid o f (osz - (f k).size) rest).1,
       (consumeBid o f (osz - (f k).size) rest).2)
    else
      ((if osz = 0 then [] else
          [⟨o.id, (f k).id, (f k).trader, o.trader, o.symbol, o.price, osz⟩]),
       0,
       (if osz < (f k).size then upd f k ((f k).withSize ((f k).size - osz)) else f),
       (if osz < (f k).size then k :: rest else rest))

/-- Mirror of `consumeBid` for the sell side (bid/ask fields swapped). -/
def consumeAsk (o : Order) (f : Nat → OrderBookEntry) :
    Nat → List Nat → List Deal × Nat × (Nat → OrderBookEntry) × List Nat
  | osz, [] => ([], osz, f, [])
  | osz, k :: rest =>
    if (f k).size < osz then
      ((if (f k).size = 0 then [] else
          [⟨(f k).id, o.id, o.trader, (f k).trader, o.symbol, o.price, (f k).size⟩]) ++
        (consumeAsk o f (osz - (f k).size) rest).1,
       (consumeAsk o f (osz - (f k).size) rest).2)
    else
      ((if osz = 0 then [] else
          [⟨(f k).id, o.id, o.trader, (f k).trader, o.symbol, o.price, osz⟩]),
       0,
       (if osz < (f k).size then upd f k ((f k).withSize ((f k).size - osz)) else f),
       (if osz < (f k).size then k :: rest else rest))

/-- Concatenation of the per-level node lists for the inclusive price range
`[a, b]`. -/
def flat (L : Nat → List Nat) (a b : Nat) : List Nat :=
  ((List.range' a (b + 1 - a)).map L).flatten

/-- Total resting size carried under external id `i` by the nodes of `l`. -/
def listSum (f : Nat → OrderBookEntry) (i : Nat) (l : List Nat) : Nat :=
  (l.map fun k => if (f k).id = i then (f k).size else 0).sum

/-- A deal mentions external id `i` on its bid or ask side. -/
def involves (i : Nat) (d : Deal) : Prop :=
  d.bidOrderID = i ∨ d.askOrderID = i

instance (i : Nat) (d : Deal) : Decidable (involves i d) :=
  inferInstanceAs (Decidable (_ ∨ _))

/-- Total size of a list of deals. -/
def sumSizes (ds : List Deal) : Nat := (ds.map fun d => d.size).sum

/-- Descending concatenation of the per-level node lists for the inclusive
price range `[b, a]`, highest level first (the order in which the
sell-side scan visits the book). -/
def flatDown (L : Nat → List Nat) (a b : Nat) : List Nat :=
  ((List.range' b (a + 1 - b)).reverse.map L).flatten

/-- Swap the two sides of a deal (bid/ask ids and traders). -/
def Deal.swap (d : Deal) : Deal :=
  ⟨d.askOrderID, d.bidOrderID, d.bidTrader, d.askTrader, d.symbol, d.price, d.size⟩

/-- Structural well-formedness of the book: each price point's head pointer
reaches the node list `L p` of its level, node indices are allocated
(`≤ curOrderID`), the per-level lists are pairwise disjoint, a nonempty
level's `listTail` is its last node, unallocated arena slots still hold
the zero value, no nodes live above `maxPrice`, the allocation cursor is
below capacity, and the scan pointers are in range with the book
uncrossed. -/
structure EWF (e : Engine) (L : Nat → List Nat) : Prop where
  chain : ∀ p, Chain e.bookEntries (e.pricePoints p).listHead (L p)
  bounded : ∀ p, ∀ k ∈ L p, k ≤ e.curOrderID
  disj : ∀ p q, p ≠ q → ∀ k, k ∈ L p → k ∉ L q
  tails : ∀ p, (e.pricePoints p).listHead ≠ none →
    (e.pricePoints p).listTail = (L p).getLast?
  fresh : ∀ k, e.curOrderID < k → e.bookEntries k = OrderBookEntry.zero
  hi : ∀ p, maxPrice < p → L p = []
  cross : e.bidMax < e.askMin
  amax : e.askMin ≤ maxPrice + 1
  bmax : e.bidMax ≤ maxPrice

/-- Volume accounting: for every external id, the volume already dealt
plus the live resting volume is bounded by the total submitted volume. -/
def ACC (e : Engine) (L : Nat → List Nat) (ops : List Op) : Prop :=
  ∀ i, dealsFor i e.deals + listSum e.bookEntries i (flat L 0 maxPrice) ≤
    submittedFor i ops

/-- Id regime of the live book under a duplicate-free feed: every live
node's external id comes from some submit, and distinct live nodes carry
distinct external ids. -/
structure IDOK (e : Engine) (L : Nat → List Nat) (ops : List Op) : Prop where
  mem : ∀ p k, k ∈ L p → (e.bookEntries k).id ∈ limitIds ops
  inj : ∀ p q k j, k ∈ L p → j ∈ L q →
    (e.bookEntries k).id = (e.bookEntries j).id → k = j

/-- The run invariant: some per-level node-list assignment is structurally
well-formed and accounts for all volume, the allocation cursor is bounded
by the number of inputs processed (each input bumps it at most once), and
under a duplicate-free feed the id regime holds. -/
def Inv (e : Engine) (L : Nat → List Nat) (ops : List Op) : Prop :=
  EWF e L ∧ e.curOrderID ≤ ops.length ∧ ACC e L ops ∧
    ((limitIds ops).Nodup → IDOK e L ops)

/-- Scenario: the same external id `7` used by two submits. -/
def c3dupops : List Op :=
  [Op.limit ⟨7, "SYM", "TA", Side.Bid, 100, 5⟩,
   Op.limit ⟨7, "SYM", "TB", Side.Bid, 100, 5⟩,
   Op.limit ⟨8, "SYM", "TC", Side.Ask, 100, 10⟩]

/-- Observer used to witness volume conservation on one concrete feed:
after a successful run, is the dealt volume involving `i` bounded by the
volume submitted under `i`? -/
def conservedFor (fuel : Nat) (ops : List Op) (i : Nat) : Option Bool :=
  match run fuel (Reset initEngine) ops with
  | .error _ => none
  | .ok e => some (decide (dealsFor i e.deals ≤ submittedFor i ops))

/-- Scenario: two resting bids at price 50 (A = node 1, B = node 2). -/
def c4ops : List Op :=
  [Op.limit ⟨1, "SYM", "TA", Side.Bid, 50, 5⟩,
   Op.limit ⟨2, "SYM", "TB", Side.Bid, 50, 5⟩]

/-- The aggressive ask of the C4 scenario: it consumes A in full and part
of B. -/
def oC4 : Order := ⟨3, "SYM", "TC", Side.Ask, 50, 7⟩

/-- The book state of the C4 scenario (the run of `c4ops` succeeds, so the
fallback branch is never taken). -/
def c4e : Engine :=
  match run 10 (Reset initEngine) c4ops with
  | .ok e => e
  | .error _ => initEngine

/-- The state after the aggressive ask of the C4 scenario. -/
def c4post : Engine :=
  match Limit 10 c4e oC4 with
  | .ok pr => pr.1
  | .error _ => initEngine

/-- The order id returned for the aggressive ask of the C4 scenario. -/
def c4oid : Nat :=
  match Limit 10 c4e oC4 with
  | .ok pr => pr.2
  | .error _ => 0

/-- The final engine state of the C3 duplicate-id scenario (the run
succeeds, so the fallback branch is never taken). -/
def c3e : Engine :=
  match run 40 (Reset initEngine) c3dupops with
  | .ok e => e
  | .error _ => initEngine

/-! ## Basic lemmas about the state helpers -/

theorem upd_apply {α : Type} (f : Nat → α) (i : Nat) (v : α) (j : Nat) :
    upd f i v j = if j = i then v else f j := rfl

@[simp] theorem upd_same {α : Type} (f : Nat → α) (i : Nat) (v : α) :
    upd f i v i = v := by simp [upd]

theorem upd_ne {α : Type} (f : Nat → α) (i : Nat) (v : α) {j : Nat} (h : j ≠ i) :
    upd f i v j = f j := by simp [upd, h]

@[simp] theorem setPP_pricePoints (e : Engine) (p : Nat) (pp : PricePoint) :
    (e.setPP p pp).pricePoints = upd e.pricePoints p pp := rfl

@[simp] theorem setPP_bookEntries (e : Engine) (p : Nat) (pp : PricePoint) :
    (e.setPP p pp).bookEntries = e.bookEntries := rfl

@[simp] theorem setPP_curOrderID (e : Engine) (p : Nat) (pp : PricePoint) :
    (e.setPP p pp).curOrderID = e.curOrderID := rfl

@[simp] theorem setPP_askMin (e : Engine) (p : Nat) (pp : PricePoint) :
    (e.setPP p pp).askMin = e.askMin := rfl

@[simp] theorem setPP_bidMax (e : Engine) (p : Nat) (pp : PricePoint) :
    (e.setPP p pp).bidMax = e.bidMax := rfl

@[simp] theorem setPP_deals (e : Engine) (p : Nat) (pp : PricePoint) :
    (e.setPP p pp).deals = e.deals := rfl

@[simp] theorem setBE_bookEntries (e : Engine) (k : Nat) (be : OrderBookEntry) :
    (e.setBE k be).bookEntries = upd e.bookEntries k be := rfl

@[simp] theorem setBE_pricePoints (e : Engine) (k : Nat) (be : OrderBookEntry) :
    (e.setBE k be).pricePoints = e.pricePoints := rfl

@[simp] theorem setBE_curOrderID (e : Engine) (k : Nat) (be : OrderBookEntry) :
    (e.setBE k be).curOrderID = e.curOrderID := rfl

@[simp] theorem setBE_askMin (e : Engine) (k : Nat) (be : OrderBookEntry) :
    (e.setBE k be).askMin = e.askMin := rfl

@[simp] theorem setBE_bidMax (e : Engine) (k : Nat) (be : OrderBookEntry) :
    (e.setBE k be).bidMax = e.bidMax := rfl

@[simp] theorem setBE_deals (e : Engine) (k : Nat) (be : OrderBookEntry) :
    (e.setBE k be).deals = e.deals := rfl

@[simp] theorem setHeadAt_pricePoints (e : Engine) (lvl : Nat) (h : Option Nat) :
    (setHeadAt e lvl h).pricePoints =
      upd e.pricePoints lvl ((e.pricePoints lvl).withHead h) := rfl

@[simp] theorem setHeadAt_bookEntries (e : Engine) (lvl : Nat) (h : Option Nat) :
    (setHeadAt e lvl h).bookEntries = e.bookEntries := rfl

@[simp] theorem setHeadAt_curOrderID (e : Engine) (lvl : Nat) (h : Option Nat) :
    (setHeadAt e lvl h).curOrderID = e.curOrderID := rfl

@[simp] theorem setHeadAt_askMin (e : Engine) (lvl : Nat) (h : Option Nat) :
    (setHeadAt e lvl h).askMin = e.askMin := rfl

@[simp] theorem setHeadAt_bidMax (e : Engine) (lvl : Nat) (h : Option Nat) :
    (setHeadAt e lvl h).bidMax = e.bidMax := rfl

@[simp] theorem setHeadAt_deals (e : Engine) (lvl : Nat) (h : Option Nat) :
    (setHeadAt e lvl h).deals = e.deals := rfl

@[simp] theorem bump_pricePoints (e : Engine) : (bump e).pricePoints = e.pricePoints := rfl

@[simp] theorem bump_bookEntries (e : Engine) : (bump e).bookEntries = e.bookEntries := rfl

@[simp] theorem bump_curOrderID (e : Engine) : (bump e).curOrderID = inc64 e.curOrderID := rfl

@[simp] theorem bump_askMin (e : Engine) : (bump e).askMin = e.askMin := rfl

@[simp] theorem bump_bidMax (e : Engine) : (bump e).bidMax = e.bidMax := rfl

@[simp] theorem bump_deals (e : Engine) : (bump e).deals = e.deals := rfl

@[simp] theorem withAskMin_pricePoints (e : Engine) (n : Nat) :
    (withAskMin e n).pricePoints = e.pricePoints := rfl

@[simp] theorem withAskMin_bookEntries (e : Engine) (n : Nat) :
    (withAskMin e n).bookEntries = e.bookEntries := rfl

@[simp] theorem withAskMin_curOrderID (e : Engine) (n : Nat) :
    (withAskMin e n).curOrderID = e.curOrderID := rfl

@[simp] theorem withAskMin_askMin (e : Engine) (n : Nat) :
    (withAskMin e n).askMin = n := rfl

@[simp] theorem withAskMin_bidMax (e : Engine) (n : Nat) :
    (withAskMin e n).bidMax = e.bidMax := rfl

@[simp] theorem withAskMin_deals (e : Engine) (n : Nat) :
    (withAskMin e n).deals = e.deals := rfl

@[simp] theorem withBidMax_pricePoints (e : Engine) (n : Nat) :
    (withBidMax e n).pricePoints = e.pricePoints := rfl

@[simp] theorem withBidMax_bookEntries (e : Engine) (n : Nat) :
    (withBidMax e n).bookEntries = e.bookEntries := rfl

@[simp] theorem withBidMax_curOrderID (e : Engine) (n : Nat) :
    (withBidMax e n).curOrderID = e.curOrderID := rfl

@[simp] theorem withBidMax_askMin (e : Engine) (n : Nat) :
    (withBidMax e n).askMin = e.askMin := rfl

@[simp] theorem withBidMax_bidMax (e : Engine) (n : Nat) :
    (withBidMax e n).bidMax = n := rfl

@[simp] theorem withBidMax_deals (e : Engine) (n : Nat) :
    (withBidMax e n).deals = e.deals := rfl

@[simp] theorem withCurOrderID_pricePoints (e : Engine) (n : Nat) :
    (withCurOrderID e n).pricePoints = e.pricePoints := rfl

@[simp] theorem withCurOrderID_bookEntries (e : Engine) (n : Nat) :
    (withCurOrderID e n).bookEntries = e.bookEntries := rfl

@[simp] theorem withCurOrderID_curOrderID (e : Engine) (n : Nat) :
    (withCurOrderID e n).curOrderID = n := rfl

@[simp] theorem withCurOrderID_askMin (e : Engine) (n : Nat) :
    (withCurOrderID e n).askMin = e.askMin := rfl

@[simp] theorem withCurOrderID_bidMax (e : Engine) (n : Nat) :
    (withCurOrderID e n).bidMax = e.bidMax := rfl

@[simp] theorem withCurOrderID_deals (e : Engine) (n : Nat) :
    (withCurOrderID e n).deals = e.deals := rfl

@[simp] theorem engine_filled (e : Engine) (oid : Nat) :
    (ScanRes.filled e oid).engine = e := rfl

@[simp] theorem engine_rest (e : Engine) (rem : Nat) :
    (ScanRes.rest e rem).engine = e := rfl

@[simp] theorem withHead_listHead (pp : PricePoint) (h : Option Nat) :
    (pp.withHead h).listHead = h := rfl

@[simp] theorem withHead_listTail (pp : PricePoint) (h : Option Nat) :
    (pp.withHead h).listTail = pp.listTail := rfl

@[simp] theorem withTail_listHead (pp : PricePoint) (t : Option Nat) :
    (pp.withTail t).listHead = pp.listHead := rfl

@[simp] theorem withTail_listTail (pp : PricePoint) (t : Option Nat) :
    (pp.withTail t).listTail = t := rfl

@[simp] theorem withBoth_listHead (pp : PricePoint) (h t : Option Nat) :
    (pp.withBoth h t).listHead = h := rfl

@[simp] theorem withBoth_listTail (pp : PricePoint) (h t : Option Nat) :
    (pp.withBoth h t).listTail = t := rfl

@[simp] theorem withSize_size (be : OrderBookEntry) (s : Nat) :
    (be.withSize s).size = s := rfl

@[simp] theorem withSize_next (be : OrderBookEntry) (s : Nat) :
    (be.withSize s).next = be.next := rfl

@[simp] theorem withSize_trader (be : OrderBookEntry) (s : Nat) :
    (be.withSize s).trader = be.trader := rfl

@[simp] theorem withSize_id (be : OrderBookEntry) (s : Nat) :
    (be.withSize s).id = be.id := rfl

@[simp] theorem withNext_size (be : OrderBookEntry) (n : Option Nat) :
    (be.withNext n).size = be.size := rfl

@[simp] theorem withNext_next (be : OrderBookEntry) (n : Option Nat) :
    (be.withNext n).next = n := rfl

@[simp] theorem withNext_trader (be : OrderBookEntry) (n : Option Nat) :
    (be.withNext n).trader = be.trader := rfl

@[simp] theorem withNext_id (be : OrderBookEntry) (n : Option Nat) :
    (be.withNext n).id = be.id := rfl

@[simp] theorem written_size (be : OrderBookEntry) (s : Nat) (tr : String) (i : Nat) :
    (be.written s tr i).size = s := rfl

@[simp] theorem written_next (be : OrderBookEntry) (s : Nat) (tr : String) (i : Nat) :
    (be.written s tr i).next = be.next := rfl

@[simp] theorem written_trader (be : OrderBookEntry) (s : Nat) (tr : String) (i : Nat) :
    (be.written s tr i).trader = tr := rfl

@[simp] theorem written_id (be : OrderBookEntry) (s : Nat) (tr : String) (i : Nat) :
    (be.written s tr i).id = i := rfl

theorem inc64_small {n : Nat} (h : n + 1 < 2 ^ 64) : inc64 n = n + 1 :=
  Nat.mod_eq_of_lt h

/-! ## `executeTrade` characterisation -/

theorem executeTrade_ok_cases {e e1 : Engine} {b a : Nat} {sym bt atr : String}
    {p s : Nat} (h : executeTrade e b a sym bt atr p s = .ok e1) :
    (s = 0 ∧ e1 = e) ∨
      (s ≠ 0 ∧ e.deals.length < maxNumDeals ∧
        e1 = { e with deals := e.deals ++ [⟨b, a, atr, bt, sym, p, s⟩] }) := by
  by_cases hs : s = 0
  · left
    refine ⟨hs, ?_⟩
    rw [executeTrade, if_pos hs] at h
    exact (Except.ok.injEq _ _).mp h |>.symm
  · right
    rw [executeTrade, if_neg hs] at h
    by_cases hlen : e.deals.length < maxNumDeals
    · rw [if_pos hlen] at h
      exact ⟨hs, hlen, ((Except.ok.injEq _ _).mp h).symm⟩
    · rw [if_neg hlen] at h
      exact absurd h (by simp)

/-! ## Heads that are `nil` stay `nil` away from touched prices -/

theorem bidWalk_heads_none (o : Order) :
    ∀ (fuel : Nat) (e : Engine) (lvl : Nat) (cur : Option Nat) (osz : Nat) (res : ScanRes),
      bidWalk o fuel e lvl cur osz = .ok res →
      ((e.pricePoints lvl).listHead = none → cur = none) →
      ∀ p, (e.pricePoints p).listHead = none →
        (res.engine.pricePoints p).listHead = none := by
  intro fuel
  induction fuel with
  | zero =>
    intro e lvl cur osz res h
    exact absurd h (by simp [bidWalk])
  | succ n ih =>
    intro e lvl cur osz res h hcur p hp
    cases cur with
    | some k =>
      rw [bidWalk] at h
      split at h
      · -- bookEntry.size < orderSize
        split at h
        · exact absurd h (by simp)
        · rename_i e1 hex
          rcases executeTrade_ok_cases hex with ⟨-, rfl⟩ | ⟨-, -, rfl⟩ <;>
            exact ih _ lvl _ _ res h
              (fun hnone => absurd (hcur hnone) (by simp)) p hp
      · -- full fill
        split at h
        · exact absurd h (by simp)
        · rename_i e1 hex
          have hplvl : p ≠ lvl := fun hpl => by
            subst hpl
            exact absurd (hcur hp) (by simp)
          split at h <;>
          · cases (Except.ok.injEq _ _).mp h
            rcases executeTrade_ok_cases hex with ⟨-, rfl⟩ | ⟨-, -, rfl⟩ <;>
              simp [upd_ne _ _ _ hplvl, hp]
    | none =>
      rw [bidWalk] at h
      split at h
      · split at h
        · cases (Except.ok.injEq _ _).mp h
          by_cases hpl : p = lvl
          · subst hpl; simp
          · simp [upd_ne _ _ _ hpl, hp]
        · have := ih _ _ _ _ res h (by simp) p
          by_cases hpl : p = lvl
          · subst hpl
            exact this (by simp)
          · exact this (by simpa [upd_ne _ _ _ hpl] using hp)
      · exact absurd h (by simp)

theorem askWalk_heads_none (o : Order) :
    ∀ (fuel : Nat) (e : Engine) (lvl : Nat) (cur : Option Nat) (osz : Nat) (res : ScanRes),
      askWalk o fuel e lvl cur osz = .ok res →
      ((e.pricePoints lvl).listHead = none → cur = none) →
      ∀ p, (e.pricePoints p).listHead = none →
        (res.engine.pricePoints p).listHead = none := by
  intro fuel
  induction fuel with
  | zero =>
    intro e lvl cur osz res h
    exact absurd h (by simp [askWalk])
  | succ n ih =>
    intro e lvl cur osz res h hcur p hp
    cases cur with
    | some k =>
      rw [askWalk] at h
      split at h
      · split at h
        · exact absurd h (by simp)
        · rename_i e1 hex
          rcases executeTrade_ok_cases hex with ⟨-, rfl⟩ | ⟨-, -, rfl⟩ <;>
            exact ih _ lvl _ _ res h
              (fun hnone => absurd (hcur hnone) (by simp)) p hp
      · split at h
        · exact absurd h (by simp)
        · rename_i e1 hex
          have hplvl : p ≠ lvl := fun hpl => by
            subst hpl
            exact absurd (hcur hp) (by simp)
          split at h <;>
          · cases (Except.ok.injEq _ _).mp h
            rcases executeTrade_ok_cases hex with ⟨-, rfl⟩ | ⟨-, -, rfl⟩ <;>
              simp [upd_ne _ _ _ hplvl, hp]
    | none =>
      rw [askWalk] at h
      split at h
      · split at h
        · cases (Except.ok.injEq _ _).mp h
          by_cases hpl : p = lvl
          · subst hpl; simp
          · simp [upd_ne _ _ _ hpl, hp]
        · have := ih _ _ _ _ res h (by simp) p
          by_cases hpl : p = lvl
          · subst hpl
            exact this (by simp)
          · exact this (by simpa [upd_ne _ _ _ hpl] using hp)
      · exact absurd h (by simp)

/-! ## Characterisations of `ppInsertOrder`, `restOrder` and `Cancel` -/

theorem ppInsertOrder_ok_cases {e e2 : Engine} {p idx : Nat}
    (h : ppInsertOrder e p idx = .ok e2) :
    ((e.pricePoints p).listHead = none ∧
      e2 = e.setPP p ((e.pricePoints p).withBoth (some idx) (some idx))) ∨
    (∃ t, (e.pricePoints p).listHead ≠ none ∧ (e.pricePoints p).listTail = some t ∧
      e2 = (e.setBE t ((e.bookEntries t).withNext (some idx))).setPP p
        ((e.pricePoints p).withTail (some idx))) := by
  rw [ppInsertOrder] at h
  cases hh : (e.pricePoints p).listHead with
  | none =>
    rw [hh] at h
    exact Or.inl ⟨rfl, ((Except.ok.injEq _ _).mp h).symm⟩
  | some k0 =>
    rw [hh] at h
    cases ht : (e.pricePoints p).listTail with
    | none => rw [ht] at h; exact absurd h (by simp)
    | some t =>
      rw [ht] at h
      exact Or.inr ⟨t, by simp [hh], rfl, ((Except.ok.injEq _ _).mp h).symm⟩

theorem restOrder_ok_cases {e e2 : Engine} {o : Order} {osz oid : Nat}
    (h : restOrder e o osz = .ok (e2, oid)) :
    oid = inc64 e.curOrderID ∧ inc64 e.curOrderID < maxNumOrders ∧ o.price ≤ maxPrice ∧
      ppInsertOrder
        (withCurOrderID (e.setBE (inc64 e.curOrderID)
          ((e.bookEntries (inc64 e.curOrderID)).written osz o.trader o.id))
          (inc64 e.curOrderID)) o.price (inc64 e.curOrderID) = .ok e2 := by
  rw [restOrder] at h
  by_cases hlt : inc64 e.curOrderID < maxNumOrders
  · rw [if_pos hlt] at h
    by_cases hpr : o.price ≤ maxPrice
    · rw [if_pos hpr] at h
      cases hins : ppInsertOrder
          (withCurOrderID (e.setBE (inc64 e.curOrderID)
            ((e.bookEntries (inc64 e.curOrderID)).written osz o.trader o.id))
            (inc64 e.curOrderID)) o.price (inc64 e.curOrderID) with
      | error er => rw [hins] at h; exact absurd h (by simp)
      | ok e2a =>
        rw [hins] at h
        have h2 := (Except.ok.injEq _ _).mp h
        have h3 := (Prod.mk.injEq _ _ _ _).mp h2
        refine ⟨h3.2.symm, hlt, hpr, ?_⟩
        rw [h3.1]
    · rw [if_neg hpr] at h
      exact absurd h (by simp)
  · rw [if_neg hlt] at h
    exact absurd h (by simp)

theorem Cancel_ok_cases {e e1 : Engine} {i : Nat} (h : Cancel e i = .ok e1) :
    i < maxNumOrders ∧ e1 = e.setBE i ((e.bookEntries i).withSize 0) := by
  rw [Cancel] at h
  split at h
  · exact ⟨by assumption, ((Except.ok.injEq _ _).mp h).symm⟩
  · exact absurd h (by simp)

theorem bidFinish_ok_cases {e eb2 : Engine} {o : Order} {rem oid : Nat}
    (h : bidFinish e o rem = .ok (eb2, oid)) :
    ∃ eb, restOrder e o rem = .ok (eb, oid) ∧
      eb2 = withBidMax eb (if eb.bidMax < o.price then o.price else eb.bidMax) := by
  rw [bidFinish] at h
  cases hr : restOrder e o rem with
  | error er => rw [hr] at h; exact absurd h (by simp)
  | ok pr =>
    cases pr with
    | mk eb oidb =>
      rw [hr] at h
      have h4 := (Prod.mk.injEq _ _ _ _).mp ((Except.ok.injEq _ _).mp h)
      refine ⟨eb, ?_, h4.1.symm⟩
      have h5 : oidb = oid := h4.2
      rw [h5]

theorem askFinish_ok_cases {e eb2 : Engine} {o : Order} {rem oid : Nat}
    (h : askFinish e o rem = .ok (eb2, oid)) :
    ∃ eb, restOrder e o rem = .ok (eb, oid) ∧
      eb2 = withAskMin eb (if o.price < eb.askMin then o.price else eb.askMin) := by
  rw [askFinish] at h
  cases hr : restOrder e o rem with
  | error er => rw [hr] at h; exact absurd h (by simp)
  | ok pr =>
    cases pr with
    | mk eb oidb =>
      rw [hr] at h
      have h4 := (Prod.mk.injEq _ _ _ _).mp ((Except.ok.injEq _ _).mp h)
      refine ⟨eb, ?_, h4.1.symm⟩
      have h5 : oidb = oid := h4.2
      rw [h5]

/-- Complete case analysis of a successful buy-side `Limit` call. -/
theorem Limit_bid_cases {fuel : Nat} {e e2 : Engine} {o : Order} {oid : Nat}
    (hside : o.side = .Bid) (h : Limit fuel e o = .ok (e2, oid)) :
    (e.askMin ≤ o.price ∧ e.askMin ≤ maxPrice ∧
      bidWalk o fuel e e.askMin ((e.pricePoints e.askMin).listHead) o.size =
        .ok (.filled e2 oid)) ∨
    (∃ e1 rem eb, e.askMin ≤ o.price ∧ e.askMin ≤ maxPrice ∧
      bidWalk o fuel e e.askMin ((e.pricePoints e.askMin).listHead) o.size =
        .ok (.rest e1 rem) ∧
      restOrder e1 o rem = .ok (eb, oid) ∧
      e2 = withBidMax eb (if eb.bidMax < o.price then o.price else eb.bidMax)) ∨
    (∃ eb, ¬ e.askMin ≤ o.price ∧ restOrder e o o.size = .ok (eb, oid) ∧
      e2 = withBidMax eb (if eb.bidMax < o.price then o.price else eb.bidMax)) := by
  rw [Limit, if_pos hside] at h
  by_cases h1 : e.askMin ≤ o.price
  · rw [if_pos h1] at h
    by_cases h2 : e.askMin ≤ maxPrice
    · rw [if_pos h2] at h
      cases hw : bidWalk o fuel e e.askMin ((e.pricePoints e.askMin).listHead) o.size with
      | error er => rw [hw] at h; exact absurd h (by simp)
      | ok res =>
        rw [hw] at h
        cases res with
        | filled e1 oid1 =>
          have h3 : (Except.ok (e1, oid1) : Except Err (Engine × Nat)) = .ok (e2, oid) := h
          have h4 := (Prod.mk.injEq _ _ _ _).mp ((Except.ok.injEq _ _).mp h3)
          refine Or.inl ⟨h1, h2, ?_⟩
          rw [h4.1, h4.2]
        | rest e1 rem =>
          have h5 : bidFinish e1 o rem = .ok (e2, oid) := h
          rcases bidFinish_ok_cases h5 with ⟨eb, hr, heq⟩
          exact Or.inr (Or.inl ⟨e1, rem, eb, h1, h2, rfl, hr, heq⟩)
    · rw [if_neg h2] at h
      exact absurd h (by simp)
  · rw [if_neg h1] at h
    rcases bidFinish_ok_cases h with ⟨eb, hr, heq⟩
    exact Or.inr (Or.inr ⟨eb, h1, hr, heq⟩)

/-- Complete case analysis of a successful sell-side `Limit` call. -/
theorem Limit_ask_cases {fuel : Nat} {e e2 : Engine} {o : Order} {oid : Nat}
    (hside : o.side = .Ask) (h : Limit fuel e o = .ok (e2, oid)) :
    (o.price ≤ e.bidMax ∧ e.bidMax ≤ maxPrice ∧
      askWalk o fuel e e.bidMax ((e.pricePoints e.bidMax).listHead) o.size =
        .ok (.filled e2 oid)) ∨
    (∃ e1 rem eb, o.price ≤ e.bidMax ∧ e.bidMax ≤ maxPrice ∧
      askWalk o fuel e e.bidMax ((e.pricePoints e.bidMax).listHead) o.size =
        .ok (.rest e1 rem) ∧
      restOrder e1 o rem = .ok (eb, oid) ∧
      e2 = withAskMin eb (if o.price < eb.askMin then o.price else eb.askMin)) ∨
    (∃ eb, ¬ o.price ≤ e.bidMax ∧ restOrder e o o.size = .ok (eb, oid) ∧
      e2 = withAskMin eb (if o.price < eb.askMin then o.price else eb.askMin)) := by
  have hside2 : ¬ o.side = Side.Bid := by rw [hside]; simp
  rw [Limit, if_neg hside2] at h
  by_cases h1 : o.price ≤ e.bidMax
  · rw [if_pos h1] at h
    by_cases h2 : e.bidMax ≤ maxPrice
    · rw [if_pos h2] at h
      cases hw : askWalk o fuel e e.bidMax ((e.pricePoints e.bidMax).listHead) o.size with
      | error er => rw [hw] at h; exact absurd h (by simp)
      | ok res =>
        rw [hw] at h
        cases res with
        | filled e1 oid1 =>
          have h3 : (Except.ok (e1, oid1) : Except Err (Engine × Nat)) = .ok (e2, oid) := h
          have h4 := (Prod.mk.injEq _ _ _ _).mp ((Except.ok.injEq _ _).mp h3)
          refine Or.inl ⟨h1, h2, ?_⟩
          rw [h4.1, h4.2]
        | rest e1 rem =>
          have h5 : askFinish e1 o rem = .ok (e2, oid) := h
          rcases askFinish_ok_cases h5 with ⟨eb, hr, heq⟩
          exact Or.inr (Or.inl ⟨e1, rem, eb, h1, h2, rfl, hr, heq⟩)
    · rw [if_neg h2] at h
      exact absurd h (by simp)
  · rw [if_neg h1] at h
    rcases askFinish_ok_cases h with ⟨eb, hr, heq⟩
    exact Or.inr (Or.inr ⟨eb, h1, hr, heq⟩)

theorem Limit_heads_none {fuel : Nat} {e e2 : Engine} {o : Order} {oid : Nat}
    (h : Limit fuel e o = .ok (e2, oid)) :
    ∀ p, (e.pricePoints p).listHead = none → p ≠ o.price →
      (e2.pricePoints p).listHead = none := by
  intro p hp hpo
  have hrest : ∀ (ea eb : Engine) (osz oidb : Nat), restOrder ea o osz = .ok (eb, oidb) →
      (ea.pricePoints p).listHead = none → (eb.pricePoints p).listHead = none := by
    intro ea eb osz oidb hr hpa
    rcases restOrder_ok_cases hr with ⟨-, -, -, hins⟩
    rcases ppInsertOrder_ok_cases hins with ⟨-, rfl⟩ | ⟨t, -, -, rfl⟩ <;>
      simpa [upd_ne _ _ _ hpo] using hpa
  cases hside : o.side with
  | Bid =>
    rcases Limit_bid_cases hside h with
        ⟨-, -, hw⟩ | ⟨e1, rem, eb, -, -, hw, hr, rfl⟩ | ⟨eb, -, hr, rfl⟩
    · exact bidWalk_heads_none o fuel e e.askMin _ o.size _ hw (fun hh => hh) p hp
    · have := bidWalk_heads_none o fuel e e.askMin _ o.size _ hw (fun hh => hh) p hp
      simpa using hrest e1 eb rem oid hr (by simpa using this)
    · simpa using hrest e eb o.size oid hr hp
  | Ask =>
    rcases Limit_ask_cases hside h with
        ⟨-, -, hw⟩ | ⟨e1, rem, eb, -, -, hw, hr, rfl⟩ | ⟨eb, -, hr, rfl⟩
    · exact askWalk_heads_none o fuel e e.bidMax _ o.size _ hw (fun hh => hh) p hp
    · have := askWalk_heads_none o fuel e e.bidMax _ o.size _ hw (fun hh => hh) p hp
      simpa using hrest e1 eb rem oid hr (by simpa using this)
    · simpa using hrest e eb o.size oid hr hp

theorem run_heads_none {fuel : Nat} :
    ∀ (ops : List Op) (e0 e : Engine), run fuel e0 ops = .ok e →
      ∀ p, (e0.pricePoints p).listHead = none → p ∉ limitPrices ops →
        (e.pricePoints p).listHead = none := by
  intro ops
  induction ops with
  | nil =>
    intro e0 e h p hp _
    rw [run] at h
    cases (Except.ok.injEq _ _).mp h
    exact hp
  | cons op ops ih =>
    intro e0 e h p hp hnp
    rw [run] at h
    cases hs : step fuel e0 op with
    | error er => rw [hs] at h; exact absurd h (by simp)
    | ok e1 =>
      rw [hs] at h
      cases op with
      | limit o =>
        rw [step] at hs
        cases hl : Limit fuel e0 o with
        | error er => rw [hl] at hs; exact absurd hs (by simp)
        | ok pr =>
          cases pr with
          | mk ea oida =>
            rw [hl] at hs
            cases (Except.ok.injEq _ _).mp hs
            refine ih e1 e h p ?_ ?_
            · exact Limit_heads_none hl p hp
                (fun hpp => hnp (by rw [hpp, limitPrices]; exact List.mem_cons_self _ _))
            · exact fun hm => hnp (by rw [limitPrices]; exact List.mem_cons_of_mem _ hm)
      | cancel oid =>
        rw [step] at hs
        rcases Cancel_ok_cases hs with ⟨-, rfl⟩
        refine ih _ e h p (by simpa using hp) ?_
        exact fun hm => hnp (by rw [limitPrices]; exact hm)

/-! ## Light structural facts about the walks, `restOrder` and `Cancel` -/

@[simp] theorem upd_upd {α : Type} (f : Nat → α) (i : Nat) (v w : α) :
    upd (upd f i v) i w = upd f i w := by
  funext j
  by_cases hj : j = i <;> simp [upd, hj]

theorem setBE_setBE (e : Engine) (i : Nat) (v w : OrderBookEntry) :
    (e.setBE i v).setBE i w = e.setBE i w := by
  show Engine.mk e.pricePoints e.curOrderID e.askMin e.bidMax
      (upd (upd e.bookEntries i v) i w) e.deals =
    Engine.mk e.pricePoints e.curOrderID e.askMin e.bidMax (upd e.bookEntries i w) e.deals
  rw [upd_upd]

/-- Everything a successful `bidWalk` preserves or produces, with no
assumptions on the starting state: entry ids, links and traders are
untouched, entry sizes never grow, `bidMax` is untouched, and every new
deal carries the aggressive price, the aggressive bid id, a nonzero size,
and the id of some entry that had nonzero size at the start of the walk. -/
theorem bidWalk_facts (o : Order) :
    ∀ (fuel : Nat) (e : Engine) (lvl : Nat) (cur : Option Nat) (osz : Nat) (res : ScanRes),
      bidWalk o fuel e lvl cur osz = .ok res →
      (∀ k, (res.engine.bookEntries k).id = (e.bookEntries k).id ∧
        (res.engine.bookEntries k).next = (e.bookEntries k).next ∧
        (res.engine.bookEntries k).trader = (e.bookEntries k).trader ∧
        (res.engine.bookEntries k).size ≤ (e.bookEntries k).size) ∧
      res.engine.bidMax = e.bidMax ∧
      (∃ ds, res.engine.deals = e.deals ++ ds ∧
        ∀ d ∈ ds, d.price = o.price ∧ d.bidOrderID = o.id ∧ ¬ d.size = 0 ∧
          ∃ k, ¬ (e.bookEntries k).size = 0 ∧ d.askOrderID = (e.bookEntries k).id) := by
  intro fuel
  induction fuel with
  | zero =>
    intro e lvl cur osz res h
    exact absurd h (by simp [bidWalk])
  | succ n ih =>
    intro e lvl cur osz res h
    cases cur with
    | some k =>
      rw [bidWalk] at h
      split at h
      · rename_i hlt
        split at h
        · exact absurd h (by simp)
        · rename_i e1 hex
          rcases executeTrade_ok_cases hex with ⟨hs, rfl⟩ | ⟨hs, -, rfl⟩
          · exact ih _ lvl _ _ res h
          · rcases ih _ lvl _ _ res h with ⟨hent, hbm, ds, hds, hall⟩
            refine ⟨hent, hbm, ⟨_ :: ds, by simpa using hds, ?_⟩⟩
            intro d hd
            rcases List.mem_cons.mp hd with rfl | hd
            · exact ⟨rfl, rfl, hs, k, hs, rfl⟩
            · exact hall d hd
      · rename_i hge
        split at h
        · exact absurd h (by simp)
        · rename_i e1 hex
          have hknz : ¬ (e.bookEntries k).size = 0 ∨ osz = 0 := by
            by_cases hosz : osz = 0
            · exact Or.inr hosz
            · exact Or.inl (by omega)
          have hknz2 : ¬ (e.bookEntries k).size = 0 → True := fun _ => trivial
          rcases executeTrade_ok_cases hex with ⟨hs, rfl⟩ | ⟨hs, -, rfl⟩ <;> split at h <;>
            cases (Except.ok.injEq _ _).mp h
          · refine ⟨?_, by simp, ⟨[], by simp, by simp⟩⟩
            intro j
            by_cases hj : j = k <;> simp [upd, hj]
          · exact ⟨fun j => by simp, by simp, ⟨[], by simp, by simp⟩⟩
          · refine ⟨?_, by simp, ?_⟩
            · intro j
              by_cases hj : j = k <;> simp [upd, hj]
            · refine ⟨[⟨o.id, (e.bookEntries k).id, (e.bookEntries k).trader,
                o.trader, o.symbol, o.price, osz⟩], by simp, ?_⟩
              intro d hd
              rcases List.mem_singleton.mp hd with rfl
              refine ⟨rfl, rfl, hs, k, ?_, rfl⟩
              rcases hknz with hk | hk
              · exact hk
              · exact absurd hk hs
          · refine ⟨fun j => by simp, by simp, ?_⟩
            refine ⟨[⟨o.id, (e.bookEntries k).id, (e.bookEntries k).trader,
              o.trader, o.symbol, o.price, osz⟩], by simp, ?_⟩
            intro d hd
            rcases List.mem_singleton.mp hd with rfl
            refine ⟨rfl, rfl, hs, k, ?_, rfl⟩
            rcases hknz with hk | hk
            · exact hk
            · exact absurd hk hs
    | none =>
      rw [bidWalk] at h
      split at h
      · split at h
        · cases (Except.ok.injEq _ _).mp h
          exact ⟨fun j => by simp, by simp, ⟨[], by simp, by simp⟩⟩
        · rcases ih _ _ _ _ res h with ⟨hent, hbm, ds, hds, hall⟩
          refine ⟨?_, by simpa using hbm, ⟨ds, by simpa using hds, ?_⟩⟩
          · intro j
            simpa using hent j
          · intro d hd
            simpa using hall d hd
      · exact absurd h (by simp)

/-- Mirror of `bidWalk_facts` for the sell-side scan. -/
theorem askWalk_facts (o : Order) :
    ∀ (fuel : Nat) (e : Engine) (lvl : Nat) (cur : Option Nat) (osz : Nat) (res : ScanRes),
      askWalk o fuel e lvl cur osz = .ok res →
      (∀ k, (res.engine.bookEntries k).id = (e.bookEntries k).id ∧
        (res.engine.bookEntries k).next = (e.bookEntries k).next ∧
        (res.engine.bookEntries k).trader = (e.bookEntries k).trader ∧
        (res.engine.bookEntries k).size ≤ (e.bookEntries k).size) ∧
      res.engine.askMin = e.askMin ∧
      (∃ ds, res.engine.deals = e.deals ++ ds ∧
        ∀ d ∈ ds, d.price = o.price ∧ d.askOrderID = o.id ∧ ¬ d.size = 0 ∧
          ∃ k, ¬ (e.bookEntries k).size = 0 ∧ d.bidOrderID = (e.bookEntries k).id) := by
  intro fuel
  induction fuel with
  | zero =>
    intro e lvl cur osz res h
    exact absurd h (by simp [askWalk])
  | succ n ih =>
    intro e lvl cur osz res h
    cases cur with
    | some k =>
      rw [askWalk] at h
      split at h
      · rename_i hlt
        split at h
        · exact absurd h (by simp)
        · rename_i e1 hex
          rcases executeTrade_ok_cases hex with ⟨hs, rfl⟩ | ⟨hs, -, rfl⟩
          · exact ih _ lvl _ _ res h
          · rcases ih _ lvl _ _ res h with ⟨hent, hbm, ds, hds, hall⟩
            refine ⟨hent, hbm, ⟨_ :: ds, by simpa using hds, ?_⟩⟩
            intro d hd
            rcases List.mem_cons.mp hd with rfl | hd
            · exact ⟨rfl, rfl, hs, k, hs, rfl⟩
            · exact hall d hd
      · rename_i hge
        split at h
        · exact absurd h (by simp)
        · rename_i e1 hex
          have hknz : ¬ (e.bookEntries k).size = 0 ∨ osz = 0 := by
            by_cases hosz : osz = 0
            · exact Or.inr hosz
            · exact Or.inl (by omega)
          have hknz2 : ¬ (e.bookEntries k).size = 0 → True := fun _ => trivial
          rcases executeTrade_ok_cases hex with ⟨hs, rfl⟩ | ⟨hs, -, rfl⟩ <;> split at h <;>
            cases (Except.ok.injEq _ _).mp h
          · refine ⟨?_, by simp, ⟨[], by simp, by simp⟩⟩
            intro j
            by_cases hj : j = k <;> simp [upd, hj]
          · exact ⟨fun j => by simp, by simp, ⟨[], by simp, by simp⟩⟩
          · refine ⟨?_, by simp, ?_⟩
            · intro j
              by_cases hj : j = k <;> simp [upd, hj]
            · refine ⟨[⟨(e.bookEntries k).id, o.id, o.trader,
                (e.bookEntries k).trader, o.symbol, o.price, osz⟩], by simp, ?_⟩
              intro d hd
              rcases List.mem_singleton.mp hd with rfl
              refine ⟨rfl, rfl, hs, k, ?_, rfl⟩
              rcases hknz with hk | hk
              · exact hk
              · exact absurd hk hs
          · refine ⟨fun j => by simp, by simp, ?_⟩
            refine ⟨[⟨(e.bookEntries k).id, o.id, o.trader,
              (e.bookEntries k).trader, o.symbol, o.price, osz⟩], by simp, ?_⟩
            intro d hd
            rcases List.mem_singleton.mp hd with rfl
            refine ⟨rfl, rfl, hs, k, ?_, rfl⟩
            rcases hknz with hk | hk
            · exact hk
            · exact absurd hk hs
    | none =>
      rw [askWalk] at h
      split at h
      · split at h
        · cases (Except.ok.injEq _ _).mp h
          exact ⟨fun j => by simp, by simp, ⟨[], by simp, by simp⟩⟩
        · rcases ih _ _ _ _ res h with ⟨hent, hbm, ds, hds, hall⟩
          refine ⟨?_, by simpa using hbm, ⟨ds, by simpa using hds, ?_⟩⟩
          · intro j
            simpa using hent j
          · intro d hd
            simpa using hall d hd
      · exact absurd h (by simp)

/-- What `restOrder` does to the state: pointers and the deal log are
untouched; the freshly allocated entry gets the order's id; every other
entry keeps its id and size. -/
theorem restOrder_state {e eb : Engine} {o : Order} {osz oid : Nat}
    (h : restOrder e o osz = .ok (eb, oid)) :
    eb.askMin = e.askMin ∧ eb.bidMax = e.bidMax ∧ eb.deals = e.deals ∧
    eb.curOrderID = inc64 e.curOrderID ∧
    (∀ k, ((eb.bookEntries k).id = (e.bookEntries k).id ∧
           (eb.bookEntries k).size = (e.bookEntries k).size) ∨
          (eb.bookEntries k).id = o.id) := by
  rcases restOrder_ok_cases h with ⟨-, -, -, hins⟩
  rcases ppInsertOrder_ok_cases hins with ⟨-, rfl⟩ | ⟨t, -, -, rfl⟩
  · refine ⟨by simp, by simp, by simp, by simp, ?_⟩
    intro k
    by_cases hk : k = inc64 e.curOrderID
    · subst hk; right; simp
    · left; simp [upd_ne _ _ _ hk]
  · refine ⟨by simp, by simp, by simp, by simp, ?_⟩
    intro k
    by_cases hk : k = inc64 e.curOrderID
    · subst hk
      right
      by_cases ht : inc64 e.curOrderID = t
      · simp [upd, ht]
      · simp [upd, ht]
    · by_cases hkt : k = t
      · subst hkt
        left
        simp [upd, hk]
      · left
        simp [upd, hk, hkt]

/-! ## Claim C10: out-of-bounds scan at the top price boundary -/

/-- C10 (confirmed): on the valid feed `Ask@MAX_PRICE size=1` then
`Bid@MAX_PRICE size=2`, the buy-side scan exhausts the level at
`askMin = MAX_PRICE`, increments `askMin` to `MAX_PRICE + 1` and then takes
`&e.pricePoints[e.askMin]` before testing the loop-exit condition — an
out-of-bounds access on the array of length `MAX_PRICE + 1`, so `Limit` is
not total on valid inputs at the top price boundary. -/
theorem c10_top_boundary_oob :
    ValidOps c10ops ∧
      run 1000 (Reset initEngine) c10ops = .error .indexOutOfRange := by
  refine ⟨by decide, ?_⟩
  have h : errOf (run 1000 (Reset initEngine) c10ops) = some .indexOutOfRange := by decide
  cases hR : run 1000 (Reset initEngine) c10ops with
  | error er => rw [hR] at h; cases h; rfl
  | ok E => rw [hR] at h; exact absurd h (by simp [errOf])

/-! ## Claim C9: the scan-pointer scenario of spec test 6 -/

/-- C9 (corrected): on `Ask@100 size=1`, `Ask@102 size=1`, `Bid@102 size=2`
the engine emits BOTH deals at the aggressive limit price 102 (the spec
expected the first at the passive price 100), and afterwards
`askMin = 102`, not `askMin > 102` (the pointer stays at the level that was
emptied by the final full fill). -/
theorem c9_scan_amended :
    dealsOf (run 1000 (Reset initEngine) c9ops) =
      some [⟨3, 1, "TA", "TC", "SYM", 102, 1⟩, ⟨3, 2, "TB", "TC", "SYM", 102, 1⟩] ∧
    askMinOf (run 1000 (Reset initEngine) c9ops) = some 102 := by decide

/-- C9 counterexample: the deal log differs from the spec's expectation
(first deal price is 102, not 100), and `askMin` ends at exactly 102, which
is not greater than 102. -/
theorem c9_claim_counterexample :
    ¬ dealsOf (run 1000 (Reset initEngine) c9ops) =
        some [⟨3, 1, "TA", "TC", "SYM", 100, 1⟩, ⟨3, 2, "TB", "TC", "SYM", 102, 1⟩] ∧
    askMinOf (run 1000 (Reset initEngine) c9ops) = some 102 ∧ ¬ (102 : Nat) < 102 := by
  decide

/-! ## Claim C5: `Reset` does not clear the arena -/

/-- C5 (code bug): after a run in which order 1 rested and was then fully
filled, its arena entry still reads `{size 5, next nil, trader "TA", id 1}`;
`Reset` leaves it untouched (the `for _, bookEntry := range e.bookEntries`
loop mutates a copy of each element), while the price points, cursors and
scan pointers ARE reinitialised.  The spec requires the whole arena to be
zeroed. -/
theorem c5_reset_leaves_arena :
    entryOf ((run 1000 (Reset initEngine) c8ops).map Reset) 1 =
      some ⟨5, none, "TA", 1⟩ ∧
    ¬ (⟨5, none, "TA", 1⟩ : OrderBookEntry) = OrderBookEntry.zero ∧
    headOf ((run 1000 (Reset initEngine) c8ops).map Reset) 100 = some none ∧
    askMinOf ((run 1000 (Reset initEngine) c8ops).map Reset) = some (maxPrice + 1) ∧
    bidMaxOf ((run 1000 (Reset initEngine) c8ops).map Reset) = some (minPrice - 1) := by
  decide

/-! ## Claim C7: capacity overflow is an unguarded index, not a typed error -/

/-- C7 (corrected): when the arena allocation cursor would move past
`maxNumOrders`, `Limit` hits the bounds check of
`e.bookEntries[e.curOrderID]` and fails with the runtime
index-out-of-range panic (`Err.indexOutOfRange` in this embedding); and
when the deal log is full, `executeTrade` hits the bounds check of
`e.deals[e.curDealID]` in the same way.  There is no typed
`CapacityExceeded` error anywhere in the code. -/
theorem c7_capacity_unguarded :
    (∀ (fuel : Nat) (e : Engine) (o : Order),
      e.curOrderID = maxNumOrders - 1 → o.side = Side.Bid → o.price < e.askMin →
      Limit fuel e o = .error .indexOutOfRange) ∧
    (∀ (e : Engine) (b a : Nat) (sym bt atr : String) (p s : Nat),
      e.deals.length = maxNumDeals → ¬ s = 0 →
      executeTrade e b a sym bt atr p s = .error .indexOutOfRange) := by
  constructor
  · intro fuel e o hcur hside hlt
    rw [Limit, if_pos hside, if_neg (by omega : ¬ e.askMin ≤ o.price), bidFinish,
      restOrder, hcur]
    rw [show inc64 (maxNumOrders - 1) = maxNumOrders from by decide]
    rw [if_neg (by omega : ¬ maxNumOrders < maxNumOrders)]
  · intro e b a sym bt atr p s hlen hs
    rw [executeTrade, if_neg hs, if_neg (by rw [hlen]; omega)]

/-- Witness for C7: a concrete engine one below the arena capacity, and a
concrete engine with a full deal log. -/
theorem c7_capacity_unguarded_witness :
    Limit 10 fullEngine ⟨7, "SYM", "TA", Side.Bid, 5, 3⟩ = .error .indexOutOfRange ∧
    executeTrade fullDealEngine 1 2 "SYM" "a" "b" 5 1 = .error .indexOutOfRange := by
  constructor
  · exact c7_capacity_unguarded.1 10 fullEngine ⟨7, "SYM", "TA", Side.Bid, 5, 3⟩
      rfl rfl (by decide)
  · exact c7_capacity_unguarded.2 fullDealEngine 1 2 "SYM" "a" "b" 5 1
      (by simp [fullDealEngine]) (by decide)

/-- C7 counterexample: at full arena capacity a valid non-crossing submit
produces the out-of-bounds runtime error, not a typed capacity error (the
error type of the embedding has no such value). -/
theorem c7_no_capacity_error :
    errOf (step 10 fullEngine (Op.limit ⟨7, "SYM", "TA", Side.Bid, 5, 3⟩)) =
      some .indexOutOfRange := by decide

/-! ## Claim C8: exact fill, single pair -/

/-- C8 (corrected): submitting `Bid@100 size=5` then `Ask@100 size=5` from a
reset engine produces exactly one deal `{price 100, size 5}`, leaves every
price-point list empty (no resting order of positive size), and leaves
`askMin = MAX_PRICE + 1`; but `bidMax` remains 100 — the scan pointer is
NOT rewound to `MIN_PRICE - 1` when the incoming ask fully fills inside the
list walk. -/
theorem c8_exact_fill :
    dealsOf (run 1000 (Reset initEngine) c8ops) =
      some [⟨1, 2, "TB", "TA", "SYM", 100, 5⟩] ∧
    askMinOf (run 1000 (Reset initEngine) c8ops) = some (maxPrice + 1) ∧
    bidMaxOf (run 1000 (Reset initEngine) c8ops) = some 100 ∧
    ∀ p, headOf (run 1000 (Reset initEngine) c8ops) p = some none := by
  refine ⟨by decide, by decide, by decide, ?_⟩
  intro p
  by_cases hp : p = 100
  · subst hp; decide
  · cases hR : run 1000 (Reset initEngine) c8ops with
    | error er =>
      have hd : dealsOf (run 1000 (Reset initEngine) c8ops) =
          some [⟨1, 2, "TB", "TA", "SYM", 100, 5⟩] := by decide
      rw [hR] at hd
      exact absurd hd (by simp [dealsOf])
    | ok E =>
      have hnone := run_heads_none c8ops (Reset initEngine) E hR p rfl
        (by simp [limitPrices, c8ops, hp])
      rw [headOf, hnone]

/-- C8 counterexample: the claim requires `bidMax = MIN_PRICE - 1` after the
run, but the code leaves `bidMax = 100`. -/
theorem c8_claim_counterexample :
    ¬ bidMaxOf (run 1000 (Reset initEngine) c8ops) = some (minPrice - 1) := by decide

/-! ## Claim C1: the deal price is the aggressive limit, not the passive price -/

/-- C1 counterexample: an ask rests at price 100 (and `askMin = 100`), then
a bid limited at 102 lifts it; the emitted deal carries price 102 — the
aggressive order's limit — not the passive resting price 100. -/
theorem c1_passive_price_counterexample :
    askMinOf (run 1000 (Reset initEngine) (c1ops.take 1)) = some 100 ∧
    headOf (run 1000 (Reset initEngine) (c1ops.take 1)) 100 = some (some 1) ∧
    dealsOf (run 1000 (Reset initEngine) c1ops) =
      some [⟨2, 1, "TA", "TB", "SYM", 102, 1⟩] ∧
    ¬ (102 : Nat) = 100 := by decide

/-! ## Deal provenance and live-id facts across a whole `Limit` call -/

theorem Limit_facts {fuel : Nat} {e e2 : Engine} {o : Order} {oid : Nat}
    (h : Limit fuel e o = .ok (e2, oid)) :
    (∃ ds, e2.deals = e.deals ++ ds ∧ ∀ d ∈ ds, d.price = o.price ∧ ¬ d.size = 0 ∧
      ((d.bidOrderID = o.id ∧
          ∃ k, ¬ (e.bookEntries k).size = 0 ∧ d.askOrderID = (e.bookEntries k).id) ∨
        (d.askOrderID = o.id ∧
          ∃ k, ¬ (e.bookEntries k).size = 0 ∧ d.bidOrderID = (e.bookEntries k).id))) ∧
    (∀ k, ¬ (e2.bookEntries k).size = 0 →
      ((e2.bookEntries k).id = (e.bookEntries k).id ∧ ¬ (e.bookEntries k).size = 0) ∨
      (e2.bookEntries k).id = o.id) := by
  cases hside : o.side with
  | Bid =>
    rcases Limit_bid_cases hside h with
        ⟨-, -, hw⟩ | ⟨e1, rem, eb, -, -, hw, hr, rfl⟩ | ⟨eb, -, hr, rfl⟩
    · rcases bidWalk_facts o fuel e e.askMin _ o.size _ hw with ⟨hent, -, ds, hds, hall⟩
      constructor
      · exact ⟨ds, by simpa using hds, fun d hd => by
          rcases hall d hd with ⟨hp, hb, hs, k, hknz, ha⟩
          exact ⟨hp, hs, Or.inl ⟨hb, k, hknz, ha⟩⟩⟩
      · intro k hk
        rcases hent k with ⟨hid, -, -, hsz⟩
        rw [engine_filled] at hid hsz
        left
        exact ⟨hid, by omega⟩
    · rcases bidWalk_facts o fuel e e.askMin _ o.size _ hw with ⟨hent, -, ds, hds, hall⟩
      rcases restOrder_state hr with ⟨-, -, hdl, -, hlive⟩
      constructor
      · refine ⟨ds, ?_, fun d hd => by
          rcases hall d hd with ⟨hp, hb, hs, k, hknz, ha⟩
          exact ⟨hp, hs, Or.inl ⟨hb, k, hknz, ha⟩⟩⟩
        show eb.deals = e.deals ++ ds
        rw [hdl]
        simpa using hds
      · intro k hk
        rcases hlive k with ⟨hid1, hsz1⟩ | hid1
        · rcases hent k with ⟨hid0, -, -, hsz0⟩
          rw [engine_rest] at hid0 hsz0
          left
          constructor
          · show (eb.bookEntries k).id = _
            rw [hid1, hid0]
          · have : (eb.bookEntries k).size ≤ (e.bookEntries k).size := by
              rw [hsz1]; exact hsz0
            have hk2 : ¬ (eb.bookEntries k).size = 0 := hk
            omega
        · exact Or.inr hid1
    · rcases restOrder_state hr with ⟨-, -, hdl, -, hlive⟩
      constructor
      · exact ⟨[], by simp [hdl], by simp⟩
      · intro k hk
        rcases hlive k with ⟨hid1, hsz1⟩ | hid1
        · left
          refine ⟨hid1, ?_⟩
          have hk2 : ¬ (eb.bookEntries k).size = 0 := hk
          rw [hsz1] at hk2
          exact hk2
        · exact Or.inr hid1
  | Ask =>
    rcases Limit_ask_cases hside h with
        ⟨-, -, hw⟩ | ⟨e1, rem, eb, -, -, hw, hr, rfl⟩ | ⟨eb, -, hr, rfl⟩
    · rcases askWalk_facts o fuel e e.bidMax _ o.size _ hw with ⟨hent, -, ds, hds, hall⟩
      constructor
      · exact ⟨ds, by simpa using hds, fun d hd => by
          rcases hall d hd with ⟨hp, hb, hs, k, hknz, ha⟩
          exact ⟨hp, hs, Or.inr ⟨hb, k, hknz, ha⟩⟩⟩
      · intro k hk
        rcases hent k with ⟨hid, -, -, hsz⟩
        rw [engine_filled] at hid hsz
        left
        exact ⟨hid, by omega⟩
    · rcases askWalk_facts o fuel e e.bidMax _ o.size _ hw with ⟨hent, -, ds, hds, hall⟩
      rcases restOrder_state hr with ⟨-, -, hdl, -, hlive⟩
      constructor
      · refine ⟨ds, ?_, fun d hd => by
          rcases hall d hd with ⟨hp, hb, hs, k, hknz, ha⟩
          exact ⟨hp, hs, Or.inr ⟨hb, k, hknz, ha⟩⟩⟩
        show eb.deals = e.deals ++ ds
        rw [hdl]
        simpa using hds
      · intro k hk
        rcases hlive k with ⟨hid1, hsz1⟩ | hid1
        · rcases hent k with ⟨hid0, -, -, hsz0⟩
          rw [engine_rest] at hid0 hsz0
          left
          constructor
          · show (eb.bookEntries k).id = _
            rw [hid1, hid0]
          · have : (eb.bookEntries k).size ≤ (e.bookEntries k).size := by
              rw [hsz1]; exact hsz0
            have hk2 : ¬ (eb.bookEntries k).size = 0 := hk
            omega
        · exact Or.inr hid1
    · rcases restOrder_state hr with ⟨-, -, hdl, -, hlive⟩
      constructor
      · exact ⟨[], by simp [hdl], by simp⟩
      · intro k hk
        rcases hlive k with ⟨hid1, hsz1⟩ | hid1
        · left
          refine ⟨hid1, ?_⟩
          have hk2 : ¬ (eb.bookEntries k).size = 0 := hk
          rw [hsz1] at hk2
          exact hk2
        · exact Or.inr hid1

/-- C1 (corrected): the price recorded in every deal emitted by a
successful `Limit` call is the INCOMING (aggressive) order's limit price —
`executeTrade` is always passed `order.price` — not the passive resting
price.  (The original claim, that deals carry the passive price, is refuted
by `c1_passive_price_counterexample`.) -/
theorem c1_deal_price_is_aggressive :
    ∀ (fuel : Nat) (e e2 : Engine) (o : Order) (oid : Nat),
      Limit fuel e o = .ok (e2, oid) →
      ∀ d ∈ e2.deals, d ∈ e.deals ∨ d.price = o.price := by
  intro fuel e e2 o oid h d hd
  rcases (Limit_facts h).1 with ⟨ds, hds, hall⟩
  rw [hds] at hd
  rcases List.mem_append.mp hd with hd | hd
  · exact Or.inl hd
  · exact Or.inr (hall d hd).1

/-- Witness for C1: one concrete `Limit` call. -/
theorem c1_deal_price_is_aggressive_witness :
    limitPricesOk 1000 (Reset initEngine) ⟨9, "SYM", "TB", Side.Bid, 102, 1⟩ = some true := by
  rw [limitPricesOk]
  cases hL : Limit 1000 (Reset initEngine) ⟨9, "SYM", "TB", Side.Bid, 102, 1⟩ with
  | error er =>
    have hok : limitErrOf
        (Limit 1000 (Reset initEngine) ⟨9, "SYM", "TB", Side.Bid, 102, 1⟩) = none := by
      decide
    rw [hL] at hok
    exact absurd hok (by simp [limitErrOf])
  | ok pr =>
    obtain ⟨eb, oidb⟩ := pr
    have := c1_deal_price_is_aggressive 1000 (Reset initEngine) eb
      ⟨9, "SYM", "TB", Side.Bid, 102, 1⟩ oidb hL
    exact congrArg some (decide_eq_true this)

/-! ## Claim C6: cancellation is idempotent and silent -/

theorem cancel_absorb {e e1 : Engine} {i : Nat} (h : Cancel e i = .ok e1) :
    Cancel e1 i = .ok e1 := by
  rcases Cancel_ok_cases h with ⟨hlt, rfl⟩
  rw [Cancel, if_pos hlt]
  rw [setBE_setBE, setBE_bookEntries, upd_same]
  rfl

theorem cancelTimes_of_fixed {e1 : Engine} {i : Nat} (habs : Cancel e1 i = .ok e1) :
    ∀ m, cancelTimes e1 i m = .ok e1 := by
  intro m
  induction m with
  | zero => rfl
  | succ m ihm =>
    rw [cancelTimes, habs]
    exact ihm

/-- Running a batch of limit orders whose external ids avoid `x`, from a
state in which no nonzero-size entry carries id `x`, produces no deal
mentioning `x`, and preserves that property of the state. -/
theorem runLimits_avoid {fuel : Nat} (x : Nat) :
    ∀ (os : List Order) (e1 e2 : Engine),
      noLive x e1 → (∀ o ∈ os, ¬ o.id = x) →
      run fuel e1 (os.map Op.limit) = .ok e2 →
      (∀ d ∈ e2.deals, d ∈ e1.deals ∨ avoids x d) ∧ noLive x e2 := by
  intro os
  induction os with
  | nil =>
    intro e1 e2 hlive hids h
    rw [List.map_nil, run] at h
    cases (Except.ok.injEq _ _).mp h
    exact ⟨fun d hd => Or.inl hd, hlive⟩
  | cons o os ihos =>
    intro e1 e2 hlive hids h
    rw [List.map_cons, run] at h
    cases hs : step fuel e1 (Op.limit o) with
    | error er => rw [hs] at h; exact absurd h (by simp)
    | ok em =>
      rw [hs] at h
      rw [step] at hs
      cases hL : Limit fuel e1 o with
      | error er => rw [hL] at hs; exact absurd hs (by simp)
      | ok pr =>
        obtain ⟨ea, oa⟩ := pr
        rw [hL] at hs
        have hem : ea = em := (Except.ok.injEq _ _).mp hs
        rw [← hem] at h
        rcases Limit_facts hL with ⟨⟨ds, hds, hall⟩, hlive2⟩
        have hoid : ¬ o.id = x := hids o (List.mem_cons_self _ _)
        have hlive3 : noLive x ea := by
          intro k hk
          rcases hlive2 k hk with ⟨hid, hnz⟩ | hid
          · rw [hid]
            exact hlive k hnz
          · rw [hid]
            exact hoid
        rcases ihos ea e2 hlive3 (fun o2 ho2 => hids o2 (List.mem_cons_of_mem _ ho2)) h
          with ⟨hd2, hlive4⟩
        refine ⟨?_, hlive4⟩
        intro d hd
        rcases hd2 d hd with hd1 | hd1
        · rw [hds] at hd1
          rcases List.mem_append.mp hd1 with hd1 | hd1
          · exact Or.inl hd1
          · rcases hall d hd1 with ⟨-, -, ⟨hb, k, hknz, ha⟩ | ⟨hb, k, hknz, ha⟩⟩
            · refine Or.inr ⟨by rw [hb]; exact hoid, by rw [ha]; exact hlive k hknz⟩
            · refine Or.inr ⟨by rw [ha]; exact hlive k hknz, by rw [hb]; exact hoid⟩
        · exact Or.inr hd1

/-- C6 (confirmed): (1) `Cancel(id)` followed by any number of further
`Cancel(id)` calls is exactly one `Cancel(id)` — the write of size 0 is
absorbing and leaves every other component of the state, including the deal
log, unchanged; (2) after `Cancel(i)`, provided the cancelled entry's
external id is not shared by another live entry or a later order (external
ids are unique in a run), no subsequent `Limit` call emits any deal
involving it: its zero-sized node is stepped over without producing a
deal. -/
theorem c6_cancel_idempotent_and_silent :
    (∀ (e : Engine) (i n : Nat), 1 ≤ n → cancelTimes e i n = Cancel e i) ∧
    (∀ (fuel : Nat) (e e1 e2 : Engine) (i : Nat) (os : List Order),
      Cancel e i = .ok e1 →
      (∀ k, ¬ k = i → ¬ (e.bookEntries k).size = 0 →
        ¬ (e.bookEntries k).id = (e.bookEntries i).id) →
      (∀ o ∈ os, ¬ o.id = (e.bookEntries i).id) →
      run fuel e1 (os.map Op.limit) = .ok e2 →
      ∀ d ∈ e2.deals, d ∈ e1.deals ∨ avoids (e.bookEntries i).id d) := by
  constructor
  · intro e i n hn
    cases n with
    | zero => omega
    | succ m =>
      rw [cancelTimes]
      cases hC : Cancel e i with
      | error er => rfl
      | ok e1 => exact cancelTimes_of_fixed (cancel_absorb hC) m
  · intro fuel e e1 e2 i os hC hother hids hrun
    have hlive : noLive (e.bookEntries i).id e1 := by
      rcases Cancel_ok_cases hC with ⟨-, rfl⟩
      intro k hk
      by_cases hki : k = i
      · subst hki
        exact absurd (by simp) hk
      · have hk2 : ¬ (e.bookEntries k).size = 0 := by
          simpa [upd_ne _ _ _ hki] using hk
        have := hother k hki hk2
        simpa [upd_ne _ _ _ hki] using this
    exact (runLimits_avoid (e.bookEntries i).id os e1 e2 hlive hids hrun).1

/-- Witness for C6: three cancels equal one on a concrete book, and a
crossing bid after the cancel produces no deal about the cancelled id. -/
theorem c6_witness :
    cancelTimes eC6 1 3 = Cancel eC6 1 ∧
    silentAfterCancel 1000 eC6 1 [oC6] = some true := by
  constructor
  · exact c6_cancel_idempotent_and_silent.1 eC6 1 3 (by omega)
  · rw [silentAfterCancel]
    cases hC : Cancel eC6 1 with
    | error er =>
      have hok : errOf (Cancel eC6 1) = none := by decide
      rw [hC] at hok
      exact absurd hok (by simp [errOf])
    | ok e1 =>
      show (match run 1000 e1 ([oC6].map Op.limit) with
        | Except.error _ => none
        | Except.ok e2 =>
          some (decide (∀ d ∈ e2.deals, d ∈ e1.deals ∨
            avoids (eC6.bookEntries 1).id d))) = some true
      cases hR : run 1000 e1 ([oC6].map Op.limit) with
      | error er =>
        rcases Cancel_ok_cases hC with ⟨-, rfl⟩
        have hok : errOf (run 1000 (eC6.setBE 1 ((eC6.bookEntries 1).withSize 0))
            ([oC6].map Op.limit)) = none := by decide
        rw [hR] at hok
        exact absurd hok (by simp [errOf])
      | ok e2 =>
        have := c6_cancel_idempotent_and_silent.2 1000 eC6 e1 e2 1 [oC6] hC
          (by
            intro k hk1 hk2
            exact absurd (show (eC6.bookEntries k).size = 0 by
              simp [eC6, Reset, initEngine, Engine.setBE, Engine.setPP, withAskMin,
                upd_ne _ _ _ hk1, OrderBookEntry.zero]) hk2)
          (by decide)
          hR
        exact congrArg some (decide_eq_true this)

/-! ## Claim C2: the book is never crossed -/

theorem dec64_small {b : Nat} (h1 : 1 ≤ b) (h2 : b < 2 ^ 64) : dec64 b = b - 1 := by
  rw [dec64]
  have h3 : b + (2 ^ 64 - 1) = (b - 1) + 1 * 2 ^ 64 := by
    have : (0:Nat) < 2 ^ 64 := Nat.pos_pow_of_pos 64 (by omega)
    omega
  rw [h3, Nat.add_mul_mod_self_right]
  exact Nat.mod_eq_of_lt (by omega)

theorem dec64_zero : dec64 0 = 2 ^ 64 - 1 := by
  rw [dec64]
  have : (0:Nat) < 2 ^ 64 := Nat.pos_pow_of_pos 64 (by omega)
  exact Nat.mod_eq_of_lt (by omega)

theorem maxPrice_lt : maxPrice + 1 < 2 ^ 64 := by
  rw [maxPrice]
  norm_num

/-- From the bound established by the scan's own range check, the wrapped
decrement of `bidMax` is an honest decrement of a positive number. -/
theorem dec64_of_le_maxPrice {b : Nat} (hb : b ≤ maxPrice)
    (hg : dec64 b ≤ maxPrice) : 1 ≤ b ∧ dec64 b = b - 1 := by
  cases Nat.eq_zero_or_pos b with
  | inl h0 =>
    subst h0
    rw [dec64_zero] at hg
    have := maxPrice_lt
    omega
  | inr hpos =>
    exact ⟨hpos, dec64_small hpos (by have := maxPrice_lt; omega)⟩

theorem bidWalk_pointer_facts (o : Order) :
    ∀ (fuel : Nat) (e : Engine) (lvl : Nat) (cur : Option Nat) (osz : Nat) (res : ScanRes),
      bidWalk o fuel e lvl cur osz = .ok res →
      e.askMin ≤ maxPrice →
      e.askMin ≤ res.engine.askMin ∧ res.engine.askMin ≤ maxPrice ∧
      (∀ e1 rem, res = .rest e1 rem → o.price < e1.askMin) := by
  intro fuel
  induction fuel with
  | zero =>
    intro e lvl cur osz res h
    exact absurd h (by simp [bidWalk])
  | succ n ih =>
    intro e lvl cur osz res h hle
    cases cur with
    | some k =>
      rw [bidWalk] at h
      split at h
      · split at h
        · exact absurd h (by simp)
        · rename_i e1 hex
          rcases executeTrade_ok_cases hex with ⟨-, rfl⟩ | ⟨-, -, rfl⟩
          · exact ih _ lvl _ _ res h hle
          · have h9 := ih _ lvl _ _ res h (by exact hle)
            exact h9
      · split at h
        · exact absurd h (by simp)
        · rename_i e1 hex
          rcases executeTrade_ok_cases hex with ⟨-, rfl⟩ | ⟨-, -, rfl⟩ <;>
            split at h <;> cases (Except.ok.injEq _ _).mp h <;>
            exact ⟨by simp, by simpa using hle, by simp⟩
    | none =>
      rw [bidWalk] at h
      split at h
      · rename_i hg
        have hg2 : inc64 e.askMin ≤ maxPrice := by simpa using hg
        have hinc : inc64 e.askMin = e.askMin + 1 :=
          inc64_small (by have := maxPrice_lt; omega)
        split at h
        · rename_i hbrk
          cases (Except.ok.injEq _ _).mp h
          refine ⟨by simp [hinc], by simpa using hg2, ?_⟩
          intro e1 rem heq
          cases heq
          simpa using hbrk
        · have h2 := ih _ _ _ _ res h (by simpa using hg2)
          rcases h2 with ⟨hmono, hub, hrest⟩
          refine ⟨?_, hub, hrest⟩
          have hmono2 : inc64 e.askMin ≤ res.engine.askMin := by simpa using hmono
          omega
      · exact absurd h (by simp)

theorem askWalk_pointer_facts (o : Order) :
    ∀ (fuel : Nat) (e : Engine) (lvl : Nat) (cur : Option Nat) (osz : Nat) (res : ScanRes),
      askWalk o fuel e lvl cur osz = .ok res →
      e.bidMax ≤ maxPrice →
      res.engine.bidMax ≤ e.bidMax ∧ res.engine.bidMax ≤ maxPrice ∧
      (∀ e1 rem, res = .rest e1 rem → e1.bidMax < o.price) := by
  intro fuel
  induction fuel with
  | zero =>
    intro e lvl cur osz res h
    exact absurd h (by simp [askWalk])
  | succ n ih =>
    intro e lvl cur osz res h hle
    cases cur with
    | some k =>
      rw [askWalk] at h
      split at h
      · split at h
        · exact absurd h (by simp)
        · rename_i e1 hex
          rcases executeTrade_ok_cases hex with ⟨-, rfl⟩ | ⟨-, -, rfl⟩
          · exact ih _ lvl _ _ res h hle
          · have h9 := ih _ lvl _ _ res h (by exact hle)
            exact h9
      · split at h
        · exact absurd h (by simp)
        · rename_i e1 hex
          rcases executeTrade_ok_cases hex with ⟨-, rfl⟩ | ⟨-, -, rfl⟩ <;>
            split at h <;> cases (Except.ok.injEq _ _).mp h <;>
            exact ⟨by simp, by simpa using hle, by simp⟩
    | none =>
      rw [askWalk] at h
      split at h
      · rename_i hg
        have hg2 : dec64 e.bidMax ≤ maxPrice := by simpa using hg
        rcases dec64_of_le_maxPrice hle hg2 with ⟨hpos, hdec⟩
        split at h
        · rename_i hbrk
          cases (Except.ok.injEq _ _).mp h
          refine ⟨by simp [hdec], by simpa using hg2, ?_⟩
          intro e1 rem heq
          cases heq
          simpa using hbrk
        · have h2 := ih _ _ _ _ res h (by simpa using hg2)
          rcases h2 with ⟨hmono, hub, hrest⟩
          refine ⟨?_, hub, hrest⟩
          have hmono2 : res.engine.bidMax ≤ dec64 e.bidMax := by simpa using hmono
          omega
      · exact absurd h (by simp)

/-- A successful `Limit` preserves the uncrossed-book invariant together
with the range bounds on the scan pointers. -/
theorem Limit_uncrossed {fuel : Nat} {e e2 : Engine} {o : Order} {oid : Nat}
    (h : Limit fuel e o = .ok (e2, oid))
    (hcross : e.bidMax < e.askMin) (ha : e.askMin ≤ maxPrice + 1)
    (hb : e.bidMax ≤ maxPrice) :
    e2.bidMax < e2.askMin ∧ e2.askMin ≤ maxPrice + 1 ∧ e2.bidMax ≤ maxPrice := by
  cases hside : o.side with
  | Bid =>
    rcases Limit_bid_cases hside h with
        ⟨h1, h2, hw⟩ | ⟨e1, rem, eb, h1, h2, hw, hr, rfl⟩ | ⟨eb, h1, hr, rfl⟩
    · have hbm := (bidWalk_facts o fuel e e.askMin _ o.size _ hw).2.1
      have hpt := bidWalk_pointer_facts o fuel e _ _ o.size _ hw h2
      rw [engine_filled] at hbm hpt
      refine ⟨?_, by omega, by omega⟩
      omega
    · have hbm := (bidWalk_facts o fuel e e.askMin _ o.size _ hw).2.1
      have hpt := bidWalk_pointer_facts o fuel e _ _ o.size _ hw h2
      rw [engine_rest] at hbm hpt
      have hrest := hpt.2.2 e1 rem rfl
      rcases restOrder_state hr with ⟨hras, hrbm, -, -, -⟩
      rcases restOrder_ok_cases hr with ⟨-, -, hopr, -⟩
      simp only [withBidMax_bidMax, withBidMax_askMin]
      rw [hras, hrbm, hbm]
      constructor
      · split <;> omega
      · constructor
        · omega
        · split <;> omega
    · rcases restOrder_state hr with ⟨hras, hrbm, -, -, -⟩
      rcases restOrder_ok_cases hr with ⟨-, -, hopr, -⟩
      simp only [withBidMax_bidMax, withBidMax_askMin]
      rw [hras, hrbm]
      constructor
      · split <;> omega
      · constructor
        · omega
        · split <;> omega
  | Ask =>
    rcases Limit_ask_cases hside h with
        ⟨h1, h2, hw⟩ | ⟨e1, rem, eb, h1, h2, hw, hr, rfl⟩ | ⟨eb, h1, hr, rfl⟩
    · have ham := (askWalk_facts o fuel e e.bidMax _ o.size _ hw).2.1
      have hpt := askWalk_pointer_facts o fuel e _ _ o.size _ hw h2
      rw [engine_filled] at ham hpt
      refine ⟨?_, by omega, by omega⟩
      omega
    · have ham := (askWalk_facts o fuel e e.bidMax _ o.size _ hw).2.1
      have hpt := askWalk_pointer_facts o fuel e _ _ o.size _ hw h2
      rw [engine_rest] at ham hpt
      have hrest := hpt.2.2 e1 rem rfl
      rcases restOrder_state hr with ⟨hras, hrbm, -, -, -⟩
      rcases restOrder_ok_cases hr with ⟨-, -, hopr, -⟩
      simp only [withAskMin_bidMax, withAskMin_askMin]
      rw [hras, hrbm, ham]
      constructor
      · split <;> omega
      · constructor
        · split <;> omega
        · omega
    · rcases restOrder_state hr with ⟨hras, hrbm, -, -, -⟩
      rcases restOrder_ok_cases hr with ⟨-, -, hopr, -⟩
      simp only [withAskMin_bidMax, withAskMin_askMin]
      rw [hras, hrbm]
      constructor
      · split <;> omega
      · constructor
        · split <;> omega
        · omega

theorem run_uncrossed {fuel : Nat} :
    ∀ (ops : List Op) (e0 e : Engine),
      e0.bidMax < e0.askMin → e0.askMin ≤ maxPrice + 1 → e0.bidMax ≤ maxPrice →
      run fuel e0 ops = .ok e →
      e.bidMax < e.askMin ∧ e.askMin ≤ maxPrice + 1 ∧ e.bidMax ≤ maxPrice := by
  intro ops
  induction ops with
  | nil =>
    intro e0 e hc ha hb h
    rw [run] at h
    cases (Except.ok.injEq _ _).mp h
    exact ⟨hc, ha, hb⟩
  | cons op ops ih =>
    intro e0 e hc ha hb h
    rw [run] at h
    cases hs : step fuel e0 op with
    | error er => rw [hs] at h; exact absurd h (by simp)
    | ok e1 =>
      rw [hs] at h
      cases op with
      | limit o =>
        rw [step] at hs
        cases hL : Limit fuel e0 o with
        | error er => rw [hL] at hs; exact absurd hs (by simp)
        | ok pr =>
          obtain ⟨ea, oa⟩ := pr
          rw [hL] at hs
          have hem : ea = e1 := (Except.ok.injEq _ _).mp hs
          subst hem
          rcases Limit_uncrossed hL hc ha hb with ⟨hc1, ha1, hb1⟩
          exact ih _ e hc1 ha1 hb1 h
      | cancel oid =>
        rw [step] at hs
        rcases Cancel_ok_cases hs with ⟨-, rfl⟩
        exact ih _ e (by simpa using hc) (by simpa using ha) (by simpa using hb) h

/-- C2 (confirmed): starting from a reset engine, after every successfully
completed feed of submits and cancels the book satisfies
`bidMax < askMin` — the book is never crossed between matching operations.
(Every prefix of a feed is itself a feed, so this covers the state after
each completed `Limit` call.) -/
theorem c2_book_never_crossed :
    ∀ (fuel : Nat) (ops : List Op) (e : Engine),
      ValidOps ops → run fuel (Reset initEngine) ops = .ok e →
      e.bidMax < e.askMin := by
  intro fuel ops e _ h
  exact (run_uncrossed ops (Reset initEngine) e (by decide) (by decide) (by decide) h).1

/-- Witness for C2: the spec-test-6 feed. -/
theorem c2_book_never_crossed_witness :
    uncrossedOf (run 1000 (Reset initEngine) c9ops) = some true := by
  cases hR : run 1000 (Reset initEngine) c9ops with
  | error er =>
    have hok : errOf (run 1000 (Reset initEngine) c9ops) = none := by decide
    rw [hR] at hok
    exact absurd hok (by simp [errOf])
  | ok E =>
    exact congrArg some
      (decide_eq_true (c2_book_never_crossed 1000 c9ops E (by decide) hR))

/-! ## Chain lemmas -/

theorem chain_none {f : Nat → OrderBookEntry} {l : List Nat} (h : Chain f none l) :
    l = [] := by
  cases h
  rfl

theorem chain_some {f : Nat → OrderBookEntry} {k : Nat} {l : List Nat}
    (h : Chain f (some k) l) : ∃ l2, l = k :: l2 ∧ Chain f (f k).next l2 := by
  cases h with
  | cons h2 => exact ⟨_, rfl, h2⟩

theorem chain_head {f : Nat → OrderBookEntry} {c : Option Nat} {l : List Nat}
    (h : Chain f c l) : c = l.head? := by
  cases h <;> rfl

theorem chain_unique {f : Nat → OrderBookEntry} {c : Option Nat} :
    ∀ {l1 l2 : List Nat}, Chain f c l1 → Chain f c l2 → l1 = l2 := by
  intro l1
  induction l1 generalizing c with
  | nil =>
    intro l2 h1 h2
    cases h1
    exact (chain_none h2).symm
  | cons x xs ih =>
    intro l2 h1 h2
    cases h1 with
    | cons h1t =>
      rcases chain_some h2 with ⟨l2t, rfl, h2t⟩
      rw [ih h1t h2t]

theorem chain_congr {f g : Nat → OrderBookEntry}
    (hfg : ∀ j, (g j).next = (f j).next) {c : Option Nat} :
    ∀ {l : List Nat}, Chain f c l → Chain g c l := by
  intro l
  induction l generalizing c with
  | nil =>
    intro h
    cases h
    exact Chain.nil
  | cons x xs ih =>
    intro h
    cases h with
    | cons ht =>
      exact Chain.cons (by rw [hfg]; exact ih ht)

theorem chain_append_right {f : Nat → OrderBookEntry} :
    ∀ (l1 : List Nat) {l2 : List Nat} {c : Option Nat},
      Chain f c (l1 ++ l2) → Chain f l2.head? l2 := by
  intro l1
  induction l1 with
  | nil =>
    intro l2 c h
    rw [List.nil_append] at h
    rw [← chain_head h]
    exact h
  | cons x xs ih =>
    intro l2 c h
    rw [List.cons_append] at h
    cases h with
    | cons ht => exact ih ht

theorem chain_nodup {f : Nat → OrderBookEntry} {c : Option Nat} :
    ∀ {l : List Nat}, Chain f c l → l.Nodup := by
  intro l
  induction l generalizing c with
  | nil => intro h; exact List.nodup_nil
  | cons x xs ih =>
    intro h
    cases h with
    | cons ht =>
      refine List.nodup_cons.mpr ⟨?_, ih ht⟩
      intro hmem
      rcases List.append_of_mem hmem with ⟨s, t, rfl⟩
      have h2 : Chain f (some x) (x :: t) := by
        have h3 := chain_append_right s ht
        rwa [List.head?_cons] at h3
      have h4 : Chain f (some x) (x :: (s ++ x :: t)) := Chain.cons ht
      have h5 := chain_unique h4 h2
      have h6 : (x :: (s ++ x :: t)).length = (x :: t).length := by rw [h5]
      simp only [List.length_cons, List.length_append] at h6
      omega

/-! ## Arithmetic of the flattened level lists -/

theorem flat_nil (L : Nat → List Nat) {a b : Nat} (h : b < a) : flat L a b = [] := by
  rw [flat]
  have h1 : b + 1 - a = 0 := by omega
  rw [h1]
  rfl

theorem flat_cons (L : Nat → List Nat) {a b : Nat} (h : a ≤ b) :
    flat L a b = L a ++ flat L (a + 1) b := by
  rw [flat, flat]
  have h1 : b + 1 - a = (b + 1 - (a + 1)) + 1 := by omega
  rw [h1, List.range'_succ, List.map_cons, List.flatten_cons]

theorem flat_split (L : Nat → List Nat) {a m b : Nat} (h1 : a ≤ m) (h2 : 1 ≤ m)
    (h3 : m ≤ b + 1) : flat L a b = flat L a (m - 1) ++ flat L m b := by
  have h4 : m - 1 + 1 - a = m - a := by omega
  have h5 : (m - a) + (b + 1 - m) = b + 1 - a := by omega
  rw [flat, flat, flat, h4, ← List.flatten_append, ← List.map_append]
  rw [show List.range' m (b + 1 - m) = List.range' (a + 1 * (m - a)) (b + 1 - m) from by
    rw [show a + 1 * (m - a) = m from by omega]]
  rw [List.range'_append]
  rw [show b + 1 - m + (m - a) = b + 1 - a from by omega]

theorem flat_congr {L M : Nat → List Nat} {a b : Nat}
    (h : ∀ q, a ≤ q → q ≤ b → L q = M q) : flat L a b = flat M a b := by
  rw [flat, flat]
  congr 1
  apply List.map_congr_left
  intro q hq
  rcases List.mem_range'_1.mp hq with ⟨hq1, hq2⟩
  exact h q hq1 (by omega)

theorem mem_flat {L : Nat → List Nat} {a b k : Nat} :
    k ∈ flat L a b ↔ ∃ q, a ≤ q ∧ q ≤ b ∧ k ∈ L q := by
  rw [flat]
  constructor
  · intro h
    rcases List.mem_flatten.mp h with ⟨l, hl, hk⟩
    rcases List.mem_map.mp hl with ⟨q, hq, rfl⟩
    rcases List.mem_range'_1.mp hq with ⟨h1, h2⟩
    exact ⟨q, h1, by omega, hk⟩
  · rintro ⟨q, h1, h2, hk⟩
    exact List.mem_flatten.mpr
      ⟨L q, List.mem_map.mpr ⟨q, List.mem_range'_1.mpr ⟨h1, by omega⟩, rfl⟩, hk⟩

theorem flat_empty {L : Nat → List Nat} {a b : Nat}
    (h : ∀ q, a ≤ q → q ≤ b → L q = []) : flat L a b = [] := by
  rw [List.eq_nil_iff_forall_not_mem]
  intro k hk
  rcases mem_flat.mp hk with ⟨q, h1, h2, hk2⟩
  rw [h q h1 h2] at hk2
  exact List.not_mem_nil k hk2

theorem flat_nodup_aux {L : Nat → List Nat} (h1 : ∀ q, (L q).Nodup)
    (h2 : ∀ p q, p ≠ q → ∀ k, k ∈ L p → k ∉ L q) :
    ∀ (n a b : Nat), b + 1 - a ≤ n → (flat L a b).Nodup := by
  intro n
  induction n with
  | zero =>
    intro a b h
    rw [flat_nil L (by omega)]
    exact List.nodup_nil
  | succ n ih =>
    intro a b h
    by_cases hab : a ≤ b
    · rw [flat_cons L hab]
      apply List.Nodup.append (h1 a) (ih (a + 1) b (by omega))
      intro k hk hk2
      rcases mem_flat.mp hk2 with ⟨q, hq1, hq2, hkq⟩
      exact h2 a q (by omega) k hk hkq
    · rw [flat_nil L (by omega)]
      exact List.nodup_nil

theorem flat_nodup {L : Nat → List Nat} (h1 : ∀ q, (L q).Nodup)
    (h2 : ∀ p q, p ≠ q → ∀ k, k ∈ L p → k ∉ L q) (a b : Nat) :
    (flat L a b).Nodup :=
  flat_nodup_aux h1 h2 (b + 1 - a) a b le_rfl

theorem flatDown_nil (L : Nat → List Nat) {a b : Nat} (h : a < b) :
    flatDown L a b = [] := by
  rw [flatDown]
  have h1 : a + 1 - b = 0 := by omega
  rw [h1]
  rfl

theorem flatDown_cons (L : Nat → List Nat) {a b : Nat} (hb : 1 ≤ b) (h : b ≤ a) :
    flatDown L a b = L a ++ flatDown L (a - 1) b := by
  rw [flatDown, flatDown]
  have h1 : a + 1 - b = (a - b) + 1 := by omega
  have h2 : a - 1 + 1 - b = a - b := by omega
  rw [h1, h2, List.range'_concat]
  rw [show b + 1 * (a - b) = a from by omega]
  rw [List.reverse_append, List.reverse_singleton, List.singleton_append,
    List.map_cons, List.flatten_cons]

theorem flatDown_perm (L : Nat → List Nat) (a b : Nat) :
    (flatDown L a b).Perm (flat L b a) := by
  rw [flatDown, flat, List.map_reverse]
  exact (List.reverse_perm _).flatten

/-! ## Sums over node lists and deal lists -/

theorem listSum_cons (f : Nat → OrderBookEntry) (i k : Nat) (l : List Nat) :
    listSum f i (k :: l) =
      (if (f k).id = i then (f k).size else 0) + listSum f i l := by
  rw [listSum, listSum, List.map_cons, List.sum_cons]

theorem listSum_append (f : Nat → OrderBookEntry) (i : Nat) (l1 l2 : List Nat) :
    listSum f i (l1 ++ l2) = listSum f i l1 + listSum f i l2 := by
  rw [listSum, listSum, listSum, List.map_append, List.sum_append]

theorem listSum_congr {f g : Nat → OrderBookEntry} {i : Nat} {l : List Nat}
    (h : ∀ k ∈ l, (g k).id = (f k).id ∧ (g k).size = (f k).size) :
    listSum g i l = listSum f i l := by
  rw [listSum, listSum]
  congr 1
  apply List.map_congr_left
  intro k hk
  rw [(h k hk).1, (h k hk).2]

theorem listSum_mono {f g : Nat → OrderBookEntry} {i : Nat} {l : List Nat}
    (h : ∀ k ∈ l, (g k).id = (f k).id ∧ (g k).size ≤ (f k).size) :
    listSum g i l ≤ listSum f i l := by
  induction l with
  | nil => exact le_rfl
  | cons k l ih =>
    rw [listSum_cons, listSum_cons, (h k (List.mem_cons_self k l)).1]
    have h2 := (h k (List.mem_cons_self k l)).2
    have h3 := ih (fun j hj => h j (List.mem_cons_of_mem k hj))
    by_cases hid : (f k).id = i
    · rw [if_pos hid, if_pos hid]
      omega
    · rw [if_neg hid, if_neg hid]
      omega

theorem listSum_perm (f : Nat → OrderBookEntry) (i : Nat) {l1 l2 : List Nat}
    (h : l1.Perm l2) : listSum f i l1 = listSum f i l2 :=
  (h.map _).sum_eq

theorem dealsFor_cons (i : Nat) (d : Deal) (ds : List Deal) :
    dealsFor i (d :: ds) =
      (if d.bidOrderID = i ∨ d.askOrderID = i then d.size else 0) + dealsFor i ds := by
  rw [dealsFor, dealsFor, List.map_cons, List.sum_cons]

theorem dealsFor_append (i : Nat) (ds1 ds2 : List Deal) :
    dealsFor i (ds1 ++ ds2) = dealsFor i ds1 + dealsFor i ds2 := by
  rw [dealsFor, dealsFor, dealsFor, List.map_append, List.sum_append]

theorem sumSizes_cons (d : Deal) (ds : List Deal) :
    sumSizes (d :: ds) = d.size + sumSizes ds := by
  rw [sumSizes, sumSizes, List.map_cons, List.sum_cons]

theorem sumSizes_append (ds1 ds2 : List Deal) :
    sumSizes (ds1 ++ ds2) = sumSizes ds1 + sumSizes ds2 := by
  rw [sumSizes, sumSizes, sumSizes, List.map_append, List.sum_append]

theorem dealsFor_le_sumSizes (i : Nat) (ds : List Deal) :
    dealsFor i ds ≤ sumSizes ds := by
  induction ds with
  | nil => exact le_rfl
  | cons d ds ih =>
    rw [dealsFor_cons, sumSizes_cons]
    split
    · omega
    · omega

@[simp] theorem swap_bidOrderID (d : Deal) : (Deal.swap d).bidOrderID = d.askOrderID := rfl

@[simp] theorem swap_askOrderID (d : Deal) : (Deal.swap d).askOrderID = d.bidOrderID := rfl

@[simp] theorem swap_size (d : Deal) : (Deal.swap d).size = d.size := rfl

@[simp] theorem swap_price (d : Deal) : (Deal.swap d).price = d.price := rfl

theorem involves_swap (i : Nat) (d : Deal) : involves i (Deal.swap d) ↔ involves i d := by
  show (d.askOrderID = i ∨ d.bidOrderID = i) ↔ (d.bidOrderID = i ∨ d.askOrderID = i)
  exact Or.comm

theorem dealsFor_map_swap (i : Nat) (ds : List Deal) :
    dealsFor i (ds.map Deal.swap) = dealsFor i ds := by
  induction ds with
  | nil => rfl
  | cons d ds ih =>
    rw [List.map_cons, dealsFor_cons, dealsFor_cons, ih, swap_bidOrderID,
      swap_askOrderID, swap_size]
    congr 1
    exact if_congr Or.comm rfl rfl

theorem sumSizes_map_swap (ds : List Deal) :
    sumSizes (ds.map Deal.swap) = sumSizes ds := by
  rw [sumSizes, sumSizes, List.map_map]
  rfl

/-! ## Unfolding equations of the pure consumption model -/

theorem consumeBid_lt (o : Order) (f : Nat → OrderBookEntry) {osz k : Nat}
    (rest : List Nat) (h : (f k).size < osz) :
    consumeBid o f osz (k :: rest) =
      ((if (f k).size = 0 then [] else
          [⟨o.id, (f k).id, (f k).trader, o.trader, o.symbol, o.price, (f k).size⟩]) ++
        (consumeBid o f (osz - (f k).size) rest).1,
       (consumeBid o f (osz - (f k).size) rest).2) := by
  rw [consumeBid, if_pos h]

theorem consumeBid_ge (o : Order) (f : Nat → OrderBookEntry) {osz k : Nat}
    (rest : List Nat) (h : ¬ (f k).size < osz) :
    consumeBid o f osz (k :: rest) =
      ((if osz = 0 then [] else
          [⟨o.id, (f k).id, (f k).trader, o.trader, o.symbol, o.price, osz⟩]),
       0,
       (if osz < (f k).size then upd f k ((f k).withSize ((f k).size - osz)) else f),
       (if osz < (f k).size then k :: rest else rest)) := by
  rw [consumeBid, if_neg h]

theorem consumeAsk_lt (o : Order) (f : Nat → OrderBookEntry) {osz k : Nat}
    (rest : List Nat) (h : (f k).size < osz) :
    consumeAsk o f osz (k :: rest) =
      ((if (f k).size = 0 then [] else
          [⟨(f k).id, o.id, o.trader, (f k).trader, o.symbol, o.price, (f k).size⟩]) ++
        (consumeAsk o f (osz - (f k).size) rest).1,
       (consumeAsk o f (osz - (f k).size) rest).2) := by
  rw [consumeAsk, if_pos h]

theorem consumeAsk_ge (o : Order) (f : Nat → OrderBookEntry) {osz k : Nat}
    (rest : List Nat) (h : ¬ (f k).size < osz) :
    consumeAsk o f osz (k :: rest) =
      ((if osz = 0 then [] else
          [⟨(f k).id, o.id, o.trader, (f k).trader, o.symbol, o.price, osz⟩]),
       0,
       (if osz < (f k).size then upd f k ((f k).withSize ((f k).size - osz)) else f),
       (if osz < (f k).size then k :: rest else rest)) := by
  rw [consumeAsk, if_neg h]

theorem consumeAsk_eq (o : Order) (f : Nat → OrderBookEntry) :
    ∀ (osz : Nat) (l : List Nat),
      consumeAsk o f osz l =
        ((consumeBid o f osz l).1.map Deal.swap, (consumeBid o f osz l).2) := by
  intro osz l
  induction l generalizing osz with
  | nil => rfl
  | cons k rest ih =>
    rw [consumeAsk, consumeBid]
    by_cases h : (f k).size < osz
    · rw [if_pos h, if_pos h, ih]
      by_cases hz : (f k).size = 0
      · rw [if_pos hz, if_pos hz]
        simp
      · rw [if_neg hz, if_neg hz]
        simp [Deal.swap]
    · rw [if_neg h, if_neg h]
      by_cases hz : osz = 0
      · rw [if_pos hz, if_pos hz]
        rfl
      · rw [if_neg hz, if_neg hz]
        simp [Deal.swap]

/-! ## Properties of the consumption model -/

theorem consumeBid_budget (o : Order) (f : Nat → OrderBookEntry) :
    ∀ (l : List Nat) (osz : Nat) (ds : List Deal) (rem : Nat)
      (f2 : Nat → OrderBookEntry) (lo : List Nat),
      consumeBid o f osz l = (ds, rem, f2, lo) → sumSizes ds + rem = osz := by
  intro l
  induction l with
  | nil =>
    intro osz ds rem f2 lo h
    rw [consumeBid] at h
    simp only [Prod.mk.injEq] at h
    obtain ⟨rfl, rfl, rfl, rfl⟩ := h
    simp [sumSizes]
  | cons k rest ih =>
    intro osz ds rem f2 lo h
    by_cases hlt : (f k).size < osz
    · rw [consumeBid_lt o f rest hlt] at h
      simp only [Prod.mk.injEq] at h
      obtain ⟨rfl, h2⟩ := h
      have h3 := ih (osz - (f k).size) (consumeBid o f (osz - (f k).size) rest).1
        rem f2 lo (by rw [← h2])
      rw [sumSizes_append]
      by_cases hz : (f k).size = 0
      · rw [if_pos hz]
        rw [sumSizes]
        simp only [List.map_nil, List.sum_nil]
        omega
      · rw [if_neg hz]
        rw [sumSizes]
        simp only [List.map_cons, List.map_nil, List.sum_cons, List.sum_nil]
        omega
    · rw [consumeBid_ge o f rest hlt] at h
      simp only [Prod.mk.injEq] at h
      obtain ⟨rfl, rfl, rfl, rfl⟩ := h
      by_cases hz : osz = 0
      · rw [if_pos hz, hz]
        simp [sumSizes]
      · rw [if_neg hz]
        rw [sumSizes]
        simp only [List.map_cons, List.map_nil, List.sum_cons, List.sum_nil]
        omega

theorem consumeBid_state (o : Order) (f : Nat → OrderBookEntry) :
    ∀ (l : List Nat) (osz : Nat) (ds : List Deal) (rem : Nat)
      (f2 : Nat → OrderBookEntry) (lo : List Nat),
      consumeBid o f osz l = (ds, rem, f2, lo) →
      (∀ k, (f2 k).id = (f k).id ∧ (f2 k).next = (f k).next ∧
            (f2 k).trader = (f k).trader ∧ (f2 k).size ≤ (f k).size) ∧
      (∀ k, k ∉ l → f2 k = f k) ∧
      (∃ pre, pre ++ lo = l) := by
  intro l
  induction l with
  | nil =>
    intro osz ds rem f2 lo h
    rw [consumeBid] at h
    simp only [Prod.mk.injEq] at h
    obtain ⟨rfl, rfl, rfl, rfl⟩ := h
    exact ⟨fun k => ⟨rfl, rfl, rfl, le_rfl⟩, fun k _ => rfl, ⟨[], rfl⟩⟩
  | cons k rest ih =>
    intro osz ds rem f2 lo h
    by_cases hlt : (f k).size < osz
    · rw [consumeBid_lt o f rest hlt] at h
      simp only [Prod.mk.injEq] at h
      obtain ⟨rfl, h2⟩ := h
      rcases ih (osz - (f k).size) (consumeBid o f (osz - (f k).size) rest).1
          rem f2 lo (by rw [← h2]) with ⟨ha, hb, pre, hpre⟩
      refine ⟨ha, fun j hj => hb j (fun hj2 => hj (List.mem_cons_of_mem k hj2)),
        ⟨k :: pre, by rw [List.cons_append, hpre]⟩⟩
    · rw [consumeBid_ge o f rest hlt] at h
      simp only [Prod.mk.injEq] at h
      obtain ⟨rfl, rfl, rfl, rfl⟩ := h
      by_cases hsm : osz < (f k).size
      · rw [if_pos hsm, if_pos hsm]
        refine ⟨?_, ?_, ⟨[], rfl⟩⟩
        · intro j
          by_cases hj : j = k
          · subst hj
            rw [upd_same]
            exact ⟨rfl, rfl, rfl, by simp⟩
          · rw [upd_ne _ _ _ hj]
            exact ⟨rfl, rfl, rfl, le_rfl⟩
        · intro j hj
          refine upd_ne _ _ _ (fun hjk => hj ?_)
          rw [hjk]
          exact List.mem_cons_self k rest
      · rw [if_neg hsm, if_neg hsm]
        exact ⟨fun j => ⟨rfl, rfl, rfl, le_rfl⟩, fun j _ => rfl, ⟨[k], rfl⟩⟩

theorem consumeBid_deals (o : Order) (f : Nat → OrderBookEntry) :
    ∀ (l : List Nat) (osz : Nat) (ds : List Deal) (rem : Nat)
      (f2 : Nat → OrderBookEntry) (lo : List Nat),
      consumeBid o f osz l = (ds, rem, f2, lo) →
      ∀ d ∈ ds, d.bidOrderID = o.id ∧ d.price = o.price ∧ d.size ≠ 0 ∧
        ∃ k ∈ l, d.askOrderID = (f k).id ∧ (f k).size ≠ 0 := by
  intro l
  induction l with
  | nil =>
    intro osz ds rem f2 lo h
    rw [consumeBid] at h
    simp only [Prod.mk.injEq] at h
    obtain ⟨rfl, rfl, rfl, rfl⟩ := h
    intro d hd
    exact absurd hd (List.not_mem_nil d)
  | cons k rest ih =>
    intro osz ds rem f2 lo h
    by_cases hlt : (f k).size < osz
    · rw [consumeBid_lt o f rest hlt] at h
      simp only [Prod.mk.injEq] at h
      obtain ⟨rfl, h2⟩ := h
      intro d hd
      rcases List.mem_append.mp hd with hd1 | hd2
      · by_cases hz : (f k).size = 0
        · rw [if_pos hz] at hd1
          exact absurd hd1 (List.not_mem_nil d)
        · rw [if_neg hz] at hd1
          rcases List.mem_singleton.mp hd1 with rfl
          exact ⟨rfl, rfl, hz, k, List.mem_cons_self k rest, rfl, hz⟩
      · rcases ih (osz - (f k).size) (consumeBid o f (osz - (f k).size) rest).1
            rem f2 lo (by rw [← h2]) d hd2 with ⟨hb, hp, hs, j, hj, hid, hnz⟩
        exact ⟨hb, hp, hs, j, List.mem_cons_of_mem k hj, hid, hnz⟩
    · rw [consumeBid_ge o f rest hlt] at h
      simp only [Prod.mk.injEq] at h
      obtain ⟨rfl, rfl, rfl, rfl⟩ := h
      intro d hd
      by_cases hz : osz = 0
      · rw [if_pos hz] at hd
        exact absurd hd (List.not_mem_nil d)
      · rw [if_neg hz] at hd
        rcases List.mem_singleton.mp hd with rfl
        exact ⟨rfl, rfl, hz, k, List.mem_cons_self k rest, rfl, by omega⟩

theorem consumeBid_balance (o : Order) (f : Nat → OrderBookEntry) :
    ∀ (l : List Nat) (osz : Nat) (ds : List Deal) (rem : Nat)
      (f2 : Nat → OrderBookEntry) (lo : List Nat),
      consumeBid o f osz l = (ds, rem, f2, lo) → l.Nodup →
      ∀ i, i ≠ o.id → dealsFor i ds + listSum f2 i lo = listSum f i l := by
  intro l
  induction l with
  | nil =>
    intro osz ds rem f2 lo h hnd i hio
    rw [consumeBid] at h
    simp only [Prod.mk.injEq] at h
    obtain ⟨rfl, rfl, rfl, rfl⟩ := h
    rfl
  | cons k rest ih =>
    intro osz ds rem f2 lo h hnd i hio
    have hknr : k ∉ rest := (List.nodup_cons.mp hnd).1
    have hndr : rest.Nodup := (List.nodup_cons.mp hnd).2
    have hdl : ∀ (b : Nat) (sz : Nat),
        dealsFor i [(⟨b, (f k).id, (f k).trader, o.trader, o.symbol, o.price, sz⟩ : Deal)] =
        if b = i ∨ (f k).id = i then sz else 0 := by
      intro b sz
      rw [dealsFor_cons]
      rw [show dealsFor i ([] : List Deal) = 0 from rfl]
      simp
    by_cases hlt : (f k).size < osz
    · rw [consumeBid_lt o f rest hlt] at h
      simp only [Prod.mk.injEq] at h
      obtain ⟨rfl, h2⟩ := h
      have h3 := ih (osz - (f k).size) (consumeBid o f (osz - (f k).size) rest).1
        rem f2 lo (by rw [← h2]) hndr i hio
      rw [dealsFor_append, listSum_cons]
      by_cases hz : (f k).size = 0
      · rw [if_pos hz, hz]
        rw [hz] at h3
        rw [show dealsFor i ([] : List Deal) = 0 from rfl]
        split
        · omega
        · omega
      · rw [if_neg hz, hdl o.id ((f k).size)]
        by_cases hid : (f k).id = i
        · rw [if_pos (Or.inr hid), if_pos hid]
          omega
        · rw [if_neg ?_, if_neg hid]
          · omega
          · rintro (hb | ha)
            · exact hio hb.symm
            · exact hid ha
    · rw [consumeBid_ge o f rest hlt] at h
      simp only [Prod.mk.injEq] at h
      obtain ⟨rfl, rfl, rfl, rfl⟩ := h
      by_cases hsm : osz < (f k).size
      · rw [if_pos hsm, if_pos hsm, listSum_cons, listSum_cons, upd_same,
          withSize_id, withSize_size]
        have hrest : listSum (upd f k ((f k).withSize ((f k).size - osz))) i rest =
            listSum f i rest := by
          apply listSum_congr
          intro j hj
          have hjk : j ≠ k := fun hjk => hknr (by rw [← hjk]; exact hj)
          rw [upd_ne _ _ _ hjk]
          exact ⟨rfl, rfl⟩
        rw [hrest]
        by_cases hz : osz = 0
        · rw [if_pos hz]
          rw [show dealsFor i ([] : List Deal) = 0 from rfl]
          split
          · omega
          · omega
        · rw [if_neg hz, hdl o.id osz]
          by_cases hid : (f k).id = i
          · rw [if_pos (Or.inr hid), if_pos hid, if_pos hid]
            omega
          · rw [if_neg ?_, if_neg hid, if_neg hid]
            · omega
            · rintro (hb | ha)
              · exact hio hb.symm
              · exact hid ha
      · rw [if_neg hsm, if_neg hsm, listSum_cons]
        have hsz : osz = (f k).size := by omega
        by_cases hz : osz = 0
        · rw [if_pos hz]
          rw [show dealsFor i ([] : List Deal) = 0 from rfl]
          rw [← hsz, hz]
          split <;> omega
        · rw [if_neg hz, hdl o.id osz]
          by_cases hid : (f k).id = i
          · rw [if_pos (Or.inr hid), if_pos hid, ← hsz]
          · rw [if_neg ?_, if_neg hid]
            rintro (hb | ha)
            · exact hio hb.symm
            · exact hid ha

/-- The remaining resting volume after a consumption never exceeds the
volume that was resting before it. -/
theorem consumeBid_lo_le (o : Order) (f : Nat → OrderBookEntry)
    {l : List Nat} {osz : Nat} {ds : List Deal} {rem : Nat}
    {f2 : Nat → OrderBookEntry} {lo : List Nat}
    (h : consumeBid o f osz l = (ds, rem, f2, lo)) (i : Nat) :
    listSum f2 i lo ≤ listSum f i l := by
  rcases consumeBid_state o f l osz ds rem f2 lo h with ⟨ha, -, pre, hpre⟩
  calc listSum f2 i lo ≤ listSum f i lo :=
        listSum_mono (fun j _ => ⟨(ha j).1, (ha j).2.2.2⟩)
    _ ≤ listSum f i l := by
        rw [← hpre, listSum_append]
        omega

/-- FIFO structure of one consumption: while the node `a` still has
positive size, no deal can touch the id of a node `b` that sits behind it
in the walk order; any deal prefix reaching `b`'s id contains `a`'s
full-size deal. -/
theorem consumeBid_c4 (o : Order) (f : Nat → OrderBookEntry) (a b : Nat)
    (hob : o.id ≠ (f b).id) (hab : (f a).id ≠ (f b).id) :
    ∀ (l1 l23 : List Nat) (osz : Nat) (ds : List Deal) (rem : Nat)
      (f2 : Nat → OrderBookEntry) (lo : List Nat),
      consumeBid o f osz (l1 ++ a :: l23) = (ds, rem, f2, lo) →
      (∀ k ∈ l1, (f k).id ≠ (f b).id) →
      ∀ n, (∃ d ∈ ds.take n, involves (f b).id d) →
        (f a).size = 0 ∨
        ∃ d ∈ ds.take n, involves (f a).id d ∧ d.size = (f a).size := by
  intro l1
  induction l1 with
  | nil =>
    intro l23 osz ds rem f2 lo h hl1 n hex
    rw [List.nil_append] at h
    by_cases hlt : (f a).size < osz
    · by_cases hz : (f a).size = 0
      · exact Or.inl hz
      · rw [consumeBid_lt o f l23 hlt, if_neg hz, List.singleton_append] at h
        simp only [Prod.mk.injEq] at h
        obtain ⟨rfl, h2⟩ := h
        cases n with
        | zero =>
          rcases hex with ⟨d, hd, hinv⟩
          rw [List.take_zero] at hd
          exact absurd hd (List.not_mem_nil d)
        | succ m =>
          right
          refine ⟨⟨o.id, (f a).id, (f a).trader, o.trader, o.symbol, o.price,
            (f a).size⟩, ?_, Or.inr rfl, rfl⟩
          rw [List.take_succ_cons]
          exact List.mem_cons_self _ _
    · rw [consumeBid_ge o f l23 hlt] at h
      simp only [Prod.mk.injEq] at h
      obtain ⟨rfl, rfl, rfl, rfl⟩ := h
      rcases hex with ⟨d, hd, hinv⟩
      exfalso
      have hdm := List.take_subset _ _ hd
      by_cases hz : osz = 0
      · rw [if_pos hz] at hdm
        exact absurd hdm (List.not_mem_nil d)
      · rw [if_neg hz] at hdm
        rcases List.mem_singleton.mp hdm with rfl
        rcases hinv with hbid | hask
        · exact hob hbid
        · exact hab hask
  | cons x l1 ih =>
    intro l23 osz ds rem f2 lo h hl1 n hex
    rw [List.cons_append] at h
    have hx : (f x).id ≠ (f b).id := hl1 x (List.mem_cons_self x l1)
    by_cases hlt : (f x).size < osz
    · rw [consumeBid_lt o f (l1 ++ a :: l23) hlt] at h
      simp only [Prod.mk.injEq] at h
      obtain ⟨rfl, h2⟩ := h
      rcases hex with ⟨d, hd, hinv⟩
      rw [List.take_append_eq_append_take] at hd
      rcases List.mem_append.mp hd with hd1 | hd2
      · exfalso
        have hd1b := List.take_subset _ _ hd1
        by_cases hz : (f x).size = 0
        · rw [if_pos hz] at hd1b
          exact absurd hd1b (List.not_mem_nil d)
        · rw [if_neg hz] at hd1b
          rcases List.mem_singleton.mp hd1b with rfl
          rcases hinv with hbid | hask
          · exact hob hbid
          · exact hx hask
      · have h9 := ih l23 (osz - (f x).size)
          (consumeBid o f (osz - (f x).size) (l1 ++ a :: l23)).1 rem f2 lo
          (by rw [← h2]) (fun k hk => hl1 k (List.mem_cons_of_mem x hk))
          (n - (if (f x).size = 0 then ([] : List Deal) else
            [⟨o.id, (f x).id, (f x).trader, o.trader, o.symbol, o.price,
              (f x).size⟩]).length)
          ⟨d, hd2, hinv⟩
        rcases h9 with h9 | ⟨d2, hd2b, hinv2, hsz2⟩
        · exact Or.inl h9
        · right
          refine ⟨d2, ?_, hinv2, hsz2⟩
          rw [List.take_append_eq_append_take]
          exact List.mem_append_right _ hd2b
    · rw [consumeBid_ge o f (l1 ++ a :: l23) hlt] at h
      simp only [Prod.mk.injEq] at h
      obtain ⟨rfl, rfl, rfl, rfl⟩ := h
      rcases hex with ⟨d, hd, hinv⟩
      exfalso
      have hdm := List.take_subset _ _ hd
      by_cases hz : osz = 0
      · rw [if_pos hz] at hdm
        exact absurd hdm (List.not_mem_nil d)
      · rw [if_neg hz] at hdm
        rcases List.mem_singleton.mp hdm with rfl
        rcases hinv with hbid | hask
        · exact hob hbid
        · exact hx hask

/-! ## Transfer of the consumption lemmas to the sell side -/

theorem consumeAsk_components {o : Order} {f : Nat → OrderBookEntry}
    {osz : Nat} {l : List Nat} {ds : List Deal} {rem : Nat}
    {f2 : Nat → OrderBookEntry} {lo : List Nat}
    (h : consumeAsk o f osz l = (ds, rem, f2, lo)) :
    consumeBid o f osz l = ((consumeBid o f osz l).1, rem, f2, lo) ∧
    ds = (consumeBid o f osz l).1.map Deal.swap := by
  rw [consumeAsk_eq] at h
  simp only [Prod.mk.injEq] at h
  obtain ⟨h1, h2⟩ := h
  exact ⟨by rw [← h2], h1.symm⟩

theorem consumeAsk_budget (o : Order) (f : Nat → OrderBookEntry)
    (l : List Nat) (osz : Nat) (ds : List Deal) (rem : Nat)
    (f2 : Nat → OrderBookEntry) (lo : List Nat)
    (h : consumeAsk o f osz l = (ds, rem, f2, lo)) : sumSizes ds + rem = osz := by
  rcases consumeAsk_components h with ⟨hB, rfl⟩
  rw [sumSizes_map_swap]
  exact consumeBid_budget o f l osz _ rem f2 lo hB

theorem consumeAsk_state (o : Order) (f : Nat → OrderBookEntry)
    (l : List Nat) (osz : Nat) (ds : List Deal) (rem : Nat)
    (f2 : Nat → OrderBookEntry) (lo : List Nat)
    (h : consumeAsk o f osz l = (ds, rem, f2, lo)) :
    (∀ k, (f2 k).id = (f k).id ∧ (f2 k).next = (f k).next ∧
          (f2 k).trader = (f k).trader ∧ (f2 k).size ≤ (f k).size) ∧
    (∀ k, k ∉ l → f2 k = f k) ∧
    (∃ pre, pre ++ lo = l) := by
  rcases consumeAsk_components h with ⟨hB, -⟩
  exact consumeBid_state o f l osz _ rem f2 lo hB

theorem consumeAsk_deals (o : Order) (f : Nat → OrderBookEntry)
    (l : List Nat) (osz : Nat) (ds : List Deal) (rem : Nat)
    (f2 : Nat → OrderBookEntry) (lo : List Nat)
    (h : consumeAsk o f osz l = (ds, rem, f2, lo)) :
    ∀ d ∈ ds, d.askOrderID = o.id ∧ d.price = o.price ∧ d.size ≠ 0 ∧
      ∃ k ∈ l, d.bidOrderID = (f k).id ∧ (f k).size ≠ 0 := by
  rcases consumeAsk_components h with ⟨hB, rfl⟩
  intro d hd
  rcases List.mem_map.mp hd with ⟨d0, hd0, rfl⟩
  rcases consumeBid_deals o f l osz _ rem f2 lo hB d0 hd0 with
    ⟨h1, h2, h3, k, hk, h4, h5⟩
  exact ⟨by rw [swap_askOrderID, h1], by rw [swap_price, h2],
    by rw [swap_size]; exact h3, k, hk, by rw [swap_bidOrderID, h4], h5⟩

theorem consumeAsk_balance (o : Order) (f : Nat → OrderBookEntry)
    (l : List Nat) (osz : Nat) (ds : List Deal) (rem : Nat)
    (f2 : Nat → OrderBookEntry) (lo : List Nat)
    (h : consumeAsk o f osz l = (ds, rem, f2, lo)) (hnd : l.Nodup)
    (i : Nat) (hio : i ≠ o.id) :
    dealsFor i ds + listSum f2 i lo = listSum f i l := by
  rcases consumeAsk_components h with ⟨hB, rfl⟩
  rw [dealsFor_map_swap]
  exact consumeBid_balance o f l osz _ rem f2 lo hB hnd i hio

theorem consumeAsk_lo_le (o : Order) (f : Nat → OrderBookEntry)
    {l : List Nat} {osz : Nat} {ds : List Deal} {rem : Nat}
    {f2 : Nat → OrderBookEntry} {lo : List Nat}
    (h : consumeAsk o f osz l = (ds, rem, f2, lo)) (i : Nat) :
    listSum f2 i lo ≤ listSum f i l := by
  rcases consumeAsk_components h with ⟨hB, -⟩
  exact consumeBid_lo_le o f hB i

theorem consumeAsk_c4 (o : Order) (f : Nat → OrderBookEntry) (a b : Nat)
    (hob : o.id ≠ (f b).id) (hab : (f a).id ≠ (f b).id)
    (l1 l23 : List Nat) (osz : Nat) (ds : List Deal) (rem : Nat)
    (f2 : Nat → OrderBookEntry) (lo : List Nat)
    (h : consumeAsk o f osz (l1 ++ a :: l23) = (ds, rem, f2, lo))
    (hl1 : ∀ k ∈ l1, (f k).id ≠ (f b).id) :
    ∀ n, (∃ d ∈ ds.take n, involves (f b).id d) →
      (f a).size = 0 ∨
      ∃ d ∈ ds.take n, involves (f a).id d ∧ d.size = (f a).size := by
  rcases consumeAsk_components h with ⟨hB, rfl⟩
  intro n hex
  rcases hex with ⟨d, hd, hinv⟩
  rw [← List.map_take] at hd
  rcases List.mem_map.mp hd with ⟨d0, hd0, rfl⟩
  have h9 := consumeBid_c4 o f a b hob hab l1 l23 osz _ rem f2 lo hB hl1 n
    ⟨d0, hd0, (involves_swap _ d0).mp hinv⟩
  rcases h9 with h9 | ⟨d2, hd2, hinv2, hsz2⟩
  · exact Or.inl h9
  · right
    refine ⟨Deal.swap d2, ?_, (involves_swap _ d2).mpr hinv2,
      by rw [swap_size]; exact hsz2⟩
    rw [← List.map_take]
    exact List.mem_map.mpr ⟨d2, hd2, rfl⟩

/-! ## More chain lemmas -/

theorem chain_congr_mem {f g : Nat → OrderBookEntry} :
    ∀ {c : Option Nat} {l : List Nat}, Chain f c l →
      (∀ j ∈ l, (g j).next = (f j).next) → Chain g c l := by
  intro c l
  induction l generalizing c with
  | nil =>
    intro h _
    cases h
    exact Chain.nil
  | cons x xs ih =>
    intro h hfg
    cases h with
    | cons ht =>
      refine Chain.cons ?_
      rw [hfg x (List.mem_cons_self x xs)]
      exact ih ht (fun j hj => hfg j (List.mem_cons_of_mem x hj))

/-- Appending a fresh node at the tail of a chain: writing `next := n` at
the chain's last node extends the reachable list by `[n]`, provided the
fresh node's own `next` is nil. -/
theorem chain_snoc {f : Nat → OrderBookEntry} {t n : Nat} (hfn : (f n).next = none) :
    ∀ {c : Option Nat} {l : List Nat}, Chain f c l → l.getLast? = some t → n ∉ l →
      Chain (upd f t ((f t).withNext (some n))) c (l ++ [n]) := by
  intro c l
  induction l generalizing c with
  | nil =>
    intro h hlast hn
    exact absurd hlast (by simp)
  | cons k rest ih =>
    intro h hlast hn
    cases h with
    | cons ht =>
      rw [List.cons_append]
      cases rest with
      | nil =>
        have hkt : k = t := by
          simp only [List.getLast?_singleton, Option.some.injEq] at hlast
          exact hlast
        subst hkt
        have hnk : n ≠ k := fun hnk => hn (by rw [hnk]; exact List.mem_cons_self k [])
        refine Chain.cons ?_
        rw [upd_same, withNext_next, List.nil_append]
        refine Chain.cons ?_
        rw [upd_ne _ _ _ hnk, hfn]
        exact Chain.nil
      | cons k2 rest2 =>
        have hlast2 : (k2 :: rest2).getLast? = some t := by
          rw [← hlast, List.getLast?_cons_cons]
        have hnd := chain_nodup (Chain.cons ht : Chain f (some k) (k :: k2 :: rest2))
        have hkmem : t ∈ k2 :: rest2 := by
          rcases List.mem_getLast?_eq_getLast (Option.mem_def.mpr hlast2) with ⟨hne, heq⟩
          rw [heq]
          exact List.getLast_mem hne
        have hkt : k ≠ t := fun hkt =>
          (List.nodup_cons.mp hnd).1 (by rw [hkt]; exact hkmem)
        refine Chain.cons ?_
        rw [upd_ne _ _ _ hkt]
        exact ih ht hlast2 (fun hmem => hn (List.mem_cons_of_mem k hmem))

/-! ## Refinement of the scans by the consumption model -/

/-- Master refinement of the buy-side scan: a successful `bidWalk`
starting at `lvl = askMin` behaves exactly like `consumeBid` on the
flattened node list of the scanned price range, and the lemma records
everything the scan does to the engine state. -/
theorem bidWalk_consume (o : Order) :
    ∀ (fuel : Nat) (e : Engine) (lvl : Nat) (cur : Option Nat) (osz : Nat)
      (res : ScanRes) (lcur : List Nat) (L : Nat → List Nat),
      bidWalk o fuel e lvl cur osz = .ok res →
      lvl = e.askMin → lvl ≤ o.price → o.price ≤ maxPrice →
      Chain e.bookEntries cur lcur →
      (∀ q, lvl < q → Chain e.bookEntries (e.pricePoints q).listHead (L q)) →
      ((∃ e1 rem ds,
          res = .rest e1 rem ∧
          consumeBid o e.bookEntries osz (lcur ++ flat L (lvl + 1) o.price) =
            (ds, rem, e.bookEntries, []) ∧
          e1.deals = e.deals ++ ds ∧
          e1.bookEntries = e.bookEntries ∧
          e1.askMin = o.price + 1 ∧ e1.bidMax = e.bidMax ∧
          e1.curOrderID = e.curOrderID ∧
          (∀ q, ¬ (lvl ≤ q ∧ q ≤ o.price) → e1.pricePoints q = e.pricePoints q) ∧
          (∀ q, lvl ≤ q → q ≤ o.price → (e1.pricePoints q).listHead = none ∧
            (e1.pricePoints q).listTail = (e.pricePoints q).listTail)) ∨
       (∃ e1 oid m ds f2 lm,
          res = .filled e1 oid ∧ oid = inc64 e.curOrderID ∧
          lvl ≤ m ∧ m ≤ o.price ∧
          consumeBid o e.bookEntries osz (lcur ++ flat L (lvl + 1) o.price) =
            (ds, 0, f2, lm ++ flat L (m + 1) o.price) ∧
          e1.deals = e.deals ++ ds ∧ e1.bookEntries = f2 ∧
          e1.askMin = m ∧ e1.bidMax = e.bidMax ∧
          e1.curOrderID = inc64 e.curOrderID ∧
          (∀ q, ¬ (lvl ≤ q ∧ q ≤ m) → e1.pricePoints q = e.pricePoints q) ∧
          (∀ q, lvl ≤ q → q < m → (e1.pricePoints q).listHead = none ∧
            (e1.pricePoints q).listTail = (e.pricePoints q).listTail) ∧
          (e1.pricePoints m).listHead = lm.head? ∧
          (e1.pricePoints m).listTail = (e.pricePoints m).listTail ∧
          (∃ pre, pre ++ lm = (if m = lvl then lcur else L m)))) := by
  intro fuel
  induction fuel with
  | zero =>
    intro e lvl cur osz res lcur L h
    exact absurd h (by simp [bidWalk])
  | succ n ih =>
    intro e lvl cur osz res lcur L h hlvl hlp hpm hcur hL
    cases cur with
    | some k =>
      rcases chain_some hcur with ⟨lrest, rfl, hrest⟩
      rw [bidWalk] at h
      split at h
      · rename_i hlt
        split at h
        · exact absurd h (by simp)
        · rename_i e1 hex
          rcases executeTrade_ok_cases hex with ⟨hs, he1⟩ | ⟨hs, hcap, he1⟩
          · rw [he1] at h
            have h9 := ih e lvl ((e.bookEntries k).next) (osz - (e.bookEntries k).size)
              res lrest L h hlvl hlp hpm hrest hL
            rcases h9 with
              ⟨e1, rem, ds, hres, heq, hdeals, hbook, haskm, hbidm, hcur2, hppA, hppB⟩ |
              ⟨e1, oid2, m, ds, f2, lm, hres, hoid, hm1, hm2, heq, hdeals, hbook, haskm,
                hbidm, hcur2, hppA, hppB, hheadm, htailm, pre, hpre⟩
            · refine Or.inl ⟨e1, rem, ds, hres, ?_, hdeals, hbook, haskm,
                hbidm, hcur2, hppA, hppB⟩
              rw [List.cons_append,
                consumeBid_lt o e.bookEntries (lrest ++ flat L (lvl + 1) o.price) hlt,
                if_pos hs, heq]
              rfl
            · refine Or.inr ⟨e1, oid2, m, ds, f2, lm, hres, hoid, hm1, hm2, ?_,
                hdeals, hbook, haskm, hbidm, hcur2, hppA, hppB,
                hheadm, htailm, ?_⟩
              · rw [List.cons_append,
                  consumeBid_lt o e.bookEntries (lrest ++ flat L (lvl + 1) o.price) hlt,
                  if_pos hs, heq]
                rfl
              · by_cases hm : m = lvl
                · rw [if_pos hm] at hpre ⊢
                  exact ⟨k :: pre, by rw [List.cons_append, hpre]⟩
                · rw [if_neg hm] at hpre ⊢
                  exact ⟨pre, hpre⟩
          · rw [he1] at h
            have h9 := ih { e with deals := e.deals ++
                [⟨o.id, (e.bookEntries k).id, (e.bookEntries k).trader, o.trader,
                  o.symbol, o.price, (e.bookEntries k).size⟩] }
              lvl ((e.bookEntries k).next) (osz - (e.bookEntries k).size)
              res lrest L h (by exact hlvl) hlp hpm (by exact hrest) (by exact hL)
            dsimp only at h9
            rcases h9 with
              ⟨e1, rem, ds, hres, heq, hdeals, hbook, haskm, hbidm, hcur2, hppA, hppB⟩ |
              ⟨e1, oid2, m, ds, f2, lm, hres, hoid, hm1, hm2, heq, hdeals, hbook, haskm,
                hbidm, hcur2, hppA, hppB, hheadm, htailm, pre, hpre⟩
            · refine Or.inl ⟨e1, rem,
                ⟨o.id, (e.bookEntries k).id, (e.bookEntries k).trader, o.trader,
                  o.symbol, o.price, (e.bookEntries k).size⟩ :: ds, hres, ?_,
                by rw [hdeals, List.append_assoc]; rfl, hbook, haskm,
                hbidm, hcur2, hppA, hppB⟩
              rw [List.cons_append,
                consumeBid_lt o e.bookEntries (lrest ++ flat L (lvl + 1) o.price) hlt,
                if_neg hs, heq]
              rfl
            · refine Or.inr ⟨e1, oid2, m,
                ⟨o.id, (e.bookEntries k).id, (e.bookEntries k).trader, o.trader,
                  o.symbol, o.price, (e.bookEntries k).size⟩ :: ds, f2, lm, hres, hoid,
                hm1, hm2, ?_, by rw [hdeals, List.append_assoc]; rfl, hbook, haskm,
                hbidm, hcur2, hppA, hppB, hheadm, htailm, ?_⟩
              · rw [List.cons_append,
                  consumeBid_lt o e.bookEntries (lrest ++ flat L (lvl + 1) o.price) hlt,
                  if_neg hs, heq]
                rfl
              · by_cases hm : m = lvl
                · rw [if_pos hm] at hpre ⊢
                  exact ⟨k :: pre, by rw [List.cons_append, hpre]⟩
                · rw [if_neg hm] at hpre ⊢
                  exact ⟨pre, hpre⟩
      · rename_i hge
        split at h
        · exact absurd h (by simp)
        · rename_i e1 hex
          rcases executeTrade_ok_cases hex with ⟨hs, he1⟩ | ⟨hs, hcap, he1⟩
          · rw [he1] at h
            split at h
            · rename_i hsm
              cases (Except.ok.injEq _ _).mp h
              refine Or.inr ⟨_, _, lvl, [],
                upd e.bookEntries k
                  ((e.bookEntries k).withSize ((e.bookEntries k).size - osz)),
                k :: lrest, rfl, rfl, le_rfl, hlp, ?_, by simp, by simp, ?_, by simp,
                by simp, ?_, ?_, ?_, ?_, ?_⟩
              · rw [List.cons_append,
                  consumeBid_ge o e.bookEntries (lrest ++ flat L (lvl + 1) o.price) hge,
                  if_pos hs, if_pos hsm, if_pos hsm]
              · simp only [bump_askMin, setHeadAt_askMin, setBE_askMin]
                exact hlvl.symm
              · intro q hq
                simp only [bump_pricePoints, setHeadAt_pricePoints, setBE_pricePoints]
                exact upd_ne _ _ _ (by omega)
              · intro q h1 h2
                exact absurd h2 (by omega)
              · simp only [bump_pricePoints, setHeadAt_pricePoints, setBE_pricePoints,
                  upd_same, withHead_listHead]
                rfl
              · simp only [bump_pricePoints, setHeadAt_pricePoints, setBE_pricePoints,
                  upd_same, withHead_listTail]
              · rw [if_pos rfl]
                exact ⟨[], rfl⟩
            · rename_i hsm
              cases (Except.ok.injEq _ _).mp h
              refine Or.inr ⟨_, _, lvl, [], e.bookEntries, lrest, rfl, rfl, le_rfl, hlp,
                ?_, by simp, by simp, ?_, by simp, by simp, ?_, ?_, ?_, ?_, ?_⟩
              · rw [List.cons_append,
                  consumeBid_ge o e.bookEntries (lrest ++ flat L (lvl + 1) o.price) hge,
                  if_pos hs, if_neg hsm, if_neg hsm]
              · simp only [bump_askMin, setHeadAt_askMin]
                exact hlvl.symm
              · intro q hq
                simp only [bump_pricePoints, setHeadAt_pricePoints]
                exact upd_ne _ _ _ (by omega)
              · intro q h1 h2
                exact absurd h2 (by omega)
              · simp only [bump_pricePoints, setHeadAt_pricePoints, upd_same,
                  withHead_listHead]
                exact chain_head hrest
              · simp only [bump_pricePoints, setHeadAt_pricePoints, upd_same,
                  withHead_listTail]
              · rw [if_pos rfl]
                exact ⟨[k], rfl⟩
          · rw [he1] at h
            split at h
            · rename_i hsm
              cases (Except.ok.injEq _ _).mp h
              refine Or.inr ⟨_, _, lvl,
                [⟨o.id, (e.bookEntries k).id, (e.bookEntries k).trader, o.trader,
                  o.symbol, o.price, osz⟩],
                upd e.bookEntries k
                  ((e.bookEntries k).withSize ((e.bookEntries k).size - osz)),
                k :: lrest, rfl, rfl, le_rfl, hlp, ?_, by simp, by simp, ?_, by simp,
                by simp, ?_, ?_, ?_, ?_, ?_⟩
              · rw [List.cons_append,
                  consumeBid_ge o e.bookEntries (lrest ++ flat L (lvl + 1) o.price) hge,
                  if_neg hs, if_pos hsm, if_pos hsm]
              · simp only [bump_askMin, setHeadAt_askMin, setBE_askMin]
                exact hlvl.symm
              · intro q hq
                simp only [bump_pricePoints, setHeadAt_pricePoints, setBE_pricePoints]
                exact upd_ne _ _ _ (by omega)
              · intro q h1 h2
                exact absurd h2 (by omega)
              · simp only [bump_pricePoints, setHeadAt_pricePoints, setBE_pricePoints,
                  upd_same, withHead_listHead]
                rfl
              · simp only [bump_pricePoints, setHeadAt_pricePoints, setBE_pricePoints,
                  upd_same, withHead_listTail]
              · rw [if_pos rfl]
                exact ⟨[], rfl⟩
            · rename_i hsm
              cases (Except.ok.injEq _ _).mp h
              refine Or.inr ⟨_, _, lvl,
                [⟨o.id, (e.bookEntries k).id, (e.bookEntries k).trader, o.trader,
                  o.symbol, o.price, osz⟩], e.bookEntries, lrest, rfl, rfl, le_rfl, hlp,
                ?_, by simp, by simp, ?_, by simp, by simp, ?_, ?_, ?_, ?_, ?_⟩
              · rw [List.cons_append,
                  consumeBid_ge o e.bookEntries (lrest ++ flat L (lvl + 1) o.price) hge,
                  if_neg hs, if_neg hsm, if_neg hsm]
              · simp only [bump_askMin, setHeadAt_askMin]
                exact hlvl.symm
              · intro q hq
                simp only [bump_pricePoints, setHeadAt_pricePoints]
                exact upd_ne _ _ _ (by omega)
              · intro q h1 h2
                exact absurd h2 (by omega)
              · simp only [bump_pricePoints, setHeadAt_pricePoints, upd_same,
                  withHead_listHead]
                exact chain_head hrest
              · simp only [bump_pricePoints, setHeadAt_pricePoints, upd_same,
                  withHead_listTail]
              · rw [if_pos rfl]
                exact ⟨[k], rfl⟩
    | none =>
      have hlc := chain_none hcur
      subst hlc
      rw [bidWalk] at h
      split at h
      · rename_i hg
        have hg2 : inc64 e.askMin ≤ maxPrice := by simpa using hg
        have hinc : inc64 e.askMin = e.askMin + 1 :=
          inc64_small (by have := maxPrice_lt; omega)
        rw [← hlvl] at hg2 hinc
        split at h
        · rename_i hbrk
          rw [← hlvl, hinc] at hbrk
          have hpl : o.price = lvl := by omega
          cases (Except.ok.injEq _ _).mp h
          refine Or.inl ⟨_, osz, [], rfl, ?_, by simp, by simp, ?_, by simp, by simp,
            ?_, ?_⟩
          · rw [List.nil_append, flat_nil L (by omega), consumeBid]
          · simp only [withAskMin_askMin]
            rw [← hlvl, hinc, hpl]
          · intro q hq
            simp only [withAskMin_pricePoints, setHeadAt_pricePoints]
            exact upd_ne _ _ _ (by omega)
          · intro q h1 h2
            have hq : q = lvl := by omega
            rw [hq]
            simp
        · rename_i hbrk
          rw [← hlvl, hinc] at hbrk h
          have hlp2 : lvl + 1 ≤ o.price := by omega
          have hcur2 : Chain (withAskMin (setHeadAt e lvl none) (lvl + 1)).bookEntries
              (((withAskMin (setHeadAt e lvl none) (lvl + 1)).pricePoints
                (lvl + 1)).listHead) (L (lvl + 1)) := by
            simp only [withAskMin_bookEntries, setHeadAt_bookEntries,
              withAskMin_pricePoints, setHeadAt_pricePoints]
            rw [upd_ne _ _ _ (by omega : lvl + 1 ≠ lvl)]
            exact hL (lvl + 1) (by omega)
          have hL2 : ∀ q, lvl + 1 < q →
              Chain (withAskMin (setHeadAt e lvl none) (lvl + 1)).bookEntries
                (((withAskMin (setHeadAt e lvl none) (lvl + 1)).pricePoints
                  q).listHead) (L q) := by
            intro q hq
            simp only [withAskMin_bookEntries, setHeadAt_bookEntries,
              withAskMin_pricePoints, setHeadAt_pricePoints]
            rw [upd_ne _ _ _ (by omega : q ≠ lvl)]
            exact hL q (by omega)
          have h9 := ih (withAskMin (setHeadAt e lvl none) (lvl + 1)) (lvl + 1)
            (((withAskMin (setHeadAt e lvl none) (lvl + 1)).pricePoints
              (lvl + 1)).listHead) osz res (L (lvl + 1)) L h (by simp) hlp2 hpm
            hcur2 hL2
          simp only [withAskMin_bookEntries, setHeadAt_bookEntries, withAskMin_deals,
            setHeadAt_deals, withAskMin_bidMax, setHeadAt_bidMax,
            withAskMin_curOrderID, setHeadAt_curOrderID] at h9
          rcases h9 with
            ⟨e1, rem, ds, hres, heq, hdeals, hbook, haskm, hbidm, hcur2b, hppA, hppB⟩ |
            ⟨e1, oid2, m, ds, f2, lm, hres, hoid, hm1, hm2, heq, hdeals, hbook, haskm,
              hbidm, hcur2b, hppA, hppB, hheadm, htailm, pre, hpre⟩
          · refine Or.inl ⟨e1, rem, ds, hres, ?_, hdeals, hbook, haskm, hbidm, hcur2b,
              ?_, ?_⟩
            · rw [List.nil_append, flat_cons L hlp2]
              exact heq
            · intro q hq
              rw [hppA q (by omega)]
              simp only [withAskMin_pricePoints, setHeadAt_pricePoints]
              exact upd_ne _ _ _ (by omega)
            · intro q h1 h2
              by_cases hq : q = lvl
              · rw [hppA q (by omega), hq]
                simp
              · rcases hppB q (by omega) h2 with ⟨hh, ht⟩
                refine ⟨hh, ?_⟩
                rw [ht]
                simp only [withAskMin_pricePoints, setHeadAt_pricePoints]
                rw [upd_ne _ _ _ hq]
          · refine Or.inr ⟨e1, oid2, m, ds, f2, lm, hres, hoid, by omega, hm2, ?_,
              hdeals, hbook, haskm, hbidm, hcur2b, ?_, ?_, hheadm, ?_, ?_⟩
            · rw [List.nil_append, flat_cons L hlp2]
              exact heq
            · intro q hq
              rw [hppA q (by omega)]
              simp only [withAskMin_pricePoints, setHeadAt_pricePoints]
              exact upd_ne _ _ _ (by omega)
            · intro q h1 h2
              by_cases hq : q = lvl
              · rw [hppA q (by omega), hq]
                simp
              · rcases hppB q (by omega) h2 with ⟨hh, ht⟩
                refine ⟨hh, ?_⟩
                rw [ht]
                simp only [withAskMin_pricePoints, setHeadAt_pricePoints]
                rw [upd_ne _ _ _ hq]
            · rw [htailm]
              simp only [withAskMin_pricePoints, setHeadAt_pricePoints]
              rw [upd_ne _ _ _ (by omega : m ≠ lvl)]
            · rw [if_neg (by omega : ¬ m = lvl)]
              by_cases hm : m = lvl + 1
              · rw [if_pos hm] at hpre
                subst hm
                exact ⟨pre, hpre⟩
              · rw [if_neg hm] at hpre
                exact ⟨pre, hpre⟩
      · exact absurd h (by simp)


/-- Master refinement of the sell-side scan, mirroring `bidWalk_consume`
with `bidMax` descending and the flattened lists in descending level
order. -/
theorem askWalk_consume (o : Order) :
    ∀ (fuel : Nat) (e : Engine) (lvl : Nat) (cur : Option Nat) (osz : Nat)
      (res : ScanRes) (lcur : List Nat) (L : Nat → List Nat),
      askWalk o fuel e lvl cur osz = .ok res →
      lvl = e.bidMax → o.price ≤ lvl → lvl ≤ maxPrice → 1 ≤ o.price →
      Chain e.bookEntries cur lcur →
      (∀ q, q < lvl → Chain e.bookEntries (e.pricePoints q).listHead (L q)) →
      ((∃ e1 rem ds,
          res = .rest e1 rem ∧
          consumeAsk o e.bookEntries osz (lcur ++ flatDown L (lvl - 1) o.price) =
            (ds, rem, e.bookEntries, []) ∧
          e1.deals = e.deals ++ ds ∧
          e1.bookEntries = e.bookEntries ∧
          e1.bidMax = o.price - 1 ∧ e1.askMin = e.askMin ∧
          e1.curOrderID = e.curOrderID ∧
          (∀ q, ¬ (o.price ≤ q ∧ q ≤ lvl) → e1.pricePoints q = e.pricePoints q) ∧
          (∀ q, o.price ≤ q → q ≤ lvl → (e1.pricePoints q).listHead = none ∧
            (e1.pricePoints q).listTail = (e.pricePoints q).listTail)) ∨
       (∃ e1 oid m ds f2 lm,
          res = .filled e1 oid ∧ oid = inc64 e.curOrderID ∧
          o.price ≤ m ∧ m ≤ lvl ∧
          consumeAsk o e.bookEntries osz (lcur ++ flatDown L (lvl - 1) o.price) =
            (ds, 0, f2, lm ++ flatDown L (m - 1) o.price) ∧
          e1.deals = e.deals ++ ds ∧ e1.bookEntries = f2 ∧
          e1.bidMax = m ∧ e1.askMin = e.askMin ∧
          e1.curOrderID = inc64 e.curOrderID ∧
          (∀ q, ¬ (m ≤ q ∧ q ≤ lvl) → e1.pricePoints q = e.pricePoints q) ∧
          (∀ q, m < q → q ≤ lvl → (e1.pricePoints q).listHead = none ∧
            (e1.pricePoints q).listTail = (e.pricePoints q).listTail) ∧
          (e1.pricePoints m).listHead = lm.head? ∧
          (e1.pricePoints m).listTail = (e.pricePoints m).listTail ∧
          (∃ pre, pre ++ lm = (if m = lvl then lcur else L m)))) := by
  intro fuel
  induction fuel with
  | zero =>
    intro e lvl cur osz res lcur L h
    exact absurd h (by simp [askWalk])
  | succ n ih =>
    intro e lvl cur osz res lcur L h hlvl hlp hpm h1p hcur hL
    cases cur with
    | some k =>
      rcases chain_some hcur with ⟨lrest, rfl, hrest⟩
      rw [askWalk] at h
      split at h
      · rename_i hlt
        split at h
        · exact absurd h (by simp)
        · rename_i e1 hex
          rcases executeTrade_ok_cases hex with ⟨hs, he1⟩ | ⟨hs, hcap, he1⟩
          · rw [he1] at h
            have h9 := ih e lvl ((e.bookEntries k).next) (osz - (e.bookEntries k).size)
              res lrest L h hlvl hlp hpm h1p hrest hL
            rcases h9 with
              ⟨e1, rem, ds, hres, heq, hdeals, hbook, hbidm, haskm, hcur2, hppA, hppB⟩ |
              ⟨e1, oid2, m, ds, f2, lm, hres, hoid, hm1, hm2, heq, hdeals, hbook, hbidm,
                haskm, hcur2, hppA, hppB, hheadm, htailm, pre, hpre⟩
            · refine Or.inl ⟨e1, rem, ds, hres, ?_, hdeals, hbook, hbidm,
                haskm, hcur2, hppA, hppB⟩
              rw [List.cons_append,
                consumeAsk_lt o e.bookEntries (lrest ++ flatDown L (lvl - 1) o.price) hlt,
                if_pos hs, heq]
              rfl
            · refine Or.inr ⟨e1, oid2, m, ds, f2, lm, hres, hoid, hm1, hm2, ?_,
                hdeals, hbook, hbidm, haskm, hcur2, hppA, hppB,
                hheadm, htailm, ?_⟩
              · rw [List.cons_append,
                  consumeAsk_lt o e.bookEntries (lrest ++ flatDown L (lvl - 1) o.price) hlt,
                  if_pos hs, heq]
                rfl
              · by_cases hm : m = lvl
                · rw [if_pos hm] at hpre ⊢
                  exact ⟨k :: pre, by rw [List.cons_append, hpre]⟩
                · rw [if_neg hm] at hpre ⊢
                  exact ⟨pre, hpre⟩
          · rw [he1] at h
            have h9 := ih { e with deals := e.deals ++
                [⟨(e.bookEntries k).id, o.id, o.trader, (e.bookEntries k).trader,
                  o.symbol, o.price, (e.bookEntries k).size⟩] }
              lvl ((e.bookEntries k).next) (osz - (e.bookEntries k).size)
              res lrest L h (by exact hlvl) hlp hpm h1p (by exact hrest) (by exact hL)
            dsimp only at h9
            rcases h9 with
              ⟨e1, rem, ds, hres, heq, hdeals, hbook, hbidm, haskm, hcur2, hppA, hppB⟩ |
              ⟨e1, oid2, m, ds, f2, lm, hres, hoid, hm1, hm2, heq, hdeals, hbook, hbidm,
                haskm, hcur2, hppA, hppB, hheadm, htailm, pre, hpre⟩
            · refine Or.inl ⟨e1, rem,
                ⟨(e.bookEntries k).id, o.id, o.trader, (e.bookEntries k).trader,
                  o.symbol, o.price, (e.bookEntries k).size⟩ :: ds, hres, ?_,
                by rw [hdeals, List.append_assoc]; rfl, hbook, hbidm,
                haskm, hcur2, hppA, hppB⟩
              rw [List.cons_append,
                consumeAsk_lt o e.bookEntries (lrest ++ flatDown L (lvl - 1) o.price) hlt,
                if_neg hs, heq]
              rfl
            · refine Or.inr ⟨e1, oid2, m,
                ⟨(e.bookEntries k).id, o.id, o.trader, (e.bookEntries k).trader,
                  o.symbol, o.price, (e.bookEntries k).size⟩ :: ds, f2, lm, hres, hoid,
                hm1, hm2, ?_, by rw [hdeals, List.append_assoc]; rfl, hbook, hbidm,
                haskm, hcur2, hppA, hppB, hheadm, htailm, ?_⟩
              · rw [List.cons_append,
                  consumeAsk_lt o e.bookEntries (lrest ++ flatDown L (lvl - 1) o.price) hlt,
                  if_neg hs, heq]
                rfl
              · by_cases hm : m = lvl
                · rw [if_pos hm] at hpre ⊢
                  exact ⟨k :: pre, by rw [List.cons_append, hpre]⟩
                · rw [if_neg hm] at hpre ⊢
                  exact ⟨pre, hpre⟩
      · rename_i hge
        split at h
        · exact absurd h (by simp)
        · rename_i e1 hex
          rcases executeTrade_ok_cases hex with ⟨hs, he1⟩ | ⟨hs, hcap, he1⟩
          · rw [he1] at h
            split at h
            · rename_i hsm
              cases (Except.ok.injEq _ _).mp h
              refine Or.inr ⟨_, _, lvl, [],
                upd e.bookEntries k
                  ((e.bookEntries k).withSize ((e.bookEntries k).size - osz)),
                k :: lrest, rfl, rfl, hlp, le_rfl, ?_, by simp, by simp, ?_, by simp,
                by simp, ?_, ?_, ?_, ?_, ?_⟩
              · rw [List.cons_append,
                  consumeAsk_ge o e.bookEntries (lrest ++ flatDown L (lvl - 1) o.price) hge,
                  if_pos hs, if_pos hsm, if_pos hsm]
              · simp only [bump_bidMax, setHeadAt_bidMax, setBE_bidMax]
                exact hlvl.symm
              · intro q hq
                simp only [bump_pricePoints, setHeadAt_pricePoints, setBE_pricePoints]
                exact upd_ne _ _ _ (by omega)
              · intro q h1 h2
                exact absurd h1 (by omega)
              · simp only [bump_pricePoints, setHeadAt_pricePoints, setBE_pricePoints,
                  upd_same, withHead_listHead]
                rfl
              · simp only [bump_pricePoints, setHeadAt_pricePoints, setBE_pricePoints,
                  upd_same, withHead_listTail]
              · rw [if_pos rfl]
                exact ⟨[], rfl⟩
            · rename_i hsm
              cases (Except.ok.injEq _ _).mp h
              refine Or.inr ⟨_, _, lvl, [], e.bookEntries, lrest, rfl, rfl, hlp, le_rfl,
                ?_, by simp, by simp, ?_, by simp, by simp, ?_, ?_, ?_, ?_, ?_⟩
              · rw [List.cons_append,
                  consumeAsk_ge o e.bookEntries (lrest ++ flatDown L (lvl - 1) o.price) hge,
                  if_pos hs, if_neg hsm, if_neg hsm]
              · simp only [bump_bidMax, setHeadAt_bidMax]
                exact hlvl.symm
              · intro q hq
                simp only [bump_pricePoints, setHeadAt_pricePoints]
                exact upd_ne _ _ _ (by omega)
              · intro q h1 h2
                exact absurd h1 (by omega)
              · simp only [bump_pricePoints, setHeadAt_pricePoints, upd_same,
                  withHead_listHead]
                exact chain_head hrest
              · simp only [bump_pricePoints, setHeadAt_pricePoints, upd_same,
                  withHead_listTail]
              · rw [if_pos rfl]
                exact ⟨[k], rfl⟩
          · rw [he1] at h
            split at h
            · rename_i hsm
              cases (Except.ok.injEq _ _).mp h
              refine Or.inr ⟨_, _, lvl,
                [⟨(e.bookEntries k).id, o.id, o.trader, (e.bookEntries k).trader,
                  o.symbol, o.price, osz⟩],
                upd e.bookEntries k
                  ((e.bookEntries k).withSize ((e.bookEntries k).size - osz)),
                k :: lrest, rfl, rfl, hlp, le_rfl, ?_, by simp, by simp, ?_, by simp,
                by simp, ?_, ?_, ?_, ?_, ?_⟩
              · rw [List.cons_append,
                  consumeAsk_ge o e.bookEntries (lrest ++ flatDown L (lvl - 1) o.price) hge,
                  if_neg hs, if_pos hsm, if_pos hsm]
              · simp only [bump_bidMax, setHeadAt_bidMax, setBE_bidMax]
                exact hlvl.symm
              · intro q hq
                simp only [bump_pricePoints, setHeadAt_pricePoints, setBE_pricePoints]
                exact upd_ne _ _ _ (by omega)
              · intro q h1 h2
                exact absurd h1 (by omega)
              · simp only [bump_pricePoints, setHeadAt_pricePoints, setBE_pricePoints,
                  upd_same, withHead_listHead]
                rfl
              · simp only [bump_pricePoints, setHeadAt_pricePoints, setBE_pricePoints,
                  upd_same, withHead_listTail]
              · rw [if_pos rfl]
                exact ⟨[], rfl⟩
            · rename_i hsm
              cases (Except.ok.injEq _ _).mp h
              refine Or.inr ⟨_, _, lvl,
                [⟨(e.bookEntries k).id, o.id, o.trader, (e.bookEntries k).trader,
                  o.symbol, o.price, osz⟩], e.bookEntries, lrest, rfl, rfl, hlp, le_rfl,
                ?_, by simp, by simp, ?_, by simp, by simp, ?_, ?_, ?_, ?_, ?_⟩
              · rw [List.cons_append,
                  consumeAsk_ge o e.bookEntries (lrest ++ flatDown L (lvl - 1) o.price) hge,
                  if_neg hs, if_neg hsm, if_neg hsm]
              · simp only [bump_bidMax, setHeadAt_bidMax]
                exact hlvl.symm
              · intro q hq
                simp only [bump_pricePoints, setHeadAt_pricePoints]
                exact upd_ne _ _ _ (by omega)
              · intro q h1 h2
                exact absurd h1 (by omega)
              · simp only [bump_pricePoints, setHeadAt_pricePoints, upd_same,
                  withHead_listHead]
                exact chain_head hrest
              · simp only [bump_pricePoints, setHeadAt_pricePoints, upd_same,
                  withHead_listTail]
              · rw [if_pos rfl]
                exact ⟨[k], rfl⟩
    | none =>
      have hlc := chain_none hcur
      subst hlc
      rw [askWalk] at h
      split at h
      · rename_i hg
        have hdec : dec64 e.bidMax = e.bidMax - 1 :=
          dec64_small (by omega) (by have := maxPrice_lt; omega)
        rw [← hlvl] at hdec
        split at h
        · rename_i hbrk
          rw [← hlvl, hdec] at hbrk
          have hpl : o.price = lvl := by omega
          cases (Except.ok.injEq _ _).mp h
          refine Or.inl ⟨_, osz, [], rfl, ?_, by simp, by simp, ?_, by simp, by simp,
            ?_, ?_⟩
          · rw [List.nil_append, flatDown_nil L (by omega), consumeAsk]
          · simp only [withBidMax_bidMax]
            rw [← hlvl, hdec, hpl]
          · intro q hq
            simp only [withBidMax_pricePoints, setHeadAt_pricePoints]
            exact upd_ne _ _ _ (by omega)
          · intro q h1 h2
            have hq : q = lvl := by omega
            rw [hq]
            simp
        · rename_i hbrk
          rw [← hlvl, hdec] at hbrk h
          have hlp2 : o.price ≤ lvl - 1 := by omega
          have hlvl1 : 1 ≤ lvl := by omega
          have hcur2 : Chain (withBidMax (setHeadAt e lvl none) (lvl - 1)).bookEntries
              (((withBidMax (setHeadAt e lvl none) (lvl - 1)).pricePoints
                (lvl - 1)).listHead) (L (lvl - 1)) := by
            simp only [withBidMax_bookEntries, setHeadAt_bookEntries,
              withBidMax_pricePoints, setHeadAt_pricePoints]
            rw [upd_ne _ _ _ (by omega : lvl - 1 ≠ lvl)]
            exact hL (lvl - 1) (by omega)
          have hL2 : ∀ q, q < lvl - 1 →
              Chain (withBidMax (setHeadAt e lvl none) (lvl - 1)).bookEntries
                (((withBidMax (setHeadAt e lvl none) (lvl - 1)).pricePoints
                  q).listHead) (L q) := by
            intro q hq
            simp only [withBidMax_bookEntries, setHeadAt_bookEntries,
              withBidMax_pricePoints, setHeadAt_pricePoints]
            rw [upd_ne _ _ _ (by omega : q ≠ lvl)]
            exact hL q (by omega)
          have h9 := ih (withBidMax (setHeadAt e lvl none) (lvl - 1)) (lvl - 1)
            (((withBidMax (setHeadAt e lvl none) (lvl - 1)).pricePoints
              (lvl - 1)).listHead) osz res (L (lvl - 1)) L h (by simp) hlp2
            (by omega) h1p hcur2 hL2
          simp only [withBidMax_bookEntries, setHeadAt_bookEntries, withBidMax_deals,
            setHeadAt_deals, withBidMax_askMin, setHeadAt_askMin,
            withBidMax_curOrderID, setHeadAt_curOrderID] at h9
          rcases h9 with
            ⟨e1, rem, ds, hres, heq, hdeals, hbook, hbidm, haskm, hcur2b, hppA, hppB⟩ |
            ⟨e1, oid2, m, ds, f2, lm, hres, hoid, hm1, hm2, heq, hdeals, hbook, hbidm,
              haskm, hcur2b, hppA, hppB, hheadm, htailm, pre, hpre⟩
          · refine Or.inl ⟨e1, rem, ds, hres, ?_, hdeals, hbook, hbidm, haskm, hcur2b,
              ?_, ?_⟩
            · rw [List.nil_append, flatDown_cons L h1p hlp2]
              exact heq
            · intro q hq
              rw [hppA q (by omega)]
              simp only [withBidMax_pricePoints, setHeadAt_pricePoints]
              exact upd_ne _ _ _ (by omega)
            · intro q h1 h2
              by_cases hq : q = lvl
              · rw [hppA q (by omega), hq]
                simp
              · rcases hppB q h1 (by omega) with ⟨hh, ht⟩
                refine ⟨hh, ?_⟩
                rw [ht]
                simp only [withBidMax_pricePoints, setHeadAt_pricePoints]
                rw [upd_ne _ _ _ hq]
          · refine Or.inr ⟨e1, oid2, m, ds, f2, lm, hres, hoid, hm1, by omega, ?_,
              hdeals, hbook, hbidm, haskm, hcur2b, ?_, ?_, hheadm, ?_, ?_⟩
            · rw [List.nil_append, flatDown_cons L h1p hlp2]
              exact heq
            · intro q hq
              rw [hppA q (by omega)]
              simp only [withBidMax_pricePoints, setHeadAt_pricePoints]
              exact upd_ne _ _ _ (by omega)
            · intro q h1 h2
              by_cases hq : q = lvl
              · rw [hppA q (by omega), hq]
                simp
              · rcases hppB q h1 (by omega) with ⟨hh, ht⟩
                refine ⟨hh, ?_⟩
                rw [ht]
                simp only [withBidMax_pricePoints, setHeadAt_pricePoints]
                rw [upd_ne _ _ _ hq]
            · rw [htailm]
              simp only [withBidMax_pricePoints, setHeadAt_pricePoints]
              rw [upd_ne _ _ _ (by omega : m ≠ lvl)]
            · rw [if_neg (by omega : ¬ m = lvl)]
              by_cases hm : m = lvl - 1
              · rw [if_pos hm] at hpre
                subst hm
                exact ⟨pre, hpre⟩
              · rw [if_neg hm] at hpre
                exact ⟨pre, hpre⟩
      · exact absurd h (by simp)


/-! ## Feed bookkeeping lemmas and the resting-path invariant -/

theorem submittedFor_append (i : Nat) :
    ∀ (P Q : List Op), submittedFor i (P ++ Q) = submittedFor i P + submittedFor i Q := by
  intro P
  induction P with
  | nil =>
    intro Q
    rw [List.nil_append, submittedFor]
    omega
  | cons op P ih =>
    intro Q
    cases op with
    | limit o =>
      rw [List.cons_append, submittedFor, submittedFor, ih]
      omega
    | cancel j =>
      rw [List.cons_append, submittedFor, submittedFor, ih]

theorem limitIds_append :
    ∀ (P Q : List Op), limitIds (P ++ Q) = limitIds P ++ limitIds Q := by
  intro P
  induction P with
  | nil =>
    intro Q
    rw [List.nil_append, limitIds, List.nil_append]
  | cons op P ih =>
    intro Q
    cases op with
    | limit o =>
      rw [List.cons_append, limitIds, limitIds, ih, List.cons_append]
    | cancel j =>
      rw [List.cons_append, limitIds, limitIds, ih]

theorem flat_three (L : Nat → List Nat) {lvl p : Nat} (h1 : 1 ≤ lvl) (h2 : lvl ≤ p)
    (h3 : p ≤ maxPrice) :
    flat L 0 maxPrice =
      flat L 0 (lvl - 1) ++ (flat L lvl p ++ flat L (p + 1) maxPrice) := by
  rw [flat_split L (Nat.zero_le lvl) h1 (by omega)]
  congr 1
  have h4 := flat_split L (show lvl ≤ p + 1 by omega) (by omega : 1 ≤ p + 1)
    (by omega : p + 1 ≤ maxPrice + 1)
  rw [show p + 1 - 1 = p from rfl] at h4
  exact h4

/-- The resting path: allocate the next arena slot, write the remaining
order into it and append it at the tail of its price level.  Everything
the state invariants need is collected here; the new per-level assignment
appends the fresh node at the order's price. -/
theorem restOrder_inv {e eb : Engine} {o : Order} {osz oid : Nat}
    {L : Nat → List Nat}
    (h : restOrder e o osz = .ok (eb, oid))
    (hchain : ∀ p, Chain e.bookEntries (e.pricePoints p).listHead (L p))
    (hbounded : ∀ p, ∀ k ∈ L p, k ≤ e.curOrderID)
    (hdisj : ∀ p q, p ≠ q → ∀ k, k ∈ L p → k ∉ L q)
    (htails : ∀ p, (e.pricePoints p).listHead ≠ none →
      (e.pricePoints p).listTail = (L p).getLast?)
    (hfresh : ∀ k, e.curOrderID < k → e.bookEntries k = OrderBookEntry.zero)
    (hhi : ∀ p, maxPrice < p → L p = [])
    (h1p : 1 ≤ o.price)
    (hnow : e.curOrderID + 1 < 2 ^ 64) :
    (∀ p, Chain eb.bookEntries (eb.pricePoints p).listHead
      (if p = o.price then L o.price ++ [e.curOrderID + 1] else L p)) ∧
    (∀ p, ∀ k ∈ (if p = o.price then L o.price ++ [e.curOrderID + 1] else L p),
      k ≤ eb.curOrderID) ∧
    (∀ p q, p ≠ q →
      ∀ k, k ∈ (if p = o.price then L o.price ++ [e.curOrderID + 1] else L p) →
        k ∉ (if q = o.price then L o.price ++ [e.curOrderID + 1] else L q)) ∧
    (∀ p, (eb.pricePoints p).listHead ≠ none → (eb.pricePoints p).listTail =
      (if p = o.price then L o.price ++ [e.curOrderID + 1] else L p).getLast?) ∧
    (∀ k, eb.curOrderID < k → eb.bookEntries k = OrderBookEntry.zero) ∧
    (∀ p, maxPrice < p →
      (if p = o.price then L o.price ++ [e.curOrderID + 1] else L p) = []) ∧
    eb.curOrderID = e.curOrderID + 1 ∧ oid = e.curOrderID + 1 ∧
    eb.askMin = e.askMin ∧ eb.bidMax = e.bidMax ∧ eb.deals = e.deals ∧
    (∀ k, k ≠ e.curOrderID + 1 → (eb.bookEntries k).id = (e.bookEntries k).id ∧
      (eb.bookEntries k).size = (e.bookEntries k).size) ∧
    (eb.bookEntries (e.curOrderID + 1)).id = o.id ∧
    (eb.bookEntries (e.curOrderID + 1)).size = osz ∧
    (∀ i, listSum eb.bookEntries i
        (flat (fun q => if q = o.price then L o.price ++ [e.curOrderID + 1] else L q)
          0 maxPrice) =
      listSum e.bookEntries i (flat L 0 maxPrice) + (if o.id = i then osz else 0)) := by
  rcases restOrder_ok_cases h with ⟨hoid, hguard, hpm, hins⟩
  have hinc : inc64 e.curOrderID = e.curOrderID + 1 := inc64_small hnow
  rw [hinc] at hoid hguard hins
  have hzero : e.bookEntries (e.curOrderID + 1) = OrderBookEntry.zero :=
    hfresh _ (by omega)
  have hnotmem : ∀ p, e.curOrderID + 1 ∉ L p := by
    intro p hmem
    have := hbounded p _ hmem
    omega
  have hW : ∀ k, k ≠ e.curOrderID + 1 →
      (upd e.bookEntries (e.curOrderID + 1)
        ((e.bookEntries (e.curOrderID + 1)).written osz o.trader o.id)) k =
      e.bookEntries k := fun k hk => upd_ne _ _ _ hk
  rcases ppInsertOrder_ok_cases hins with ⟨hhead, heb⟩ | ⟨t, hhead, htail, heb⟩
  · -- the price level was empty: the new node becomes both head and tail
    simp only [withCurOrderID_pricePoints, setBE_pricePoints] at hhead
    have hbookE : eb.bookEntries = upd e.bookEntries (e.curOrderID + 1)
        ((e.bookEntries (e.curOrderID + 1)).written osz o.trader o.id) := by
      rw [heb]
      simp
    have hppE : eb.pricePoints = upd e.pricePoints o.price
        ((e.pricePoints o.price).withBoth (some (e.curOrderID + 1))
          (some (e.curOrderID + 1))) := by
      rw [heb]
      simp
    have hcurE : eb.curOrderID = e.curOrderID + 1 := by
      rw [heb]
      simp
    have hLp : L o.price = [] := by
      have hc := hchain o.price
      rw [hhead] at hc
      exact chain_none hc
    have hbid : ∀ k, k ≠ e.curOrderID + 1 →
        (eb.bookEntries k).id = (e.bookEntries k).id ∧
        (eb.bookEntries k).size = (e.bookEntries k).size := by
      intro k hk
      rw [hbookE, hW k hk]
      exact ⟨rfl, rfl⟩
    refine ⟨?_, ?_, ?_, ?_, ?_, ?_, hcurE, hoid, by rw [heb]; simp, by rw [heb]; simp,
      by rw [heb]; simp, hbid, ?_, ?_, ?_⟩
    · intro p
      rw [hbookE, hppE]
      by_cases hp : p = o.price
      · subst hp
        rw [if_pos rfl, hLp, List.nil_append, upd_same, withBoth_listHead]
        refine Chain.cons ?_
        rw [upd_same, written_next, hzero]
        exact Chain.nil
      · rw [if_neg hp, upd_ne _ _ _ hp]
        refine chain_congr_mem (hchain p) ?_
        intro j hj
        rw [hW j (fun hj2 => hnotmem p (hj2 ▸ hj))]
    · intro p k hk
      rw [hcurE]
      by_cases hp : p = o.price
      · rw [hp, if_pos rfl, hLp, List.nil_append] at hk
        rcases List.mem_singleton.mp hk with rfl
        exact le_rfl
      · rw [if_neg hp] at hk
        have := hbounded p k hk
        omega
    · intro p q hpq k hk1 hk2
      by_cases hp : p = o.price
      · rw [hp, if_pos rfl, hLp, List.nil_append] at hk1
        rcases List.mem_singleton.mp hk1 with rfl
        rw [if_neg (hp ▸ hpq).symm] at hk2
        exact hnotmem q hk2
      · rw [if_neg hp] at hk1
        by_cases hq : q = o.price
        · rw [hq, if_pos rfl, hLp, List.nil_append] at hk2
          rcases List.mem_singleton.mp hk2 with rfl
          exact hnotmem p hk1
        · rw [if_neg hq] at hk2
          exact hdisj p q hpq k hk1 hk2
    · intro p hp
      rw [hppE] at hp ⊢
      by_cases hpp : p = o.price
      · subst hpp
        rw [if_pos rfl, hLp, List.nil_append, upd_same, withBoth_listTail]
        rfl
      · rw [upd_ne _ _ _ hpp] at hp ⊢
        rw [if_neg hpp]
        exact htails p hp
    · intro k hk
      rw [hcurE] at hk
      rw [hbookE, hW k (by omega)]
      exact hfresh k (by omega)
    · intro p hp
      rw [if_neg (by omega : ¬ p = o.price)]
      exact hhi p hp
    · rw [hbookE, upd_same, written_id]
    · rw [hbookE, upd_same, written_size]
    · intro i
      rw [flat_three _ h1p (le_refl o.price) hpm,
        flat_three L h1p (le_refl o.price) hpm]
      rw [listSum_append, listSum_append, listSum_append, listSum_append]
      have hfc1 : flat (fun q => if q = o.price then L o.price ++ [e.curOrderID + 1]
          else L q) 0 (o.price - 1) = flat L 0 (o.price - 1) :=
        flat_congr (fun q hq1 hq2 => by rw [if_neg (by omega : ¬ q = o.price)])
      have hfc2 : flat (fun q => if q = o.price then L o.price ++ [e.curOrderID + 1]
          else L q) (o.price + 1) maxPrice = flat L (o.price + 1) maxPrice :=
        flat_congr (fun q hq1 hq2 => by rw [if_neg (by omega : ¬ q = o.price)])
      have hmid : flat (fun q => if q = o.price then L o.price ++ [e.curOrderID + 1]
          else L q) o.price o.price = L o.price ++ [e.curOrderID + 1] := by
        rw [flat_cons _ (le_refl o.price), flat_nil _ (by omega), List.append_nil]
        rw [if_pos rfl]
      have hmidL : flat L o.price o.price = L o.price := by
        rw [flat_cons _ (le_refl o.price), flat_nil _ (by omega), List.append_nil]
      rw [hfc1, hfc2, hmid, hmidL]
      have hout : ∀ (l : List Nat), (∀ k ∈ l, k ≤ e.curOrderID) →
          listSum eb.bookEntries i l = listSum e.bookEntries i l := by
        intro l hl
        apply listSum_congr
        intro k hk
        exact hbid k (by have := hl k hk; omega)
      rw [hout (flat L 0 (o.price - 1)) ?hb1, hout (flat L (o.price + 1) maxPrice) ?hb2,
        listSum_append, hout (L o.price) (hbounded o.price), hLp, listSum_cons]
      case hb1 =>
        intro k hk
        rcases mem_flat.mp hk with ⟨q, hq1, hq2, hkq⟩
        exact hbounded q k hkq
      case hb2 =>
        intro k hk
        rcases mem_flat.mp hk with ⟨q, hq1, hq2, hkq⟩
        exact hbounded q k hkq
      rw [hbookE, upd_same, written_id, written_size]
      rw [show listSum e.bookEntries i ([] : List Nat) = 0 from rfl]
      rw [show listSum (upd e.bookEntries (e.curOrderID + 1)
        ((e.bookEntries (e.curOrderID + 1)).written osz o.trader o.id)) i
        ([] : List Nat) = 0 from rfl]
      by_cases hid : o.id = i
      · rw [if_pos hid]
        omega
      · rw [if_neg hid]
        omega
  · -- nonempty level: the new node is linked after the old tail
    simp only [withCurOrderID_pricePoints, setBE_pricePoints] at hhead htail
    have hbookE : eb.bookEntries = upd (upd e.bookEntries (e.curOrderID + 1)
        ((e.bookEntries (e.curOrderID + 1)).written osz o.trader o.id)) t
        ((upd e.bookEntries (e.curOrderID + 1)
          ((e.bookEntries (e.curOrderID + 1)).written osz o.trader o.id) t).withNext
          (some (e.curOrderID + 1))) := by
      rw [heb]
      simp
    have hppE : eb.pricePoints = upd e.pricePoints o.price
        ((e.pricePoints o.price).withTail (some (e.curOrderID + 1))) := by
      rw [heb]
      simp
    have hcurE : eb.curOrderID = e.curOrderID + 1 := by
      rw [heb]
      simp
    have htail2 : (L o.price).getLast? = some t := by
      rw [← htails o.price hhead]
      exact htail
    have htmem : t ∈ L o.price := by
      rcases List.mem_getLast?_eq_getLast (Option.mem_def.mpr htail2) with ⟨hne, heq⟩
      rw [heq]
      exact List.getLast_mem hne
    have htcur : t ≤ e.curOrderID := hbounded o.price t htmem
    have hbid : ∀ k, k ≠ e.curOrderID + 1 →
        (eb.bookEntries k).id = (e.bookEntries k).id ∧
        (eb.bookEntries k).size = (e.bookEntries k).size := by
      intro k hk
      rw [hbookE]
      by_cases ht : k = t
      · subst ht
        rw [upd_same, withNext_id, withNext_size, hW k hk]
        exact ⟨rfl, rfl⟩
      · rw [upd_ne _ _ _ ht, hW k hk]
        exact ⟨rfl, rfl⟩
    have hbfr : ∀ k, k ≠ e.curOrderID + 1 → k ≠ t →
        eb.bookEntries k = e.bookEntries k := by
      intro k hk ht
      rw [hbookE, upd_ne _ _ _ ht, hW k hk]
    refine ⟨?_, ?_, ?_, ?_, ?_, ?_, hcurE, hoid, by rw [heb]; simp, by rw [heb]; simp,
      by rw [heb]; simp, hbid, ?_, ?_, ?_⟩
    · intro p
      rw [hbookE, hppE]
      by_cases hp : p = o.price
      · subst hp
        rw [if_pos rfl, upd_same, withTail_listHead]
        refine chain_snoc ?_ ?_ htail2 (hnotmem o.price)
        · rw [upd_same, written_next, hzero]
          rfl
        · refine chain_congr_mem (hchain o.price) ?_
          intro j hj
          rw [hW j (fun hj2 => hnotmem o.price (hj2 ▸ hj))]
      · rw [if_neg hp, upd_ne _ _ _ hp]
        refine chain_congr_mem (hchain p) ?_
        intro j hj
        have hjt : j ≠ t := fun hjt => hdisj p o.price hp j hj (hjt ▸ htmem)
        rw [upd_ne _ _ _ hjt, hW j (fun hj2 => hnotmem p (hj2 ▸ hj))]
    · intro p k hk
      rw [hcurE]
      by_cases hp : p = o.price
      · rw [hp, if_pos rfl] at hk
        rcases List.mem_append.mp hk with hk1 | hk2
        · have := hbounded o.price k hk1
          omega
        · rcases List.mem_singleton.mp hk2 with rfl
          exact le_rfl
      · rw [if_neg hp] at hk
        have := hbounded p k hk
        omega
    · intro p q hpq k hk1 hk2
      by_cases hp : p = o.price
      · subst hp
        rw [if_pos rfl] at hk1
        rw [if_neg (Ne.symm hpq)] at hk2
        rcases List.mem_append.mp hk1 with hk1a | hk1b
        · exact hdisj o.price q hpq k hk1a hk2
        · rcases List.mem_singleton.mp hk1b with rfl
          exact hnotmem q hk2
      · rw [if_neg hp] at hk1
        by_cases hq : q = o.price
        · subst hq
          rw [if_pos rfl] at hk2
          rcases List.mem_append.mp hk2 with hk2a | hk2b
          · exact hdisj p o.price hp k hk1 hk2a
          · rcases List.mem_singleton.mp hk2b with rfl
            exact hnotmem p hk1
        · rw [if_neg hq] at hk2
          exact hdisj p q hpq k hk1 hk2
    · intro p hp
      rw [hppE] at hp ⊢
      by_cases hpp : p = o.price
      · subst hpp
        rw [if_pos rfl, upd_same, withTail_listTail, List.getLast?_concat]
      · rw [upd_ne _ _ _ hpp] at hp ⊢
        rw [if_neg hpp]
        exact htails p hp
    · intro k hk
      rw [hcurE] at hk
      rw [hbfr k (by omega) (by omega)]
      exact hfresh k (by omega)
    · intro p hp
      rw [if_neg (by omega : ¬ p = o.price)]
      exact hhi p hp
    · rw [hbookE, upd_ne _ _ _ (by omega : e.curOrderID + 1 ≠ t), upd_same, written_id]
    · rw [hbookE, upd_ne _ _ _ (by omega : e.curOrderID + 1 ≠ t), upd_same,
        written_size]
    · intro i
      rw [flat_three _ h1p (le_refl o.price) hpm,
        flat_three L h1p (le_refl o.price) hpm]
      rw [listSum_append, listSum_append, listSum_append, listSum_append]
      have hfc1 : flat (fun q => if q = o.price then L o.price ++ [e.curOrderID + 1]
          else L q) 0 (o.price - 1) = flat L 0 (o.price - 1) :=
        flat_congr (fun q hq1 hq2 => by rw [if_neg (by omega : ¬ q = o.price)])
      have hfc2 : flat (fun q => if q = o.price then L o.price ++ [e.curOrderID + 1]
          else L q) (o.price + 1) maxPrice = flat L (o.price + 1) maxPrice :=
        flat_congr (fun q hq1 hq2 => by rw [if_neg (by omega : ¬ q = o.price)])
      have hmid : flat (fun q => if q = o.price then L o.price ++ [e.curOrderID + 1]
          else L q) o.price o.price = L o.price ++ [e.curOrderID + 1] := by
        rw [flat_cons _ (le_refl o.price), flat_nil _ (by omega), List.append_nil]
        rw [if_pos rfl]
      have hmidL : flat L o.price o.price = L o.price := by
        rw [flat_cons _ (le_refl o.price), flat_nil _ (by omega), List.append_nil]
      rw [hfc1, hfc2, hmid, hmidL]
      have hout : ∀ (l : List Nat), (∀ k ∈ l, k ≤ e.curOrderID) →
          listSum eb.bookEntries i l = listSum e.bookEntries i l := by
        intro l hl
        apply listSum_congr
        intro k hk
        exact hbid k (by have := hl k hk; omega)
      rw [hout (flat L 0 (o.price - 1)) ?hb1, hout (flat L (o.price + 1) maxPrice) ?hb2,
        listSum_append, hout (L o.price) (hbounded o.price), listSum_cons]
      case hb1 =>
        intro k hk
        rcases mem_flat.mp hk with ⟨q, hq1, hq2, hkq⟩
        exact hbounded q k hkq
      case hb2 =>
        intro k hk
        rcases mem_flat.mp hk with ⟨q, hq1, hq2, hkq⟩
        exact hbounded q k hkq
      rw [hbookE, upd_ne _ _ _ (by omega : e.curOrderID + 1 ≠ t), upd_same, written_id,
        written_size]
      rw [show listSum (upd (upd e.bookEntries (e.curOrderID + 1)
        ((e.bookEntries (e.curOrderID + 1)).written osz o.trader o.id)) t
        ((upd e.bookEntries (e.curOrderID + 1)
          ((e.bookEntries (e.curOrderID + 1)).written osz o.trader o.id) t).withNext
          (some (e.curOrderID + 1)))) i ([] : List Nat) = 0 from rfl]
      by_cases hid : o.id = i
      · rw [if_pos hid]
        omega
      · rw [if_neg hid]
        omega


/-! ## Invariant preservation for a complete `Limit` call -/

theorem nodup_prefix_of_append {P : List Op} {o : Order}
    (h : (limitIds (P ++ [Op.limit o])).Nodup) :
    (limitIds P).Nodup ∧ o.id ∉ limitIds P := by
  rw [limitIds_append] at h
  have h1 := List.Nodup.of_append_left h
  have h2 := List.disjoint_of_nodup_append h
  refine ⟨h1, fun hmem => ?_⟩
  exact h2 hmem (by rw [limitIds, limitIds]; exact List.mem_singleton_self _)

theorem limitIds_snoc (P : List Op) (o : Order) :
    limitIds (P ++ [Op.limit o]) = limitIds P ++ [o.id] := by
  rw [limitIds_append, limitIds, limitIds]

theorem submittedFor_snoc (i : Nat) (P : List Op) (o : Order) :
    submittedFor i (P ++ [Op.limit o]) =
      submittedFor i P + (if o.id = i then o.size else 0) := by
  rw [submittedFor_append]
  congr 1

theorem scanned_nodup {e : Engine} {L : Nat → List Nat} (hwf : EWF e L)
    (a b : Nat) : (flat L a b).Nodup :=
  flat_nodup (fun q => chain_nodup (hwf.chain q)) hwf.disj a b

/-- Preservation of the run invariant by a successful buy-side `Limit`. -/
theorem Limit_inv_bid {fuel : Nat} {e e2 : Engine} {o : Order} {oid : Nat}
    {L : Nat → List Nat} {P : List Op}
    (hwf : EWF e L) (hcap : e.curOrderID ≤ P.length) (hacc : ACC e L P)
    (hido : (limitIds P).Nodup → IDOK e L P)
    (hlen : P.length + 1 < 2 ^ 64)
    (hvo : ValidOp (Op.limit o)) (hside : o.side = Side.Bid)
    (h : Limit fuel e o = .ok (e2, oid)) :
    ∃ L2, EWF e2 L2 ∧ e2.curOrderID ≤ P.length + 1 ∧ ACC e2 L2 (P ++ [Op.limit o]) ∧
      ((limitIds (P ++ [Op.limit o])).Nodup → IDOK e2 L2 (P ++ [Op.limit o])) := by
  rcases hvo with ⟨hsz, hp1, hp2⟩
  rw [show minPrice = 1 from rfl] at hp1
  have hnow : e.curOrderID + 1 < 2 ^ 64 := by omega
  have huc := Limit_uncrossed h hwf.cross hwf.amax hwf.bmax
  rcases Limit_bid_cases hside h with
      ⟨hlp, hmx, hw⟩ | ⟨e1, rem, eb, hlp, hmx, hw, hr, he2⟩ | ⟨eb, hnlp, hr, he2⟩
  · -- (i) fully filled inside the scan
    have hlv1 : 1 ≤ e.askMin := by have := hwf.cross; omega
    have hwc := bidWalk_consume o fuel e e.askMin ((e.pricePoints e.askMin).listHead)
      o.size (.filled e2 oid) (L e.askMin) L hw rfl hlp hp2
      (hwf.chain e.askMin) (fun q _ => hwf.chain q)
    rcases hwc with
      ⟨e1x, remx, dsx, hres, -⟩ |
      ⟨e1x, oidx, m, ds, f2, lm, hres, hoid, hm1, hm2, heq, hdeals, hbook, haskm,
        hbidm, hcur2, hppA, hppB, hheadm, htailm, pre, hpre⟩
    · exact absurd hres (by simp)
    · cases hres
      rcases consumeBid_state o e.bookEntries _ _ _ _ _ _ heq with ⟨hstp, hstf, -⟩
      have hpre2 : pre ++ lm = L m := by
        by_cases hm : m = e.askMin
        · rw [if_pos hm] at hpre
          rw [hm]
          exact hpre
        · rw [if_neg hm] at hpre
          exact hpre
      have hlmsub : ∀ k ∈ lm, k ∈ L m := by
        intro k hk
        rw [← hpre2]
        exact List.mem_append_right pre hk
      have hchm : Chain f2 lm.head? lm := by
        have hch0 : Chain e.bookEntries ((e.pricePoints m).listHead) (pre ++ lm) := by
          rw [hpre2]
          exact hwf.chain m
        exact chain_congr_mem (chain_append_right pre hch0) (fun j _ => (hstp j).2.1)
      have hscb : ∀ k, k ∈ L e.askMin ++ flat L (e.askMin + 1) o.price →
          k ≤ e.curOrderID := by
        intro k hk
        rcases List.mem_append.mp hk with hk1 | hk2
        · exact hwf.bounded _ k hk1
        · rcases mem_flat.mp hk2 with ⟨q, -, -, hkq⟩
          exact hwf.bounded q k hkq
      have hnotin_scan : ∀ q, (q < e.askMin ∨ o.price < q) → ∀ k ∈ L q,
          k ∉ (L e.askMin ++ flat L (e.askMin + 1) o.price) := by
        intro q hq k hk hmem
        rcases List.mem_append.mp hmem with h1 | h2
        · exact hwf.disj e.askMin q (by omega) k h1 hk
        · rcases mem_flat.mp h2 with ⟨r, hr1, hr2, hkr⟩
          exact hwf.disj r q (by omega) k hkr hk
      have hsub2 : ∀ p k,
          k ∈ (if p = m then lm else if e.askMin ≤ p ∧ p < m then [] else L p) →
          k ∈ L p := by
        intro p k hk
        by_cases hpm : p = m
        · rw [if_pos hpm] at hk
          rw [hpm]
          exact hlmsub k hk
        · rw [if_neg hpm] at hk
          by_cases hin : e.askMin ≤ p ∧ p < m
          · rw [if_pos hin] at hk
            exact absurd hk (List.not_mem_nil k)
          · rw [if_neg hin] at hk
            exact hk
      refine ⟨fun q => if q = m then lm else if e.askMin ≤ q ∧ q < m then [] else L q,
        ⟨?_, ?_, ?_, ?_, ?_, ?_, huc.1, huc.2.1, huc.2.2⟩, ?_, ?_, ?_⟩
      · -- chain
        intro p
        show Chain e2.bookEntries (e2.pricePoints p).listHead
          (if p = m then lm else if e.askMin ≤ p ∧ p < m then [] else L p)
        by_cases hpm : p = m
        · rw [if_pos hpm, hpm, hbook, hheadm]
          exact hchm
        · rw [if_neg hpm]
          by_cases hin : e.askMin ≤ p ∧ p < m
          · rw [if_pos hin, hbook, (hppB p hin.1 hin.2).1]
            exact Chain.nil
          · rw [if_neg hin, hbook, hppA p (by omega)]
            exact chain_congr_mem (hwf.chain p) (fun j _ => (hstp j).2.1)
      · -- bounded
        intro p k hk
        have hk2 := hwf.bounded p k (hsub2 p k hk)
        rw [hcur2, inc64_small hnow]
        omega
      · -- disjoint
        intro p q hpq k hk1 hk2
        exact hwf.disj p q hpq k (hsub2 p k hk1) (hsub2 q k hk2)
      · -- tails
        intro p hhd
        show (e2.pricePoints p).listTail =
          (if p = m then lm else if e.askMin ≤ p ∧ p < m then [] else L p).getLast?
        by_cases hpm : p = m
        · rw [if_pos hpm, hpm, htailm]
          rw [hpm] at hhd
          have hlmne : lm ≠ [] := by
            intro hnil
            rw [hheadm, hnil] at hhd
            exact hhd rfl
          have hLmne : (e.pricePoints m).listHead ≠ none := by
            rw [chain_head (hwf.chain m), ← hpre2]
            cases pre with
            | nil =>
              rw [List.nil_append]
              cases lm with
              | nil => exact absurd rfl hlmne
              | cons a l => simp
            | cons a l => simp
          rw [hwf.tails m hLmne, ← hpre2, List.getLast?_append_of_ne_nil pre hlmne]
        · rw [if_neg hpm]
          by_cases hin : e.askMin ≤ p ∧ p < m
          · rw [(hppB p hin.1 hin.2).1] at hhd
            exact absurd rfl hhd
          · rw [if_neg hin, hppA p (by omega)]
            rw [hppA p (by omega)] at hhd
            exact hwf.tails p hhd
      · -- fresh slots
        intro k hk
        rw [hcur2, inc64_small hnow] at hk
        rw [hbook, hstf k (fun hmem => by have := hscb k hmem; omega)]
        exact hwf.fresh k (by omega)
      · -- nothing above maxPrice
        intro p hp
        show (if p = m then lm else if e.askMin ≤ p ∧ p < m then [] else L p) = []
        rw [if_neg (by omega : ¬ p = m), if_neg (by omega : ¬ (e.askMin ≤ p ∧ p < m))]
        exact hwf.hi p hp
      · -- cursor bound
        rw [hcur2, inc64_small hnow]
        omega
      · -- accounting
        intro i
        have hnd : (L e.askMin ++ flat L (e.askMin + 1) o.price).Nodup := by
          rw [← flat_cons L hlp]
          exact scanned_nodup hwf _ _
        have hgd : dealsFor i e2.deals = dealsFor i e.deals + dealsFor i ds := by
          rw [hdeals, dealsFor_append]
        have hpre_e : listSum f2 i (flat L 0 (e.askMin - 1)) =
            listSum e.bookEntries i (flat L 0 (e.askMin - 1)) := by
          apply listSum_congr
          intro k hk
          rcases mem_flat.mp hk with ⟨q, hq1, hq2, hkq⟩
          rw [hstf k (hnotin_scan q (Or.inl (by omega)) k hkq)]
          exact ⟨rfl, rfl⟩
        have hpost_e : listSum f2 i (flat L (o.price + 1) maxPrice) =
            listSum e.bookEntries i (flat L (o.price + 1) maxPrice) := by
          apply listSum_congr
          intro k hk
          rcases mem_flat.mp hk with ⟨q, hq1, hq2, hkq⟩
          rw [hstf k (hnotin_scan q (Or.inr (by omega)) k hkq)]
          exact ⟨rfl, rfl⟩
        have hCL : listSum e.bookEntries i (flat L 0 maxPrice) =
            listSum e.bookEntries i (flat L 0 (e.askMin - 1)) +
            (listSum e.bookEntries i (L e.askMin ++ flat L (e.askMin + 1) o.price) +
              listSum e.bookEntries i (flat L (o.price + 1) maxPrice)) := by
          rw [flat_three L hlv1 hlp hp2, listSum_append, listSum_append,
            flat_cons L hlp]
        have hmidempty : flat
            (fun q => if q = m then lm else if e.askMin ≤ q ∧ q < m then [] else L q)
            e.askMin (m - 1) = [] := by
          apply flat_empty
          intro q h1 h2
          show (if q = m then lm else if e.askMin ≤ q ∧ q < m then [] else L q) = []
          rw [if_neg (by omega : ¬ q = m),
            if_pos (show e.askMin ≤ q ∧ q < m from ⟨by omega, by omega⟩)]
        have hmidtail : flat
            (fun q => if q = m then lm else if e.askMin ≤ q ∧ q < m then [] else L q)
            (m + 1) o.price = flat L (m + 1) o.price := by
          apply flat_congr
          intro q h1 h2
          show (if q = m then lm else if e.askMin ≤ q ∧ q < m then [] else L q) = L q
          rw [if_neg (by omega : ¬ q = m), if_neg (by omega : ¬ (e.askMin ≤ q ∧ q < m))]
        have hmidL2 : flat
            (fun q => if q = m then lm else if e.askMin ≤ q ∧ q < m then [] else L q)
            e.askMin o.price = lm ++ flat L (m + 1) o.price := by
          rw [flat_split _ hm1 (by omega : 1 ≤ m) (by omega : m ≤ o.price + 1),
            hmidempty, List.nil_append,
            flat_cons _ hm2, hmidtail]
          show (if m = m then lm else if e.askMin ≤ m ∧ m < m then [] else L m) ++ _ = _
          rw [if_pos rfl]
        have hpreL2 : flat
            (fun q => if q = m then lm else if e.askMin ≤ q ∧ q < m then [] else L q)
            0 (e.askMin - 1) = flat L 0 (e.askMin - 1) := by
          apply flat_congr
          intro q h1 h2
          show (if q = m then lm else if e.askMin ≤ q ∧ q < m then [] else L q) = L q
          rw [if_neg (by omega : ¬ q = m), if_neg (by omega : ¬ (e.askMin ≤ q ∧ q < m))]
        have hpostL2 : flat
            (fun q => if q = m then lm else if e.askMin ≤ q ∧ q < m then [] else L q)
            (o.price + 1) maxPrice = flat L (o.price + 1) maxPrice := by
          apply flat_congr
          intro q h1 h2
          show (if q = m then lm else if e.askMin ≤ q ∧ q < m then [] else L q) = L q
          rw [if_neg (by omega : ¬ q = m), if_neg (by omega : ¬ (e.askMin ≤ q ∧ q < m))]
        have hC2 : listSum e2.bookEntries i (flat
            (fun q => if q = m then lm else if e.askMin ≤ q ∧ q < m then [] else L q)
            0 maxPrice) =
            listSum e.bookEntries i (flat L 0 (e.askMin - 1)) +
            (listSum f2 i (lm ++ flat L (m + 1) o.price) +
              listSum e.bookEntries i (flat L (o.price + 1) maxPrice)) := by
          rw [hbook, flat_three _ hlv1 hlp hp2, hpreL2, hmidL2, hpostL2,
            listSum_append, listSum_append, hpre_e, hpost_e]
        have hsn := submittedFor_snoc i P o
        have hai := hacc i
        by_cases hio : i = o.id
        · have hbud := consumeBid_budget o e.bookEntries _ _ _ _ _ _ heq
          have hdls := dealsFor_le_sumSizes i ds
          have hlole := consumeBid_lo_le o e.bookEntries heq i
          rw [if_pos (by omega : o.id = i)] at hsn
          omega
        · have hbal := consumeBid_balance o e.bookEntries _ _ _ _ _ _ heq hnd i
            (fun hh => hio hh)
          rw [if_neg (fun hh => hio hh.symm)] at hsn
          omega
      · -- id regime
        intro hnodup2
        rcases nodup_prefix_of_append hnodup2 with ⟨hndP, hnotin⟩
        have hidok := hido hndP
        refine ⟨?_, ?_⟩
        · intro p k hk
          have hk2 := hsub2 p k hk
          rw [limitIds_snoc]
          refine List.mem_append_left _ ?_
          have hid : (e2.bookEntries k).id = (e.bookEntries k).id := by
            rw [hbook]
            exact (hstp k).1
          rw [hid]
          exact hidok.mem p k hk2
        · intro p q k j hk hj hij
          have hidk : (e2.bookEntries k).id = (e.bookEntries k).id := by
            rw [hbook]; exact (hstp k).1
          have hidj : (e2.bookEntries j).id = (e.bookEntries j).id := by
            rw [hbook]; exact (hstp j).1
          rw [hidk, hidj] at hij
          exact hidok.inj p q k j (hsub2 p k hk) (hsub2 q j hj) hij
  · -- (ii) partially filled: the remainder rests
    subst he2
    have hlv1 : 1 ≤ e.askMin := by have := hwf.cross; omega
    have hwc := bidWalk_consume o fuel e e.askMin ((e.pricePoints e.askMin).listHead)
      o.size (.rest e1 rem) (L e.askMin) L hw rfl hlp hp2
      (hwf.chain e.askMin) (fun q _ => hwf.chain q)
    rcases hwc with
      ⟨e1x, remx, ds, hres, heq, hdeals, hbook, haskm, hbidm, hcur2, hppA, hppB⟩ |
      ⟨e1x, oidx, m, dsx, f2x, lmx, hres, -⟩
    swap
    · exact absurd hres (by simp)
    cases hres
    have hch1 : ∀ p, Chain e1.bookEntries (e1.pricePoints p).listHead
        (if e.askMin ≤ p ∧ p ≤ o.price then [] else L p) := by
      intro p
      by_cases hin : e.askMin ≤ p ∧ p ≤ o.price
      · rw [if_pos hin, (hppB p hin.1 hin.2).1]
        exact Chain.nil
      · rw [if_neg hin, hppA p hin, hbook]
        exact hwf.chain p
    have hbounded1 : ∀ p, ∀ k ∈ (if e.askMin ≤ p ∧ p ≤ o.price then [] else L p),
        k ≤ e1.curOrderID := by
      intro p k hk
      rw [hcur2]
      by_cases hin : e.askMin ≤ p ∧ p ≤ o.price
      · rw [if_pos hin] at hk
        exact absurd hk (List.not_mem_nil k)
      · rw [if_neg hin] at hk
        exact hwf.bounded p k hk
    have hsub1 : ∀ p k, k ∈ (if e.askMin ≤ p ∧ p ≤ o.price then [] else L p) →
        k ∈ L p := by
      intro p k hk
      by_cases hin : e.askMin ≤ p ∧ p ≤ o.price
      · rw [if_pos hin] at hk
        exact absurd hk (List.not_mem_nil k)
      · rw [if_neg hin] at hk
        exact hk
    have hdisj1 : ∀ p q, p ≠ q →
        ∀ k, k ∈ (if e.askMin ≤ p ∧ p ≤ o.price then [] else L p) →
          k ∉ (if e.askMin ≤ q ∧ q ≤ o.price then [] else L q) := by
      intro p q hpq k hk1 hk2
      exact hwf.disj p q hpq k (hsub1 p k hk1) (hsub1 q k hk2)
    have htails1 : ∀ p, (e1.pricePoints p).listHead ≠ none →
        (e1.pricePoints p).listTail =
          (if e.askMin ≤ p ∧ p ≤ o.price then [] else L p).getLast? := by
      intro p hhd
      by_cases hin : e.askMin ≤ p ∧ p ≤ o.price
      · rw [(hppB p hin.1 hin.2).1] at hhd
        exact absurd rfl hhd
      · rw [if_neg hin, hppA p hin]
        rw [hppA p hin] at hhd
        exact hwf.tails p hhd
    have hfresh1 : ∀ k, e1.curOrderID < k → e1.bookEntries k = OrderBookEntry.zero := by
      intro k hk
      rw [hcur2] at hk
      rw [hbook]
      exact hwf.fresh k hk
    have hhi1 : ∀ p, maxPrice < p →
        (if e.askMin ≤ p ∧ p ≤ o.price then [] else L p) = [] := by
      intro p hp
      rw [if_neg (by omega : ¬ (e.askMin ≤ p ∧ p ≤ o.price))]
      exact hwf.hi p hp
    rcases restOrder_inv hr hch1 hbounded1 hdisj1 htails1 hfresh1 hhi1 hp1
        (by rw [hcur2]; exact hnow) with
      ⟨R1, R2, R3, R4, R5, R6, R7, R8, R9, R10, R11, R12, R13, R14, R15⟩
    refine ⟨fun q => if q = o.price then
        (if e.askMin ≤ o.price ∧ o.price ≤ o.price then [] else L o.price) ++
          [e1.curOrderID + 1]
      else if e.askMin ≤ q ∧ q ≤ o.price then [] else L q,
      ⟨R1, R2, R3, R4, R5, R6, huc.1, huc.2.1, huc.2.2⟩, ?_, ?_, ?_⟩
    · -- cursor bound
      show eb.curOrderID ≤ P.length + 1
      rw [R7, hcur2]
      omega
    · -- accounting
      intro i
      simp only [withBidMax_deals, withBidMax_bookEntries]
      have hnd : (L e.askMin ++ flat L (e.askMin + 1) o.price).Nodup := by
        rw [← flat_cons L hlp]
        exact scanned_nodup hwf _ _
      have hgd : dealsFor i eb.deals = dealsFor i e.deals + dealsFor i ds := by
        rw [R11, hdeals, dealsFor_append]
      have hR15 := R15 i
      have hL1pre : flat (fun q => if e.askMin ≤ q ∧ q ≤ o.price then [] else L q)
          0 (e.askMin - 1) = flat L 0 (e.askMin - 1) := by
        apply flat_congr
        intro q h1 h2
        show (if e.askMin ≤ q ∧ q ≤ o.price then [] else L q) = L q
        rw [if_neg (by omega : ¬ (e.askMin ≤ q ∧ q ≤ o.price))]
      have hL1post : flat (fun q => if e.askMin ≤ q ∧ q ≤ o.price then [] else L q)
          (o.price + 1) maxPrice = flat L (o.price + 1) maxPrice := by
        apply flat_congr
        intro q h1 h2
        show (if e.askMin ≤ q ∧ q ≤ o.price then [] else L q) = L q
        rw [if_neg (by omega : ¬ (e.askMin ≤ q ∧ q ≤ o.price))]
      have hL1mid : flat (fun q => if e.askMin ≤ q ∧ q ≤ o.price then [] else L q)
          e.askMin o.price = [] := by
        apply flat_empty
        intro q h1 h2
        show (if e.askMin ≤ q ∧ q ≤ o.price then [] else L q) = []
        rw [if_pos (⟨h1, h2⟩ : e.askMin ≤ q ∧ q ≤ o.price)]
      have hL1 : listSum e1.bookEntries i
          (flat (fun q => if e.askMin ≤ q ∧ q ≤ o.price then [] else L q) 0 maxPrice) =
          listSum e.bookEntries i (flat L 0 (e.askMin - 1)) +
          listSum e.bookEntries i (flat L (o.price + 1) maxPrice) := by
        rw [hbook, flat_three _ hlv1 hlp hp2, hL1pre, hL1mid, hL1post,
          listSum_append, listSum_append]
        rw [show listSum e.bookEntries i ([] : List Nat) = 0 from rfl]
        omega
      have hCL : listSum e.bookEntries i (flat L 0 maxPrice) =
          listSum e.bookEntries i (flat L 0 (e.askMin - 1)) +
          (listSum e.bookEntries i (L e.askMin ++ flat L (e.askMin + 1) o.price) +
            listSum e.bookEntries i (flat L (o.price + 1) maxPrice)) := by
        rw [flat_three L hlv1 hlp hp2, listSum_append, listSum_append, flat_cons L hlp]
      have hsn := submittedFor_snoc i P o
      have hai := hacc i
      rw [hL1] at hR15
      by_cases hio : i = o.id
      · have hbud := consumeBid_budget o e.bookEntries _ _ _ _ _ _ heq
        have hdls := dealsFor_le_sumSizes i ds
        rw [if_pos (by omega : o.id = i)] at hsn
        rw [if_pos (by omega : o.id = i)] at hR15
        omega
      · have hbal := consumeBid_balance o e.bookEntries _ _ _ _ _ _ heq hnd i
          (fun hh => hio hh)
        rw [show listSum e.bookEntries i ([] : List Nat) = 0 from rfl] at hbal
        rw [if_neg (fun hh => hio hh.symm)] at hsn
        rw [if_neg (show ¬ o.id = i from fun hh => hio hh.symm)] at hR15
        omega
    · -- id regime
      intro hnodup2
      rcases nodup_prefix_of_append hnodup2 with ⟨hndP, hnotin⟩
      have hidok := hido hndP
      have hnew : (eb.bookEntries (e1.curOrderID + 1)).id = o.id := R13
      have hmem2 : ∀ p k, k ∈ (if p = o.price then
          (if e.askMin ≤ o.price ∧ o.price ≤ o.price then [] else L o.price) ++
            [e1.curOrderID + 1]
          else if e.askMin ≤ p ∧ p ≤ o.price then [] else L p) →
          k = e1.curOrderID + 1 ∨ k ∈ L p := by
        intro p k hk
        by_cases hp : p = o.price
        · rw [if_pos hp, if_pos ⟨hlp, le_rfl⟩, List.nil_append] at hk
          exact Or.inl (List.mem_singleton.mp hk)
        · rw [if_neg hp] at hk
          exact Or.inr (hsub1 p k hk)
      have hidold : ∀ k, k ≤ e.curOrderID →
          (eb.bookEntries k).id = (e.bookEntries k).id := by
        intro k hk
        have h1 := (R12 k (by rw [hcur2]; omega)).1
        rw [h1, hbook]
      refine ⟨?_, ?_⟩
      · intro p k hk
        rw [limitIds_snoc]
        simp only [withBidMax_bookEntries]
        rcases hmem2 p k hk with rfl | hold
        · rw [hnew]
          exact List.mem_append_right _ (List.mem_singleton_self _)
        · refine List.mem_append_left _ ?_
          rw [hidold k (hwf.bounded p k hold)]
          exact hidok.mem p k hold
      · intro p q k j hk hj hij
        simp only [withBidMax_bookEntries] at hij
        rcases hmem2 p k hk with rfl | holdk
        · rcases hmem2 q j hj with rfl | holdj
          · rfl
          · exfalso
            rw [hnew, hidold j (hwf.bounded q j holdj)] at hij
            exact hnotin (hij ▸ hidok.mem q j holdj)
        · rcases hmem2 q j hj with rfl | holdj
          · exfalso
            rw [hnew, hidold k (hwf.bounded p k holdk)] at hij
            exact hnotin (hij.symm ▸ hidok.mem p k holdk)
          · rw [hidold k (hwf.bounded p k holdk),
              hidold j (hwf.bounded q j holdj)] at hij
            exact hidok.inj p q k j holdk holdj hij
  · -- (iii) no crossing: the order rests directly
    subst he2
    rcases restOrder_inv hr hwf.chain hwf.bounded hwf.disj hwf.tails hwf.fresh hwf.hi
        hp1 hnow with
      ⟨R1, R2, R3, R4, R5, R6, R7, R8, R9, R10, R11, R12, R13, R14, R15⟩
    refine ⟨fun q => if q = o.price then L o.price ++ [e.curOrderID + 1] else L q,
      ⟨R1, R2, R3, R4, R5, R6, huc.1, huc.2.1, huc.2.2⟩, ?_, ?_, ?_⟩
    · show eb.curOrderID ≤ P.length + 1
      rw [R7]
      omega
    · intro i
      simp only [withBidMax_deals, withBidMax_bookEntries]
      have hR15 := R15 i
      have hsn := submittedFor_snoc i P o
      have hai := hacc i
      have hgd : dealsFor i eb.deals = dealsFor i e.deals := by rw [R11]
      by_cases hio : i = o.id
      · rw [if_pos (by omega : o.id = i)] at hsn hR15
        omega
      · rw [if_neg (fun hh => hio hh.symm)] at hsn hR15
        omega
    · intro hnodup2
      rcases nodup_prefix_of_append hnodup2 with ⟨hndP, hnotin⟩
      have hidok := hido hndP
      have hmem2 : ∀ p k, k ∈ (if p = o.price then L o.price ++ [e.curOrderID + 1]
          else L p) → k = e.curOrderID + 1 ∨ k ∈ L p := by
        intro p k hk
        by_cases hp : p = o.price
        · rw [if_pos hp] at hk
          rcases List.mem_append.mp hk with h1 | h2
          · rw [hp]
            exact Or.inr h1
          · exact Or.inl (List.mem_singleton.mp h2)
        · rw [if_neg hp] at hk
          exact Or.inr hk
      have hidold : ∀ k, k ≤ e.curOrderID →
          (eb.bookEntries k).id = (e.bookEntries k).id := by
        intro k hk
        exact (R12 k (by omega)).1
      refine ⟨?_, ?_⟩
      · intro p k hk
        rw [limitIds_snoc]
        simp only [withBidMax_bookEntries]
        rcases hmem2 p k hk with rfl | hold
        · rw [R13]
          exact List.mem_append_right _ (List.mem_singleton_self _)
        · refine List.mem_append_left _ ?_
          rw [hidold k (hwf.bounded p k hold)]
          exact hidok.mem p k hold
      · intro p q k j hk hj hij
        simp only [withBidMax_bookEntries] at hij
        rcases hmem2 p k hk with rfl | holdk
        · rcases hmem2 q j hj with rfl | holdj
          · rfl
          · exfalso
            rw [R13, hidold j (hwf.bounded q j holdj)] at hij
            exact hnotin (hij ▸ hidok.mem q j holdj)
        · rcases hmem2 q j hj with rfl | holdj
          · exfalso
            rw [R13, hidold k (hwf.bounded p k holdk)] at hij
            exact hnotin (hij.symm ▸ hidok.mem p k holdk)
          · rw [hidold k (hwf.bounded p k holdk),
              hidold j (hwf.bounded q j holdj)] at hij
            exact hidok.inj p q k j holdk holdj hij


/-- Preservation of the run invariant by a successful sell-side `Limit`. -/
theorem Limit_inv_ask {fuel : Nat} {e e2 : Engine} {o : Order} {oid : Nat}
    {L : Nat → List Nat} {P : List Op}
    (hwf : EWF e L) (hcap : e.curOrderID ≤ P.length) (hacc : ACC e L P)
    (hido : (limitIds P).Nodup → IDOK e L P)
    (hlen : P.length + 1 < 2 ^ 64)
    (hvo : ValidOp (Op.limit o)) (hside : o.side = Side.Ask)
    (h : Limit fuel e o = .ok (e2, oid)) :
    ∃ L2, EWF e2 L2 ∧ e2.curOrderID ≤ P.length + 1 ∧ ACC e2 L2 (P ++ [Op.limit o]) ∧
      ((limitIds (P ++ [Op.limit o])).Nodup → IDOK e2 L2 (P ++ [Op.limit o])) := by
  rcases hvo with ⟨hsz, hp1, hp2⟩
  rw [show minPrice = 1 from rfl] at hp1
  have hnow : e.curOrderID + 1 < 2 ^ 64 := by omega
  have huc := Limit_uncrossed h hwf.cross hwf.amax hwf.bmax
  rcases Limit_ask_cases hside h with
      ⟨hlp, hmx, hw⟩ | ⟨e1, rem, eb, hlp, hmx, hw, hr, he2⟩ | ⟨eb, hnlp, hr, he2⟩
  · -- (i) fully filled inside the scan
    have hwc := askWalk_consume o fuel e e.bidMax ((e.pricePoints e.bidMax).listHead)
      o.size (.filled e2 oid) (L e.bidMax) L hw rfl hlp hmx hp1
      (hwf.chain e.bidMax) (fun q _ => hwf.chain q)
    rcases hwc with
      ⟨e1x, remx, dsx, hres, -⟩ |
      ⟨e1x, oidx, m, ds, f2, lm, hres, hoid, hm1, hm2, heq, hdeals, hbook, hbidm,
        haskm, hcur2, hppA, hppB, hheadm, htailm, pre, hpre⟩
    · exact absurd hres (by simp)
    · cases hres
      rcases consumeAsk_state o e.bookEntries _ _ _ _ _ _ heq with ⟨hstp, hstf, -⟩
      have hperm := flatDown_perm L (e.bidMax - 1) o.price
      have hpermm := flatDown_perm L (m - 1) o.price
      have hpre2 : pre ++ lm = L m := by
        by_cases hm : m = e.bidMax
        · rw [if_pos hm] at hpre
          rw [hm]
          exact hpre
        · rw [if_neg hm] at hpre
          exact hpre
      have hlmsub : ∀ k ∈ lm, k ∈ L m := by
        intro k hk
        rw [← hpre2]
        exact List.mem_append_right pre hk
      have hchm : Chain f2 lm.head? lm := by
        have hch0 : Chain e.bookEntries ((e.pricePoints m).listHead) (pre ++ lm) := by
          rw [hpre2]
          exact hwf.chain m
        exact chain_congr_mem (chain_append_right pre hch0) (fun j _ => (hstp j).2.1)
      have hscb : ∀ k, k ∈ L e.bidMax ++ flatDown L (e.bidMax - 1) o.price →
          k ≤ e.curOrderID := by
        intro k hk
        rcases List.mem_append.mp hk with hk1 | hk2
        · exact hwf.bounded _ k hk1
        · rcases mem_flat.mp (hperm.mem_iff.mp hk2) with ⟨q, -, -, hkq⟩
          exact hwf.bounded q k hkq
      have hnotin_scan : ∀ q, (q < o.price ∨ e.bidMax < q) → ∀ k ∈ L q,
          k ∉ (L e.bidMax ++ flatDown L (e.bidMax - 1) o.price) := by
        intro q hq k hk hmem
        rcases List.mem_append.mp hmem with h1 | h2
        · exact hwf.disj e.bidMax q (by omega) k h1 hk
        · rcases mem_flat.mp (hperm.mem_iff.mp h2) with ⟨r, hr1, hr2, hkr⟩
          exact hwf.disj r q (by omega) k hkr hk
      have hsub2 : ∀ p k,
          k ∈ (if p = m then lm else if m < p ∧ p ≤ e.bidMax then [] else L p) →
          k ∈ L p := by
        intro p k hk
        by_cases hpm : p = m
        · rw [if_pos hpm] at hk
          rw [hpm]
          exact hlmsub k hk
        · rw [if_neg hpm] at hk
          by_cases hin : m < p ∧ p ≤ e.bidMax
          · rw [if_pos hin] at hk
            exact absurd hk (List.not_mem_nil k)
          · rw [if_neg hin] at hk
            exact hk
      refine ⟨fun q => if q = m then lm else if m < q ∧ q ≤ e.bidMax then [] else L q,
        ⟨?_, ?_, ?_, ?_, ?_, ?_, huc.1, huc.2.1, huc.2.2⟩, ?_, ?_, ?_⟩
      · -- chain
        intro p
        show Chain e2.bookEntries (e2.pricePoints p).listHead
          (if p = m then lm else if m < p ∧ p ≤ e.bidMax then [] else L p)
        by_cases hpm : p = m
        · rw [if_pos hpm, hpm, hbook, hheadm]
          exact hchm
        · rw [if_neg hpm]
          by_cases hin : m < p ∧ p ≤ e.bidMax
          · rw [if_pos hin, hbook, (hppB p hin.1 hin.2).1]
            exact Chain.nil
          · rw [if_neg hin, hbook, hppA p (by omega)]
            exact chain_congr_mem (hwf.chain p) (fun j _ => (hstp j).2.1)
      · -- bounded
        intro p k hk
        have hk2 := hwf.bounded p k (hsub2 p k hk)
        rw [hcur2, inc64_small hnow]
        omega
      · -- disjoint
        intro p q hpq k hk1 hk2
        exact hwf.disj p q hpq k (hsub2 p k hk1) (hsub2 q k hk2)
      · -- tails
        intro p hhd
        show (e2.pricePoints p).listTail =
          (if p = m then lm else if m < p ∧ p ≤ e.bidMax then [] else L p).getLast?
        by_cases hpm : p = m
        · rw [if_pos hpm, hpm, htailm]
          rw [hpm] at hhd
          have hlmne : lm ≠ [] := by
            intro hnil
            rw [hheadm, hnil] at hhd
            exact hhd rfl
          have hLmne : (e.pricePoints m).listHead ≠ none := by
            rw [chain_head (hwf.chain m), ← hpre2]
            cases pre with
            | nil =>
              rw [List.nil_append]
              cases lm with
              | nil => exact absurd rfl hlmne
              | cons a l => simp
            | cons a l => simp
          rw [hwf.tails m hLmne, ← hpre2, List.getLast?_append_of_ne_nil pre hlmne]
        · rw [if_neg hpm]
          by_cases hin : m < p ∧ p ≤ e.bidMax
          · rw [(hppB p hin.1 hin.2).1] at hhd
            exact absurd rfl hhd
          · rw [if_neg hin, hppA p (by omega)]
            rw [hppA p (by omega)] at hhd
            exact hwf.tails p hhd
      · -- fresh slots
        intro k hk
        rw [hcur2, inc64_small hnow] at hk
        rw [hbook, hstf k (fun hmem => by have := hscb k hmem; omega)]
        exact hwf.fresh k (by omega)
      · -- nothing above maxPrice
        intro p hp
        show (if p = m then lm else if m < p ∧ p ≤ e.bidMax then [] else L p) = []
        rw [if_neg (by omega : ¬ p = m), if_neg (by omega : ¬ (m < p ∧ p ≤ e.bidMax))]
        exact hwf.hi p hp
      · -- cursor bound
        rw [hcur2, inc64_small hnow]
        omega
      · -- accounting
        intro i
        have hndA : (L e.bidMax ++ flatDown L (e.bidMax - 1) o.price).Nodup := by
          refine List.Nodup.append (chain_nodup (hwf.chain e.bidMax))
            (hperm.nodup_iff.mpr (scanned_nodup hwf o.price (e.bidMax - 1))) ?_
          intro k hk1 hk2
          rcases mem_flat.mp (hperm.mem_iff.mp hk2) with ⟨q, hq1, hq2, hkq⟩
          exact hwf.disj e.bidMax q (by omega) k hk1 hkq
        have hgd : dealsFor i e2.deals = dealsFor i e.deals + dealsFor i ds := by
          rw [hdeals, dealsFor_append]
        have hpre_e : listSum f2 i (flat L 0 (o.price - 1)) =
            listSum e.bookEntries i (flat L 0 (o.price - 1)) := by
          apply listSum_congr
          intro k hk
          rcases mem_flat.mp hk with ⟨q, hq1, hq2, hkq⟩
          rw [hstf k (hnotin_scan q (Or.inl (by omega)) k hkq)]
          exact ⟨rfl, rfl⟩
        have hpost_e : listSum f2 i (flat L (e.bidMax + 1) maxPrice) =
            listSum e.bookEntries i (flat L (e.bidMax + 1) maxPrice) := by
          apply listSum_congr
          intro k hk
          rcases mem_flat.mp hk with ⟨q, hq1, hq2, hkq⟩
          rw [hstf k (hnotin_scan q (Or.inr (by omega)) k hkq)]
          exact ⟨rfl, rfl⟩
        have hscansum : listSum e.bookEntries i
            (L e.bidMax ++ flatDown L (e.bidMax - 1) o.price) =
            listSum e.bookEntries i (flat L o.price e.bidMax) := by
          rw [listSum_append, listSum_perm e.bookEntries i hperm,
            flat_split L hlp (by omega : 1 ≤ e.bidMax)
              (by omega : e.bidMax ≤ e.bidMax + 1),
            listSum_append, flat_cons L (le_refl e.bidMax),
            flat_nil L (by omega : e.bidMax < e.bidMax + 1), List.append_nil]
          omega
        have hCL : listSum e.bookEntries i (flat L 0 maxPrice) =
            listSum e.bookEntries i (flat L 0 (o.price - 1)) +
            (listSum e.bookEntries i (flat L o.price e.bidMax) +
              listSum e.bookEntries i (flat L (e.bidMax + 1) maxPrice)) := by
          rw [flat_three L hp1 hlp hmx, listSum_append, listSum_append]
        have hmidpre : flat
            (fun q => if q = m then lm else if m < q ∧ q ≤ e.bidMax then [] else L q)
            o.price (m - 1) = flat L o.price (m - 1) := by
          apply flat_congr
          intro q h1 h2
          show (if q = m then lm else if m < q ∧ q ≤ e.bidMax then [] else L q) = L q
          rw [if_neg (by omega : ¬ q = m), if_neg (by omega : ¬ (m < q ∧ q ≤ e.bidMax))]
        have hmidempty : flat
            (fun q => if q = m then lm else if m < q ∧ q ≤ e.bidMax then [] else L q)
            (m + 1) e.bidMax = [] := by
          apply flat_empty
          intro q h1 h2
          show (if q = m then lm else if m < q ∧ q ≤ e.bidMax then [] else L q) = []
          rw [if_neg (by omega : ¬ q = m),
            if_pos (show m < q ∧ q ≤ e.bidMax from ⟨by omega, by omega⟩)]
        have hmidL2 : flat
            (fun q => if q = m then lm else if m < q ∧ q ≤ e.bidMax then [] else L q)
            o.price e.bidMax = flat L o.price (m - 1) ++ lm := by
          rw [flat_split _ hm1 (by omega : 1 ≤ m) (by omega : m ≤ e.bidMax + 1),
            hmidpre, flat_cons _ hm2, hmidempty, List.append_nil]
          show _ ++ (if m = m then lm else if m < m ∧ m ≤ e.bidMax then [] else L m) = _
          rw [if_pos rfl]
        have hpreL2 : flat
            (fun q => if q = m then lm else if m < q ∧ q ≤ e.bidMax then [] else L q)
            0 (o.price - 1) = flat L 0 (o.price - 1) := by
          apply flat_congr
          intro q h1 h2
          show (if q = m then lm else if m < q ∧ q ≤ e.bidMax then [] else L q) = L q
          rw [if_neg (by omega : ¬ q = m), if_neg (by omega : ¬ (m < q ∧ q ≤ e.bidMax))]
        have hpostL2 : flat
            (fun q => if q = m then lm else if m < q ∧ q ≤ e.bidMax then [] else L q)
            (e.bidMax + 1) maxPrice = flat L (e.bidMax + 1) maxPrice := by
          apply flat_congr
          intro q h1 h2
          show (if q = m then lm else if m < q ∧ q ≤ e.bidMax then [] else L q) = L q
          rw [if_neg (by omega : ¬ q = m), if_neg (by omega : ¬ (m < q ∧ q ≤ e.bidMax))]
        have hlo : listSum f2 i (lm ++ flatDown L (m - 1) o.price) =
            listSum f2 i (flat L o.price (m - 1)) + listSum f2 i lm := by
          rw [listSum_append, listSum_perm f2 i hpermm]
          omega
        have hC2 : listSum e2.bookEntries i (flat
            (fun q => if q = m then lm else if m < q ∧ q ≤ e.bidMax then [] else L q)
            0 maxPrice) =
            listSum e.bookEntries i (flat L 0 (o.price - 1)) +
            (listSum f2 i (lm ++ flatDown L (m - 1) o.price) +
              listSum e.bookEntries i (flat L (e.bidMax + 1) maxPrice)) := by
          rw [hbook, flat_three _ hp1 hlp hmx, hpreL2, hmidL2, hpostL2,
            listSum_append, listSum_append, listSum_append, hpre_e, hpost_e, hlo]
        have hsn := submittedFor_snoc i P o
        have hai := hacc i
        by_cases hio : i = o.id
        · have hbud := consumeAsk_budget o e.bookEntries _ _ _ _ _ _ heq
          have hdls := dealsFor_le_sumSizes i ds
          have hlole := consumeAsk_lo_le o e.bookEntries heq i
          rw [if_pos (by omega : o.id = i)] at hsn
          omega
        · have hbal := consumeAsk_balance o e.bookEntries _ _ _ _ _ _ heq hndA i
            (fun hh => hio hh)
          rw [if_neg (fun hh => hio hh.symm)] at hsn
          omega
      · -- id regime
        intro hnodup2
        rcases nodup_prefix_of_append hnodup2 with ⟨hndP, hnotin⟩
        have hidok := hido hndP
        refine ⟨?_, ?_⟩
        · intro p k hk
          have hk2 := hsub2 p k hk
          rw [limitIds_snoc]
          refine List.mem_append_left _ ?_
          have hid : (e2.bookEntries k).id = (e.bookEntries k).id := by
            rw [hbook]
            exact (hstp k).1
          rw [hid]
          exact hidok.mem p k hk2
        · intro p q k j hk hj hij
          have hidk : (e2.bookEntries k).id = (e.bookEntries k).id := by
            rw [hbook]; exact (hstp k).1
          have hidj : (e2.bookEntries j).id = (e.bookEntries j).id := by
            rw [hbook]; exact (hstp j).1
          rw [hidk, hidj] at hij
          exact hidok.inj p q k j (hsub2 p k hk) (hsub2 q j hj) hij
  · -- (ii) partially filled: the remainder rests
    subst he2
    have hwc := askWalk_consume o fuel e e.bidMax ((e.pricePoints e.bidMax).listHead)
      o.size (.rest e1 rem) (L e.bidMax) L hw rfl hlp hmx hp1
      (hwf.chain e.bidMax) (fun q _ => hwf.chain q)
    rcases hwc with
      ⟨e1x, remx, ds, hres, heq, hdeals, hbook, hbidm, haskm, hcur2, hppA, hppB⟩ |
      ⟨e1x, oidx, m, dsx, f2x, lmx, hres, -⟩
    swap
    · exact absurd hres (by simp)
    cases hres
    have hperm := flatDown_perm L (e.bidMax - 1) o.price
    have hch1 : ∀ p, Chain e1.bookEntries (e1.pricePoints p).listHead
        (if o.price ≤ p ∧ p ≤ e.bidMax then [] else L p) := by
      intro p
      by_cases hin : o.price ≤ p ∧ p ≤ e.bidMax
      · rw [if_pos hin, (hppB p hin.1 hin.2).1]
        exact Chain.nil
      · rw [if_neg hin, hppA p hin, hbook]
        exact hwf.chain p
    have hbounded1 : ∀ p, ∀ k ∈ (if o.price ≤ p ∧ p ≤ e.bidMax then [] else L p),
        k ≤ e1.curOrderID := by
      intro p k hk
      rw [hcur2]
      by_cases hin : o.price ≤ p ∧ p ≤ e.bidMax
      · rw [if_pos hin] at hk
        exact absurd hk (List.not_mem_nil k)
      · rw [if_neg hin] at hk
        exact hwf.bounded p k hk
    have hsub1 : ∀ p k, k ∈ (if o.price ≤ p ∧ p ≤ e.bidMax then [] else L p) →
        k ∈ L p := by
      intro p k hk
      by_cases hin : o.price ≤ p ∧ p ≤ e.bidMax
      · rw [if_pos hin] at hk
        exact absurd hk (List.not_mem_nil k)
      · rw [if_neg hin] at hk
        exact hk
    have hdisj1 : ∀ p q, p ≠ q →
        ∀ k, k ∈ (if o.price ≤ p ∧ p ≤ e.bidMax then [] else L p) →
          k ∉ (if o.price ≤ q ∧ q ≤ e.bidMax then [] else L q) := by
      intro p q hpq k hk1 hk2
      exact hwf.disj p q hpq k (hsub1 p k hk1) (hsub1 q k hk2)
    have htails1 : ∀ p, (e1.pricePoints p).listHead ≠ none →
        (e1.pricePoints p).listTail =
          (if o.price ≤ p ∧ p ≤ e.bidMax then [] else L p).getLast? := by
      intro p hhd
      by_cases hin : o.price ≤ p ∧ p ≤ e.bidMax
      · rw [(hppB p hin.1 hin.2).1] at hhd
        exact absurd rfl hhd
      · rw [if_neg hin, hppA p hin]
        rw [hppA p hin] at hhd
        exact hwf.tails p hhd
    have hfresh1 : ∀ k, e1.curOrderID < k → e1.bookEntries k = OrderBookEntry.zero := by
      intro k hk
      rw [hcur2] at hk
      rw [hbook]
      exact hwf.fresh k hk
    have hhi1 : ∀ p, maxPrice < p →
        (if o.price ≤ p ∧ p ≤ e.bidMax then [] else L p) = [] := by
      intro p hp
      rw [if_neg (by omega : ¬ (o.price ≤ p ∧ p ≤ e.bidMax))]
      exact hwf.hi p hp
    rcases restOrder_inv hr hch1 hbounded1 hdisj1 htails1 hfresh1 hhi1 hp1
        (by rw [hcur2]; exact hnow) with
      ⟨R1, R2, R3, R4, R5, R6, R7, R8, R9, R10, R11, R12, R13, R14, R15⟩
    refine ⟨fun q => if q = o.price then
        (if o.price ≤ o.price ∧ o.price ≤ e.bidMax then [] else L o.price) ++
          [e1.curOrderID + 1]
      else if o.price ≤ q ∧ q ≤ e.bidMax then [] else L q,
      ⟨R1, R2, R3, R4, R5, R6, huc.1, huc.2.1, huc.2.2⟩, ?_, ?_, ?_⟩
    · -- cursor bound
      show eb.curOrderID ≤ P.length + 1
      rw [R7, hcur2]
      omega
    · -- accounting
      intro i
      simp only [withAskMin_deals, withAskMin_bookEntries]
      have hndA : (L e.bidMax ++ flatDown L (e.bidMax - 1) o.price).Nodup := by
        refine List.Nodup.append (chain_nodup (hwf.chain e.bidMax))
          (hperm.nodup_iff.mpr (scanned_nodup hwf o.price (e.bidMax - 1))) ?_
        intro k hk1 hk2
        rcases mem_flat.mp (hperm.mem_iff.mp hk2) with ⟨q, hq1, hq2, hkq⟩
        exact hwf.disj e.bidMax q (by omega) k hk1 hkq
      have hgd : dealsFor i eb.deals = dealsFor i e.deals + dealsFor i ds := by
        rw [R11, hdeals, dealsFor_append]
      have hR15 := R15 i
      have hL1pre : flat (fun q => if o.price ≤ q ∧ q ≤ e.bidMax then [] else L q)
          0 (o.price - 1) = flat L 0 (o.price - 1) := by
        apply flat_congr
        intro q h1 h2
        show (if o.price ≤ q ∧ q ≤ e.bidMax then [] else L q) = L q
        rw [if_neg (by omega : ¬ (o.price ≤ q ∧ q ≤ e.bidMax))]
      have hL1post : flat (fun q => if o.price ≤ q ∧ q ≤ e.bidMax then [] else L q)
          (e.bidMax + 1) maxPrice = flat L (e.bidMax + 1) maxPrice := by
        apply flat_congr
        intro q h1 h2
        show (if o.price ≤ q ∧ q ≤ e.bidMax then [] else L q) = L q
        rw [if_neg (by omega : ¬ (o.price ≤ q ∧ q ≤ e.bidMax))]
      have hL1mid : flat (fun q => if o.price ≤ q ∧ q ≤ e.bidMax then [] else L q)
          o.price e.bidMax = [] := by
        apply flat_empty
        intro q h1 h2
        show (if o.price ≤ q ∧ q ≤ e.bidMax then [] else L q) = []
        rw [if_pos (⟨h1, h2⟩ : o.price ≤ q ∧ q ≤ e.bidMax)]
      have hL1 : listSum e1.bookEntries i
          (flat (fun q => if o.price ≤ q ∧ q ≤ e.bidMax then [] else L q) 0 maxPrice) =
          listSum e.bookEntries i (flat L 0 (o.price - 1)) +
          listSum e.bookEntries i (flat L (e.bidMax + 1) maxPrice) := by
        rw [hbook, flat_three _ hp1 hlp hmx, hL1pre, hL1mid, hL1post,
          listSum_append, listSum_append]
        rw [show listSum e.bookEntries i ([] : List Nat) = 0 from rfl]
        omega
      have hscansum : listSum e.bookEntries i
          (L e.bidMax ++ flatDown L (e.bidMax - 1) o.price) =
          listSum e.bookEntries i (flat L o.price e.bidMax) := by
        rw [listSum_append, listSum_perm e.bookEntries i hperm,
          flat_split L hlp (by omega : 1 ≤ e.bidMax)
            (by omega : e.bidMax ≤ e.bidMax + 1),
          listSum_append, flat_cons L (le_refl e.bidMax),
          flat_nil L (by omega : e.bidMax < e.bidMax + 1), List.append_nil]
        omega
      have hCL : listSum e.bookEntries i (flat L 0 maxPrice) =
          listSum e.bookEntries i (flat L 0 (o.price - 1)) +
          (listSum e.bookEntries i (flat L o.price e.bidMax) +
            listSum e.bookEntries i (flat L (e.bidMax + 1) maxPrice)) := by
        rw [flat_three L hp1 hlp hmx, listSum_append, listSum_append]
      have hsn := submittedFor_snoc i P o
      have hai := hacc i
      rw [hL1] at hR15
      by_cases hio : i = o.id
      · have hbud := consumeAsk_budget o e.bookEntries _ _ _ _ _ _ heq
        have hdls := dealsFor_le_sumSizes i ds
        rw [if_pos (by omega : o.id = i)] at hsn
        rw [if_pos (by omega : o.id = i)] at hR15
        omega
      · have hbal := consumeAsk_balance o e.bookEntries _ _ _ _ _ _ heq hndA i
          (fun hh => hio hh)
        rw [show listSum e.bookEntries i ([] : List Nat) = 0 from rfl] at hbal
        rw [if_neg (fun hh => hio hh.symm)] at hsn
        rw [if_neg (show ¬ o.id = i from fun hh => hio hh.symm)] at hR15
        omega
    · -- id regime
      intro hnodup2
      rcases nodup_prefix_of_append hnodup2 with ⟨hndP, hnotin⟩
      have hidok := hido hndP
      have hnew : (eb.bookEntries (e1.curOrderID + 1)).id = o.id := R13
      have hmem2 : ∀ p k, k ∈ (if p = o.price then
          (if o.price ≤ o.price ∧ o.price ≤ e.bidMax then [] else L o.price) ++
            [e1.curOrderID + 1]
          else if o.price ≤ p ∧ p ≤ e.bidMax then [] else L p) →
          k = e1.curOrderID + 1 ∨ k ∈ L p := by
        intro p k hk
        by_cases hp : p = o.price
        · rw [if_pos hp, if_pos ⟨le_rfl, hlp⟩, List.nil_append] at hk
          exact Or.inl (List.mem_singleton.mp hk)
        · rw [if_neg hp] at hk
          exact Or.inr (hsub1 p k hk)
      have hidold : ∀ k, k ≤ e.curOrderID →
          (eb.bookEntries k).id = (e.bookEntries k).id := by
        intro k hk
        have h1 := (R12 k (by rw [hcur2]; omega)).1
        rw [h1, hbook]
      refine ⟨?_, ?_⟩
      · intro p k hk
        rw [limitIds_snoc]
        simp only [withAskMin_bookEntries]
        rcases hmem2 p k hk with rfl | hold
        · rw [hnew]
          exact List.mem_append_right _ (List.mem_singleton_self _)
        · refine List.mem_append_left _ ?_
          rw [hidold k (hwf.bounded p k hold)]
          exact hidok.mem p k hold
      · intro p q k j hk hj hij
        simp only [withAskMin_bookEntries] at hij
        rcases hmem2 p k hk with rfl | holdk
        · rcases hmem2 q j hj with rfl | holdj
          · rfl
          · exfalso
            rw [hnew, hidold j (hwf.bounded q j holdj)] at hij
            exact hnotin (hij ▸ hidok.mem q j holdj)
        · rcases hmem2 q j hj with rfl | holdj
          · exfalso
            rw [hnew, hidold k (hwf.bounded p k holdk)] at hij
            exact hnotin (hij.symm ▸ hidok.mem p k holdk)
          · rw [hidold k (hwf.bounded p k holdk),
              hidold j (hwf.bounded q j holdj)] at hij
            exact hidok.inj p q k j holdk holdj hij
  · -- (iii) no crossing: the order rests directly
    subst he2
    rcases restOrder_inv hr hwf.chain hwf.bounded hwf.disj hwf.tails hwf.fresh hwf.hi
        hp1 hnow with
      ⟨R1, R2, R3, R4, R5, R6, R7, R8, R9, R10, R11, R12, R13, R14, R15⟩
    refine ⟨fun q => if q = o.price then L o.price ++ [e.curOrderID + 1] else L q,
      ⟨R1, R2, R3, R4, R5, R6, huc.1, huc.2.1, huc.2.2⟩, ?_, ?_, ?_⟩
    · show eb.curOrderID ≤ P.length + 1
      rw [R7]
      omega
    · intro i
      simp only [withAskMin_deals, withAskMin_bookEntries]
      have hR15 := R15 i
      have hsn := submittedFor_snoc i P o
      have hai := hacc i
      have hgd : dealsFor i eb.deals = dealsFor i e.deals := by rw [R11]
      by_cases hio : i = o.id
      · rw [if_pos (by omega : o.id = i)] at hsn hR15
        omega
      · rw [if_neg (fun hh => hio hh.symm)] at hsn hR15
        omega
    · intro hnodup2
      rcases nodup_prefix_of_append hnodup2 with ⟨hndP, hnotin⟩
      have hidok := hido hndP
      have hmem2 : ∀ p k, k ∈ (if p = o.price then L o.price ++ [e.curOrderID + 1]
          else L p) → k = e.curOrderID + 1 ∨ k ∈ L p := by
        intro p k hk
        by_cases hp : p = o.price
        · rw [if_pos hp] at hk
          rcases List.mem_append.mp hk with h1 | h2
          · rw [hp]
            exact Or.inr h1
          · exact Or.inl (List.mem_singleton.mp h2)
        · rw [if_neg hp] at hk
          exact Or.inr hk
      have hidold : ∀ k, k ≤ e.curOrderID →
          (eb.bookEntries k).id = (e.bookEntries k).id := by
        intro k hk
        exact (R12 k (by omega)).1
      refine ⟨?_, ?_⟩
      · intro p k hk
        rw [limitIds_snoc]
        simp only [withAskMin_bookEntries]
        rcases hmem2 p k hk with rfl | hold
        · rw [R13]
          exact List.mem_append_right _ (List.mem_singleton_self _)
        · refine List.mem_append_left _ ?_
          rw [hidold k (hwf.bounded p k hold)]
          exact hidok.mem p k hold
      · intro p q k j hk hj hij
        simp only [withAskMin_bookEntries] at hij
        rcases hmem2 p k hk with rfl | holdk
        · rcases hmem2 q j hj with rfl | holdj
          · rfl
          · exfalso
            rw [R13, hidold j (hwf.bounded q j holdj)] at hij
            exact hnotin (hij ▸ hidok.mem q j holdj)
        · rcases hmem2 q j hj with rfl | holdj
          · exfalso
            rw [R13, hidold k (hwf.bounded p k holdk)] at hij
            exact hnotin (hij.symm ▸ hidok.mem p k holdk)
          · rw [hidold k (hwf.bounded p k holdk),
              hidold j (hwf.bounded q j holdj)] at hij
            exact hidok.inj p q k j holdk holdj hij


/-! ## Price-time priority through a complete `Limit` call -/

theorem flat_extract (L : Nat → List Nat) {a b p : Nat} (h1 : a ≤ p) (h2 : p ≤ b)
    (h3 : 1 ≤ p) :
    flat L a b = flat L a (p - 1) ++ (L p ++ flat L (p + 1) b) := by
  rw [flat_split L h1 h3 (by omega), flat_cons L h2]

theorem flatDown_extract (L : Nat → List Nat) :
    ∀ (a : Nat) {b p : Nat}, b ≤ p → p ≤ a → 1 ≤ b →
      flatDown L a b = flatDown L a (p + 1) ++ (L p ++ flatDown L (p - 1) b) := by
  intro a
  induction a with
  | zero =>
    intro b p h1 h2 h3
    exact absurd h1 (by omega)
  | succ n ih =>
    intro b p h1 h2 h3
    by_cases hp : p = n + 1
    · subst hp
      rw [flatDown_nil L (by omega : n + 1 < n + 1 + 1), List.nil_append,
        flatDown_cons L h3 (by omega : b ≤ n + 1)]
    · have hpn : p ≤ n := by omega
      rw [flatDown_cons L h3 (by omega : b ≤ n + 1)]
      simp only [Nat.add_sub_cancel]
      rw [ih h1 hpn h3,
        flatDown_cons L (by omega : 1 ≤ p + 1) (by omega : p + 1 ≤ n + 1)]
      simp only [Nat.add_sub_cancel, List.append_assoc]

theorem restOrder_deals {e eb : Engine} {o : Order} {osz oid : Nat}
    (h : restOrder e o osz = .ok (eb, oid)) : eb.deals = e.deals := by
  rcases restOrder_ok_cases h with ⟨-, -, -, hins⟩
  rcases ppInsertOrder_ok_cases hins with ⟨-, rfl⟩ | ⟨t, -, -, rfl⟩ <;> simp

theorem bid_scan_cases (L : Nat → List Nat) (p askMin price : Nat)
    (hlp : askMin ≤ price) :
    (∃ X Y, L askMin ++ flat L (askMin + 1) price = X ++ (L p ++ Y) ∧
      ∀ k ∈ X, ∃ q, q ≠ p ∧ k ∈ L q) ∨
    (∀ k ∈ L askMin ++ flat L (askMin + 1) price, ∃ q, q ≠ p ∧ k ∈ L q) := by
  by_cases hin : askMin ≤ p ∧ p ≤ price
  · left
    by_cases hpa : p = askMin
    · refine ⟨[], flat L (askMin + 1) price, ?_, ?_⟩
      · rw [List.nil_append, hpa]
      · intro k hk
        exact absurd hk (List.not_mem_nil k)
    · refine ⟨L askMin ++ flat L (askMin + 1) (p - 1), flat L (p + 1) price, ?_, ?_⟩
      · rw [flat_extract L (by omega : askMin + 1 ≤ p) hin.2 (by omega : 1 ≤ p),
          List.append_assoc]
      · intro k hk
        rcases List.mem_append.mp hk with hk1 | hk2
        · exact ⟨askMin, fun hh => hpa (hh.symm ▸ rfl), hk1⟩
        · rcases mem_flat.mp hk2 with ⟨q, hq1, hq2, hkq⟩
          exact ⟨q, by omega, hkq⟩
  · right
    intro k hk
    rcases List.mem_append.mp hk with hk1 | hk2
    · exact ⟨askMin, by omega, hk1⟩
    · rcases mem_flat.mp hk2 with ⟨q, hq1, hq2, hkq⟩
      exact ⟨q, by omega, hkq⟩

theorem ask_scan_cases (L : Nat → List Nat) (p bidMax price : Nat)
    (hlp : price ≤ bidMax) (hp1 : 1 ≤ price) :
    (∃ X Y, L bidMax ++ flatDown L (bidMax - 1) price = X ++ (L p ++ Y) ∧
      ∀ k ∈ X, ∃ q, q ≠ p ∧ k ∈ L q) ∨
    (∀ k ∈ L bidMax ++ flatDown L (bidMax - 1) price, ∃ q, q ≠ p ∧ k ∈ L q) := by
  by_cases hin : price ≤ p ∧ p ≤ bidMax
  · left
    by_cases hpa : p = bidMax
    · refine ⟨[], flatDown L (bidMax - 1) price, ?_, ?_⟩
      · rw [List.nil_append, hpa]
      · intro k hk
        exact absurd hk (List.not_mem_nil k)
    · refine ⟨L bidMax ++ flatDown L (bidMax - 1) (p + 1),
        flatDown L (p - 1) price, ?_, ?_⟩
      · rw [flatDown_extract L (bidMax - 1) hin.1 (by omega : p ≤ bidMax - 1) hp1,
          List.append_assoc]
      · intro k hk
        rcases List.mem_append.mp hk with hk1 | hk2
        · exact ⟨bidMax, fun hh => hpa (hh.symm ▸ rfl), hk1⟩
        · rcases mem_flat.mp
            ((flatDown_perm L (bidMax - 1) (p + 1)).mem_iff.mp hk2) with
            ⟨q, hq1, hq2, hkq⟩
          exact ⟨q, by omega, hkq⟩
  · right
    intro k hk
    rcases List.mem_append.mp hk with hk1 | hk2
    · exact ⟨bidMax, by omega, hk1⟩
    · rcases mem_flat.mp
        ((flatDown_perm L (bidMax - 1) price).mem_iff.mp hk2) with ⟨q, hq1, hq2, hkq⟩
      exact ⟨q, by omega, hkq⟩

theorem consume_c4_bid {o : Order} {e : Engine} {L : Nat → List Nat}
    {p a b : Nat} {l1 l2 l3 : List Nat} {osz rem : Nat} {ds : List Deal}
    {f2 : Nat → OrderBookEntry} {lo : List Nat} {S : List Nat}
    (hdisj : ∀ q r, q ≠ r → ∀ k, k ∈ L q → k ∉ L r)
    (hndp : (L p).Nodup)
    (hinj : ∀ q r k j, k ∈ L q → j ∈ L r →
      (e.bookEntries k).id = (e.bookEntries j).id → k = j)
    (hno : ∀ q k, k ∈ L q → (e.bookEntries k).id ≠ o.id)
    (hLp : L p = l1 ++ a :: (l2 ++ b :: l3))
    (hcase : (∃ X Y, S = X ++ (L p ++ Y) ∧ ∀ k ∈ X, ∃ q, q ≠ p ∧ k ∈ L q) ∨
      (∀ k ∈ S, ∃ q, q ≠ p ∧ k ∈ L q))
    (heq : consumeBid o e.bookEntries osz S = (ds, rem, f2, lo)) :
    ∀ n, (∃ d ∈ ds.take n, involves (e.bookEntries b).id d) →
      (e.bookEntries a).size = 0 ∨
      ∃ d ∈ ds.take n, involves (e.bookEntries a).id d ∧
        d.size = (e.bookEntries a).size := by
  have haL : a ∈ L p := by
    rw [hLp]
    exact List.mem_append_right _ (List.mem_cons_self _ _)
  have hbL : b ∈ L p := by
    rw [hLp]
    refine List.mem_append_right _ (List.mem_cons_of_mem _ ?_)
    exact List.mem_append_right _ (List.mem_cons_self _ _)
  have hob : o.id ≠ (e.bookEntries b).id := fun hh => hno p b hbL hh.symm
  have hanb : a ≠ b := by
    rw [hLp] at hndp
    have h2 := List.Nodup.of_append_right hndp
    rcases List.nodup_cons.mp h2 with ⟨hna, -⟩
    intro hab
    apply hna
    rw [hab]
    exact List.mem_append_right _ (List.mem_cons_self _ _)
  have hab2 : (e.bookEntries a).id ≠ (e.bookEntries b).id := by
    intro hh
    exact hanb (hinj p p a b haL hbL hh)
  rcases hcase with ⟨X, Y, hXY, hXmem⟩ | hout
  · have hS : S = (X ++ l1) ++ a :: ((l2 ++ b :: l3) ++ Y) := by
      rw [hXY, hLp]
      simp only [List.append_assoc, List.cons_append]
    rw [hS] at heq
    refine consumeBid_c4 o e.bookEntries a b hob hab2 (X ++ l1) ((l2 ++ b :: l3) ++ Y)
      osz ds rem f2 lo heq ?_
    intro k hk
    rcases List.mem_append.mp hk with hk1 | hk2
    · rcases hXmem k hk1 with ⟨q, hq, hkq⟩
      intro hh
      have hkb := hinj q p k b hkq hbL hh
      exact hdisj q p hq b (hkb ▸ hkq) hbL
    · have hkLp : k ∈ L p := by
        rw [hLp]
        exact List.mem_append_left _ hk2
      intro hh
      have hkb := hinj p p k b hkLp hbL hh
      rw [hLp] at hndp
      have hdisj2 := List.disjoint_of_nodup_append hndp
      refine hdisj2 hk2 ?_
      rw [hkb]
      exact List.mem_cons_of_mem _ (List.mem_append_right _ (List.mem_cons_self _ _))
  · rintro n ⟨d, hdn, hinv⟩
    exfalso
    have hdds : d ∈ ds := List.take_subset n ds hdn
    rcases consumeBid_deals o e.bookEntries _ _ _ _ _ _ heq d hdds with
      ⟨hdb, -, -, k, hkS, hdask, -⟩
    rcases hout k hkS with ⟨q, hq, hkq⟩
    rcases hinv with hinv1 | hinv2
    · rw [hdb] at hinv1
      exact hob hinv1
    · rw [hdask] at hinv2
      have hkb := hinj q p k b hkq hbL hinv2
      exact hdisj q p hq b (hkb ▸ hkq) hbL

theorem consume_c4_ask {o : Order} {e : Engine} {L : Nat → List Nat}
    {p a b : Nat} {l1 l2 l3 : List Nat} {osz rem : Nat} {ds : List Deal}
    {f2 : Nat → OrderBookEntry} {lo : List Nat} {S : List Nat}
    (hdisj : ∀ q r, q ≠ r → ∀ k, k ∈ L q → k ∉ L r)
    (hndp : (L p).Nodup)
    (hinj : ∀ q r k j, k ∈ L q → j ∈ L r →
      (e.bookEntries k).id = (e.bookEntries j).id → k = j)
    (hno : ∀ q k, k ∈ L q → (e.bookEntries k).id ≠ o.id)
    (hLp : L p = l1 ++ a :: (l2 ++ b :: l3))
    (hcase : (∃ X Y, S = X ++ (L p ++ Y) ∧ ∀ k ∈ X, ∃ q, q ≠ p ∧ k ∈ L q) ∨
      (∀ k ∈ S, ∃ q, q ≠ p ∧ k ∈ L q))
    (heq : consumeAsk o e.bookEntries osz S = (ds, rem, f2, lo)) :
    ∀ n, (∃ d ∈ ds.take n, involves (e.bookEntries b).id d) →
      (e.bookEntries a).size = 0 ∨
      ∃ d ∈ ds.take n, involves (e.bookEntries a).id d ∧
        d.size = (e.bookEntries a).size := by
  rcases consumeAsk_components heq with ⟨hB, hds⟩
  have hbid := consume_c4_bid hdisj hndp hinj hno hLp hcase hB
  have htk : ∀ n : Nat, ds.take n = ((consumeBid o e.bookEntries osz S).1.take n).map
      Deal.swap := by
    intro n
    rw [hds, List.map_take]
  rintro n ⟨d, hdn, hinv⟩
  rw [htk n] at hdn
  rcases List.mem_map.mp hdn with ⟨d0, hd0, rfl⟩
  rcases hbid n ⟨d0, hd0, (involves_swap _ _).mp hinv⟩ with hz | ⟨d1, hd1, hinv1, hsz1⟩
  · exact Or.inl hz
  · refine Or.inr ⟨Deal.swap d1, ?_, (involves_swap _ _).mpr hinv1, ?_⟩
    · rw [htk n]
      exact List.mem_map_of_mem _ hd1
    · rw [swap_size]
      exact hsz1

/-- FIFO consumption inside one `Limit` call, stated against the book lists. -/
theorem Limit_c4 {fuel : Nat} {e e2 : Engine} {o : Order} {oid : Nat}
    {L : Nat → List Nat} {p a b : Nat} {l1 l2 l3 : List Nat}
    (hwf : EWF e L)
    (hinj : ∀ q r k j, k ∈ L q → j ∈ L r →
      (e.bookEntries k).id = (e.bookEntries j).id → k = j)
    (hno : ∀ q k, k ∈ L q → (e.bookEntries k).id ≠ o.id)
    (hLp : L p = l1 ++ a :: (l2 ++ b :: l3))
    (hvo : ValidOp (Op.limit o))
    (h : Limit fuel e o = .ok (e2, oid)) :
    ∃ ds, e2.deals = e.deals ++ ds ∧
      ∀ n, (∃ d ∈ ds.take n, involves (e.bookEntries b).id d) →
        (e.bookEntries a).size = 0 ∨
        ∃ d ∈ ds.take n, involves (e.bookEntries a).id d ∧
          d.size = (e.bookEntries a).size := by
  rcases hvo with ⟨hsz, hp1, hp2⟩
  rw [show minPrice = 1 from rfl] at hp1
  have hndp : (L p).Nodup := chain_nodup (hwf.chain p)
  cases hside : o.side with
  | Bid =>
    rcases Limit_bid_cases hside h with
        ⟨hlp, hmx, hw⟩ | ⟨e1, rem, eb, hlp, hmx, hw, hr, he2⟩ | ⟨eb, hnlp, hr, he2⟩
    · rcases bidWalk_consume o fuel e e.askMin ((e.pricePoints e.askMin).listHead)
        o.size (.filled e2 oid) (L e.askMin) L hw rfl hlp hp2
        (hwf.chain e.askMin) (fun q _ => hwf.chain q) with
        ⟨e1x, remx, dsx, hres, -⟩ |
        ⟨e1x, oidx, m, ds, f2, lm, hres, -, -, -, heq, hdeals, -⟩
      · exact absurd hres (by simp)
      · cases hres
        exact ⟨ds, hdeals, consume_c4_bid hwf.disj hndp hinj hno hLp
          (bid_scan_cases L p e.askMin o.price hlp) heq⟩
    · rcases bidWalk_consume o fuel e e.askMin ((e.pricePoints e.askMin).listHead)
        o.size (.rest e1 rem) (L e.askMin) L hw rfl hlp hp2
        (hwf.chain e.askMin) (fun q _ => hwf.chain q) with
        ⟨e1x, remx, ds, hres, heq, hdeals, -⟩ |
        ⟨e1x, oidx, m, dsx, f2x, lmx, hres, -⟩
      swap
      · exact absurd hres (by simp)
      cases hres
      subst he2
      refine ⟨ds, ?_, consume_c4_bid hwf.disj hndp hinj hno hLp
        (bid_scan_cases L p e.askMin o.price hlp) heq⟩
      simp only [withBidMax_deals]
      rw [restOrder_deals hr, hdeals]
    · subst he2
      refine ⟨[], ?_, ?_⟩
      · simp only [withBidMax_deals]
        rw [restOrder_deals hr, List.append_nil]
      · rintro n ⟨d, hdn, -⟩
        rw [List.take_nil] at hdn
        exact absurd hdn (List.not_mem_nil d)
  | Ask =>
    rcases Limit_ask_cases hside h with
        ⟨hlp, hmx, hw⟩ | ⟨e1, rem, eb, hlp, hmx, hw, hr, he2⟩ | ⟨eb, hnlp, hr, he2⟩
    · rcases askWalk_consume o fuel e e.bidMax ((e.pricePoints e.bidMax).listHead)
        o.size (.filled e2 oid) (L e.bidMax) L hw rfl hlp hmx hp1
        (hwf.chain e.bidMax) (fun q _ => hwf.chain q) with
        ⟨e1x, remx, dsx, hres, -⟩ |
        ⟨e1x, oidx, m, ds, f2, lm, hres, -, -, -, heq, hdeals, -⟩
      · exact absurd hres (by simp)
      · cases hres
        exact ⟨ds, hdeals, consume_c4_ask hwf.disj hndp hinj hno hLp
          (ask_scan_cases L p e.bidMax o.price hlp hp1) heq⟩
    · rcases askWalk_consume o fuel e e.bidMax ((e.pricePoints e.bidMax).listHead)
        o.size (.rest e1 rem) (L e.bidMax) L hw rfl hlp hmx hp1
        (hwf.chain e.bidMax) (fun q _ => hwf.chain q) with
        ⟨e1x, remx, ds, hres, heq, hdeals, -⟩ |
        ⟨e1x, oidx, m, dsx, f2x, lmx, hres, -⟩
      swap
      · exact absurd hres (by simp)
      cases hres
      subst he2
      refine ⟨ds, ?_, consume_c4_ask hwf.disj hndp hinj hno hLp
        (ask_scan_cases L p e.bidMax o.price hlp hp1) heq⟩
      simp only [withAskMin_deals]
      rw [restOrder_deals hr, hdeals]
    · subst he2
      refine ⟨[], ?_, ?_⟩
      · simp only [withAskMin_deals]
        rw [restOrder_deals hr, List.append_nil]
      · rintro n ⟨d, hdn, -⟩
        rw [List.take_nil] at hdn
        exact absurd hdn (List.not_mem_nil d)


/-! ## Invariant preservation by `Cancel`, `step` and `run` -/

theorem Cancel_inv {e e2 : Engine} {oid : Nat} {L : Nat → List Nat} {P : List Op}
    (hwf : EWF e L) (hcap : e.curOrderID ≤ P.length) (hacc : ACC e L P)
    (hido : (limitIds P).Nodup → IDOK e L P)
    (h : Cancel e oid = .ok e2) :
    EWF e2 L ∧ e2.curOrderID ≤ P.length + 1 ∧ ACC e2 L (P ++ [Op.cancel oid]) ∧
      ((limitIds (P ++ [Op.cancel oid])).Nodup → IDOK e2 L (P ++ [Op.cancel oid])) := by
  rw [Cancel] at h
  split at h
  · have he2 : e2 = e.setBE oid ((e.bookEntries oid).withSize 0) :=
      ((Except.ok.injEq _ _).mp h).symm
    subst he2
    have hpt : ∀ k,
        ((e.setBE oid ((e.bookEntries oid).withSize 0)).bookEntries k).id =
          (e.bookEntries k).id ∧
        ((e.setBE oid ((e.bookEntries oid).withSize 0)).bookEntries k).next =
          (e.bookEntries k).next ∧
        ((e.setBE oid ((e.bookEntries oid).withSize 0)).bookEntries k).size ≤
          (e.bookEntries k).size := by
      intro k
      rw [setBE_bookEntries]
      by_cases hk : k = oid
      · subst hk
        rw [upd_same]
        exact ⟨rfl, rfl, by simp⟩
      · rw [upd_ne _ _ _ hk]
        exact ⟨rfl, rfl, le_rfl⟩
    have hlid : limitIds (P ++ [Op.cancel oid]) = limitIds P := by
      rw [limitIds_append, show limitIds [Op.cancel oid] = [] from rfl, List.append_nil]
    refine ⟨⟨?_, ?_, hwf.disj, ?_, ?_, hwf.hi, ?_, ?_, ?_⟩, ?_, ?_, ?_⟩
    · intro p
      rw [setBE_pricePoints]
      exact chain_congr_mem (hwf.chain p) (fun j _ => (hpt j).2.1)
    · intro p k hk
      rw [setBE_curOrderID]
      exact hwf.bounded p k hk
    · intro p hhd
      rw [setBE_pricePoints] at hhd ⊢
      exact hwf.tails p hhd
    · intro k hk
      rw [setBE_curOrderID] at hk
      rw [setBE_bookEntries]
      by_cases hko : k = oid
      · subst hko
        rw [upd_same, hwf.fresh k hk]
        rfl
      · rw [upd_ne _ _ _ hko]
        exact hwf.fresh k hk
    · rw [setBE_askMin, setBE_bidMax]
      exact hwf.cross
    · rw [setBE_askMin]
      exact hwf.amax
    · rw [setBE_bidMax]
      exact hwf.bmax
    · rw [setBE_curOrderID]
      omega
    · intro i
      rw [setBE_deals]
      have hm : listSum (e.setBE oid ((e.bookEntries oid).withSize 0)).bookEntries i
          (flat L 0 maxPrice) ≤ listSum e.bookEntries i (flat L 0 maxPrice) :=
        listSum_mono (fun k _ => ⟨(hpt k).1, (hpt k).2.2⟩)
      have hs : submittedFor i (P ++ [Op.cancel oid]) = submittedFor i P := by
        rw [submittedFor_append, show submittedFor i [Op.cancel oid] = 0 from rfl,
          Nat.add_zero]
      have hai := hacc i
      omega
    · intro hnd
      rw [hlid] at hnd
      have hidok := hido hnd
      refine ⟨?_, ?_⟩
      · intro p k hk
        rw [hlid, (hpt k).1]
        exact hidok.mem p k hk
      · intro p q k j hk hj hij
        rw [(hpt k).1, (hpt j).1] at hij
        exact hidok.inj p q k j hk hj hij
  · exact absurd h (by simp)

theorem step_inv {fuel : Nat} {e e2 : Engine} {op : Op} {L : Nat → List Nat}
    {P : List Op}
    (hwf : EWF e L) (hcap : e.curOrderID ≤ P.length) (hacc : ACC e L P)
    (hido : (limitIds P).Nodup → IDOK e L P)
    (hlen : P.length + 1 < 2 ^ 64) (hvo : ValidOp op)
    (h : step fuel e op = .ok e2) :
    ∃ L2, EWF e2 L2 ∧ e2.curOrderID ≤ P.length + 1 ∧ ACC e2 L2 (P ++ [op]) ∧
      ((limitIds (P ++ [op])).Nodup → IDOK e2 L2 (P ++ [op])) := by
  cases op with
  | limit o =>
    rw [step] at h
    cases hL : Limit fuel e o with
    | error er =>
      rw [hL] at h
      exact absurd h (by simp)
    | ok pr =>
      obtain ⟨e1, oid⟩ := pr
      rw [hL] at h
      have he12 : e1 = e2 := (Except.ok.injEq _ _).mp h
      subst he12
      cases hside : o.side with
      | Bid => exact Limit_inv_bid hwf hcap hacc hido hlen hvo hside hL
      | Ask => exact Limit_inv_ask hwf hcap hacc hido hlen hvo hside hL
  | cancel oid =>
    have h2 : Cancel e oid = .ok e2 := h
    exact ⟨L, Cancel_inv hwf hcap hacc hido h2⟩

theorem run_inv {fuel : Nat} :
    ∀ (ops : List Op) (e e2 : Engine) (L : Nat → List Nat) (P : List Op),
      EWF e L → e.curOrderID ≤ P.length → ACC e L P →
      ((limitIds P).Nodup → IDOK e L P) →
      ValidOps ops → P.length + ops.length < 2 ^ 64 →
      run fuel e ops = .ok e2 →
      ∃ L2, EWF e2 L2 ∧ e2.curOrderID ≤ (P ++ ops).length ∧
        ACC e2 L2 (P ++ ops) ∧
        ((limitIds (P ++ ops)).Nodup → IDOK e2 L2 (P ++ ops)) := by
  intro ops
  induction ops with
  | nil =>
    intro e e2 L P hwf hcap hacc hido hv hlen h
    have he : e = e2 := (Except.ok.injEq _ _).mp h
    subst he
    rw [List.append_nil]
    exact ⟨L, hwf, hcap, hacc, hido⟩
  | cons op ops ih =>
    intro e e2 L P hwf hcap hacc hido hv hlen h
    rw [run] at h
    cases hs : step fuel e op with
    | error er =>
      rw [hs] at h
      exact absurd h (by simp)
    | ok e1 =>
      rw [hs] at h
      rcases step_inv hwf hcap hacc hido (by simp at hlen ⊢; omega)
          (hv op (List.mem_cons_self op ops)) hs with ⟨L1, hwf1, hcap1, hacc1, hido1⟩
      have hres := ih e1 e2 L1 (P ++ [op]) hwf1
        (by rw [List.length_append]; exact hcap1) hacc1 hido1
        (fun op2 hop2 => hv op2 (List.mem_cons_of_mem op hop2))
        (by simp at hlen ⊢; omega) h
      rw [List.append_assoc] at hres
      exact hres

theorem inv_init : EWF (Reset initEngine) (fun _ => []) ∧
    (Reset initEngine).curOrderID ≤ ([] : List Op).length ∧
    ACC (Reset initEngine) (fun _ => []) [] ∧
    ((limitIds []).Nodup → IDOK (Reset initEngine) (fun _ => []) []) := by
  refine ⟨⟨?_, ?_, ?_, ?_, ?_, ?_, ?_, ?_, ?_⟩, ?_, ?_, ?_⟩
  · intro p
    exact Chain.nil
  · intro p k hk
    exact absurd hk (List.not_mem_nil k)
  · intro p q hpq k hk
    exact absurd hk (List.not_mem_nil k)
  · intro p hhd
    exact absurd rfl hhd
  · intro k hk
    rfl
  · intro p hp
    rfl
  · decide
  · decide
  · decide
  · exact Nat.le_refl 0
  · intro i
    have hfl : flat (fun _ => ([] : List Nat)) 0 maxPrice = [] :=
      flat_empty (fun q h1 h2 => rfl)
    rw [hfl]
    exact Nat.le_refl 0
  · intro hnd
    refine ⟨?_, ?_⟩
    · intro p k hk
      exact absurd hk (List.not_mem_nil k)
    · intro p q k j hk hj hij
      exact absurd hk (List.not_mem_nil k)


/-! ## Claims C3 and C4 -/

/-- C3 (amended, aggregate form): for every run from the reset state over a
valid feed, the dealt volume involving an external id is bounded by the
total volume submitted under that id.  (The original per-order reading is
refuted by `c3_claim_counterexample`: two submits may share an external id,
and the volume attributed to that id then exceeds each single order's
size.)  The feed-length bound reflects the 64-bit order-id counter of the
embedding. -/
theorem c3_volume_conserved {fuel : Nat} {ops : List Op} {e : Engine} (i : Nat)
    (hops : ValidOps ops) (hlen : ops.length < 2 ^ 64)
    (h : run fuel (Reset initEngine) ops = .ok e) :
    dealsFor i e.deals ≤ submittedFor i ops := by
  rcases inv_init with ⟨hwf0, hcap0, hacc0, hido0⟩
  rcases run_inv ops (Reset initEngine) e (fun _ => []) [] hwf0 hcap0 hacc0 hido0
      hops (by simpa using hlen) h with ⟨L2, -, -, hacc, -⟩
  have hai := hacc i
  rw [List.nil_append] at hai
  omega

/-- Witness for C3 on the concrete duplicate-id feed. -/
theorem c3_volume_conserved_witness :
    ValidOps c3dupops ∧ c3dupops.length < 2 ^ 64 ∧
    run 40 (Reset initEngine) c3dupops = .ok c3e ∧
    dealsFor 7 c3e.deals ≤ submittedFor 7 c3dupops :=
  ⟨by decide, by decide, rfl,
    @c3_volume_conserved 40 c3dupops c3e 7 (by decide) (by decide) rfl⟩

/-- Counterexample to C3 as stated (per-order bound): in `c3dupops` both
submits carrying external id 7 have size 5, the feed is valid, yet the run
deals volume 10 under id 7 — more than either order's size. -/
theorem c3_claim_counterexample :
    ValidOps c3dupops ∧
    c3dupops = [Op.limit ⟨7, "SYM", "TA", Side.Bid, 100, 5⟩,
      Op.limit ⟨7, "SYM", "TB", Side.Bid, 100, 5⟩,
      Op.limit ⟨8, "SYM", "TC", Side.Ask, 100, 10⟩] ∧
    (dealsOf (run 40 (Reset initEngine) c3dupops)).map (dealsFor 7) = some 10 := by
  refine ⟨by decide, rfl, ?_⟩
  rfl

/-- C4: price-time priority.  After a run over a valid feed with pairwise
distinct external ids, if the FIFO list at price level `p` holds node `a`
before node `b`, then a further `Limit` call emits no deal involving `b`'s
order id before `a` is exhausted: at every prefix of the new deals, either
`a` had nothing resting, or the prefix already contains `a`'s full-size
fill. -/
theorem c4_price_time_priority {fuel fuel2 : Nat} {ops : List Op} {e e2 : Engine}
    {o : Order} {oid : Nat} {p a b : Nat} {l1 l2 l3 : List Nat}
    (hops : ValidOps ops) (hvo : ValidOp (Op.limit o))
    (hnodup : (limitIds (ops ++ [Op.limit o])).Nodup)
    (hlen : ops.length < 2 ^ 64)
    (hrun : run fuel (Reset initEngine) ops = .ok e)
    (hchain : Chain e.bookEntries (e.pricePoints p).listHead
      (l1 ++ a :: (l2 ++ b :: l3)))
    (hlim : Limit fuel2 e o = .ok (e2, oid)) :
    ∃ ds, e2.deals = e.deals ++ ds ∧
      ∀ n, (∃ d ∈ ds.take n, involves (e.bookEntries b).id d) →
        (e.bookEntries a).size = 0 ∨
        ∃ d ∈ ds.take n, involves (e.bookEntries a).id d ∧
          d.size = (e.bookEntries a).size := by
  rcases inv_init with ⟨hwf0, hcap0, hacc0, hido0⟩
  rcases run_inv ops (Reset initEngine) e (fun _ => []) [] hwf0 hcap0 hacc0 hido0
      hops (by simpa using hlen) hrun with ⟨L, hwf, -, -, hido⟩
  rcases nodup_prefix_of_append hnodup with ⟨hndP, hnotin⟩
  have hidok := hido hndP
  have hLp : L p = l1 ++ a :: (l2 ++ b :: l3) := chain_unique (hwf.chain p) hchain
  have hno : ∀ q k, k ∈ L q → (e.bookEntries k).id ≠ o.id := by
    intro q k hk hh
    exact hnotin (hh ▸ hidok.mem q k hk)
  exact Limit_c4 hwf (fun q r k j hk hj hh => hidok.inj q r k j hk hj hh)
    hno hLp hvo hlim

/-- Witness for C4 on the concrete two-bids-then-ask scenario. -/
theorem c4_price_time_priority_witness :
    ValidOps c4ops ∧ ValidOp (Op.limit oC4) ∧
    (limitIds (c4ops ++ [Op.limit oC4])).Nodup ∧
    c4ops.length < 2 ^ 64 ∧
    run 10 (Reset initEngine) c4ops = .ok c4e ∧
    Limit 10 c4e oC4 = .ok (c4post, c4oid) ∧
    ∃ ds, c4post.deals = c4e.deals ++ ds ∧
      ∀ n, (∃ d ∈ ds.take n, involves (c4e.bookEntries 2).id d) →
        (c4e.bookEntries 1).size = 0 ∨
        ∃ d ∈ ds.take n, involves (c4e.bookEntries 1).id d ∧
          d.size = (c4e.bookEntries 1).size :=
  ⟨by decide, by decide, by decide, by decide, rfl, rfl,
    @c4_price_time_priority 10 10 c4ops c4e c4post oC4 c4oid 50 1 2 [] [] []
      (by decide) (by decide) (by decide) (by decide) rfl
      (Chain.cons (Chain.cons Chain.nil)) rfl⟩

end QC
